import Mathlib

/-!
# TabMCP-ChatBot: verification of the orchestration engine, tool client and
chunk accumulator

This file is a shallow embedding, in Lean 4, of the parts of the
TabMCP-ChatBot TypeScript repository that its specification makes claims
about:

* the streaming-chunk accumulator (`parseToolCallsFromChunks`,
  `extractAnswerText`, `streamAnswerChunks`) from
  `utils/toolCallingFormat.ts` / `utils/streamingResponseHandler.ts`;
* tool-result formatting and truncation (`truncateQueryResult`,
  `truncateToolResultContent`, `formatToolResult`);
* the MCP client's retry machinery (`calculateBackoffDelay`, `shouldRetry`,
  the `_request` retry loop with its one-shot session remediation) and the
  response-envelope normalisation (`_extractJsonFromText`) from
  `server/mcpClient.ts`;
* the orchestration loop (`ToolCallingLoop.execute`, `executeToolCall`,
  `normalizeDatasourceQuery`) from `toolCallingLoop.ts`;
* the field-correction note machinery (`stringSimilarity.ts`,
  `fieldCorrection.ts`) and the gateway URL normaliser
  (`normaliseMessagesUrl` from `llmClient.ts`).

JavaScript runtime values that flow through these functions are modelled by
the inductive type `JValue` below (JSON values; `undefined` is modelled by
key absence, and number literals are restricted to integers — every claim
under verification only exercises integer numerics).  `JSON.parse` and
`JSON.stringify` are modelled by the executable functions `jparse` and
`stringify`; object spread `{...a, ...b}` by `spreadInto`.
-/

set_option maxHeartbeats 1600000

namespace TabMCP

/-- JSON/JavaScript data values.  Number literals are modelled as integers:
the code and claims under verification only manipulate integer numerics, and
`good` (below) further restricts to the range where JavaScript numbers are
exact. -/
inductive JValue where
  | null : JValue
  | bool : Bool → JValue
  | num : Int → JValue
  | str : String → JValue
  | arr : List JValue → JValue
  | obj : List (String × JValue) → JValue
deriving Repr

namespace JValue

mutual
/-- Structural equality test on `JValue`. -/
def beq : JValue → JValue → Bool
  | .null, .null => true
  | .bool a, .bool b => a = b
  | .num a, .num b => a = b
  | .str a, .str b => a = b
  | .arr a, .arr b => beqL a b
  | .obj a, .obj b => beqO a b
  | _, _ => false

/-- Structural equality on lists of values. -/
def beqL : List JValue → List JValue → Bool
  | [], [] => true
  | a :: as, b :: bs => beq a b && beqL as bs
  | _, _ => false

/-- Structural equality on key/value lists. -/
def beqO : List (String × JValue) → List (String × JValue) → Bool
  | [], [] => true
  | (ka, va) :: as, (kb, vb) :: bs => ka = kb && beq va vb && beqO as bs
  | _, _ => false
end

mutual
theorem beq_refl : ∀ v : JValue, beq v v = true
  | .null => rfl
  | .bool b => by simp [beq]
  | .num n => by simp [beq]
  | .str s => by simp [beq]
  | .arr xs => by simp [beq, beqL_refl xs]
  | .obj fs => by simp [beq, beqO_refl fs]

theorem beqL_refl : ∀ xs : List JValue, beqL xs xs = true
  | [] => rfl
  | x :: xs => by simp [beqL, beq_refl x, beqL_refl xs]

theorem beqO_refl : ∀ fs : List (String × JValue), beqO fs fs = true
  | [] => rfl
  | (k, v) :: fs => by simp [beqO, beq_refl v, beqO_refl fs]
end

mutual
theorem eq_of_beq : ∀ {a b : JValue}, beq a b = true → a = b
  | .null, .null, _ => rfl
  | .bool _, .bool _, h => by simpa [beq] using congrArg JValue.bool (by simpa [beq] using h)
  | .num _, .num _, h => by simpa [beq] using congrArg JValue.num (by simpa [beq] using h)
  | .str _, .str _, h => by simpa [beq] using congrArg JValue.str (by simpa [beq] using h)
  | .arr as, .arr bs, h => by
      have h' : beqL as bs = true := by simpa [beq] using h
      exact congrArg JValue.arr (eqL_of_beqL h')
  | .obj as, .obj bs, h => by
      have h' : beqO as bs = true := by simpa [beq] using h
      exact congrArg JValue.obj (eqO_of_beqO h')
  | .null, .bool _, h => by simp [beq] at h
  | .null, .num _, h => by simp [beq] at h
  | .null, .str _, h => by simp [beq] at h
  | .null, .arr _, h => by simp [beq] at h
  | .null, .obj _, h => by simp [beq] at h
  | .bool _, .null, h => by simp [beq] at h
  | .bool _, .num _, h => by simp [beq] at h
  | .bool _, .str _, h => by simp [beq] at h
  | .bool _, .arr _, h => by simp [beq] at h
  | .bool _, .obj _, h => by simp [beq] at h
  | .num _, .null, h => by simp [beq] at h
  | .num _, .bool _, h => by simp [beq] at h
  | .num _, .str _, h => by simp [beq] at h
  | .num _, .arr _, h => by simp [beq] at h
  | .num _, .obj _, h => by simp [beq] at h
  | .str _, .null, h => by simp [beq] at h
  | .str _, .bool _, h => by simp [beq] at h
  | .str _, .num _, h => by simp [beq] at h
  | .str _, .arr _, h => by simp [beq] at h
  | .str _, .obj _, h => by simp [beq] at h
  | .arr _, .null, h => by simp [beq] at h
  | .arr _, .bool _, h => by simp [beq] at h
  | .arr _, .num _, h => by simp [beq] at h
  | .arr _, .str _, h => by simp [beq] at h
  | .arr _, .obj _, h => by simp [beq] at h
  | .obj _, .null, h => by simp [beq] at h
  | .obj _, .bool _, h => by simp [beq] at h
  | .obj _, .num _, h => by simp [beq] at h
  | .obj _, .str _, h => by simp [beq] at h
  | .obj _, .arr _, h => by simp [beq] at h

theorem eqL_of_beqL : ∀ {as bs : List JValue}, beqL as bs = true → as = bs
  | [], [], _ => rfl
  | a :: as, b :: bs, h => by
      have h1 : beq a b = true := by
        have := h; simp [beqL] at this; exact this.1
      have h2 : beqL as bs = true := by
        have := h; simp [beqL] at this; exact this.2
      rw [eq_of_beq h1, eqL_of_beqL h2]
  | [], _ :: _, h => by simp [beqL] at h
  | _ :: _, [], h => by simp [beqL] at h

theorem eqO_of_beqO : ∀ {as bs : List (String × JValue)}, beqO as bs = true → as = bs
  | [], [], _ => rfl
  | (ka, va) :: as, (kb, vb) :: bs, h => by
      have h1 : ka = kb ∧ beq va vb = true ∧ beqO as bs = true := by
        have := h; simp [beqO] at this; tauto
      rw [h1.1, eq_of_beq h1.2.1, eqO_of_beqO h1.2.2]
  | [], _ :: _, h => by simp [beqO] at h
  | _ :: _, [], h => by simp [beqO] at h
end

instance : BEq JValue := ⟨beq⟩

instance : DecidableEq JValue := fun a b =>
  if h : beq a b = true then .isTrue (eq_of_beq h)
  else .isFalse (fun he => h (he ▸ beq_refl a))

end JValue

/-- Look a key up in a JavaScript-object key/value list (models `o[k]` /
`k in o` on plain objects; the list keeps JS insertion order, keys unique). -/
def getKey (fs : List (String × JValue)) (k : String) : Option JValue :=
  match fs with
  | [] => none
  | (k', v) :: rest => if k' = k then some v else getKey rest k

/-- `k in o` (key presence). -/
def hasKey (fs : List (String × JValue)) (k : String) : Bool :=
  (getKey fs k).isSome

/-- Set a key, JavaScript style: an existing key is updated in place (its
position in insertion order is kept), a new key is appended. -/
def setKey (fs : List (String × JValue)) (k : String) (v : JValue) :
    List (String × JValue) :=
  match fs with
  | [] => [(k, v)]
  | (k', v') :: rest =>
      if k' = k then (k', v) :: rest else (k', v') :: setKey rest k v

/-- `delete o[k]`: remove a key from an object. -/
def delKey (fs : List (String × JValue)) (k : String) : List (String × JValue) :=
  match fs with
  | [] => []
  | (k', v') :: rest => if k' = k then rest else (k', v') :: delKey rest k

/-- JavaScript object-spread `{...target, ...src}` when `src` is an object:
the keys of `src` are written over `target` one by one, in order. -/
def spreadObj (target : List (String × JValue)) (src : List (String × JValue)) :
    List (String × JValue) :=
  match src with
  | [] => target
  | (k, v) :: rest => spreadObj (setKey target k v) rest

/-- JavaScript object-spread `{...target, ...src}` for an arbitrary `src`
value: spreading an object merges its keys over `target`; spreading an array
adds its elements under the keys `"0"`, `"1"`, …; spreading a string adds its
characters under those keys; spreading `null`, a boolean or a number adds
nothing. -/
def spreadInto (target : List (String × JValue)) (src : JValue) :
    List (String × JValue) :=
  match src with
  | .obj fs => spreadObj target fs
  | .arr xs =>
      spreadObj target ((xs.enum.map fun (i, v) => (toString i, v)))
  | .str s =>
      spreadObj target
        ((s.data.enum.map fun (i, c) => (toString i, JValue.str (String.mk [c]))))
  | _ => target

/-! ## JSON.stringify model -/

/-- One hexadecimal digit (upper-case, as `JSON.stringify` emits in `\uXXXX`). -/
def hexDigitChar (n : Nat) : Char :=
  if n < 10 then Char.ofNat (48 + n) else Char.ofNat (55 + n)

/-- `JSON.stringify`'s escaping of a single character inside a string
literal: `"` and `\` get a backslash, the common control characters get their
two-character escapes, any other control character becomes `\u00XX`, and
everything else is emitted literally. -/
def escapeChar (c : Char) : List Char :=
  if c = '"' then ['\\', '"']
  else if c = '\\' then ['\\', '\\']
  else if c = '\n' then ['\\', 'n']
  else if c = '\t' then ['\\', 't']
  else if c = '\r' then ['\\', 'r']
  else if c.val = 8 then ['\\', 'b']
  else if c.val = 12 then ['\\', 'f']
  else if c.val < 32 then
    '\\' :: 'u' :: '0' :: '0' :: [hexDigitChar (c.toNat / 16), hexDigitChar (c.toNat % 16)]
  else [c]

/-- Escape a character list (string body). -/
def escList : List Char → List Char
  | [] => []
  | c :: cs => escapeChar c ++ escList cs

/-- Decimal digit character for `n < 10`. -/
def digitChar (n : Nat) : Char := Char.ofNat (48 + n)

/-- Decimal digits of a natural number, most significant first; fuel-indexed
structural recursion (`n + 1` steps always suffice since `n / 10 < n` for
`n ≥ 10`). -/
def natCharsAux : Nat → Nat → List Char
  | 0, _ => []
  | fuel + 1, n =>
      if n < 10 then [digitChar n]
      else natCharsAux fuel (n / 10) ++ [digitChar (n % 10)]

/-- Decimal digits of a natural number, most significant first. -/
def natChars (n : Nat) : List Char := natCharsAux (n + 1) n

/-- Decimal representation of an integer. -/
def intChars (n : Int) : List Char :=
  if n < 0 then '-' :: natChars n.natAbs else natChars n.natAbs

/-- Serialized form of a quoted JSON string literal. -/
def quoteChars (s : String) : List Char := '"' :: (escList s.data ++ ['"'])

mutual
/-- `JSON.stringify` (no indentation), producing a character list. -/
def stringifyChars : JValue → List Char
  | .null => "null".data
  | .bool true => "true".data
  | .bool false => "false".data
  | .num n => intChars n
  | .str s => quoteChars s
  | .arr [] => ['[', ']']
  | .arr (x :: xs) => '[' :: (stringifyChars x ++ stringifyTailA xs ++ [']'])
  | .obj [] => ['{', '}']
  | .obj ((k, v) :: fs) =>
      '{' :: (quoteChars k ++ ':' :: stringifyChars v ++ stringifyTailO fs ++ ['}'])

/-- Remaining array elements, each preceded by a comma. -/
def stringifyTailA : List JValue → List Char
  | [] => []
  | x :: xs => ',' :: (stringifyChars x ++ stringifyTailA xs)

/-- Remaining object fields, each preceded by a comma. -/
def stringifyTailO : List (String × JValue) → List Char
  | [] => []
  | (k, v) :: fs => ',' :: (quoteChars k ++ ':' :: stringifyChars v ++ stringifyTailO fs)
end

/-- `JSON.stringify` as a string-valued function. -/
def stringify (v : JValue) : String := String.mk (stringifyChars v)

/-! ## JSON.parse model

Restriction of the model: number literals are integer-only (none of the
code paths under verification produces or consumes fractional or exponent
number syntax), and `\uXXXX` escapes are decoded only for scalar values.
-/

/-- JSON insignificant whitespace (also the characters `String.trim` and
JavaScript's `trim` remove in the inputs under verification). -/
def isJWs (c : Char) : Bool :=
  c = ' ' || c = '\t' || c = '\n' || c = '\r'

/-- Drop leading JSON whitespace. -/
def skipWs : List Char → List Char
  | [] => []
  | c :: cs => if isJWs c then skipWs cs else c :: cs

/-- JavaScript `String.prototype.trim` on character lists. -/
def jsTrimChars (cs : List Char) : List Char :=
  (skipWs ((skipWs cs).reverse)).reverse

/-- JavaScript `String.prototype.trim`. -/
def jsTrim (s : String) : String := String.mk (jsTrimChars s.data)

/-- Decimal digit test. -/
def isDig (c : Char) : Bool := '0' ≤ c && c ≤ '9'

/-- Split off the longest leading run of decimal digits. -/
def takeDigits : List Char → (List Char × List Char)
  | [] => ([], [])
  | c :: cs =>
      if isDig c then
        let (ds, rest) := takeDigits cs
        (c :: ds, rest)
      else ([], c :: cs)

/-- Numeric value of a digit list (most significant first). -/
def digitsToNat (a : Nat) : List Char → Nat
  | [] => a
  | c :: cs => digitsToNat (a * 10 + (c.toNat - 48)) cs

/-- Value of one hexadecimal digit character, if it is one. -/
def hexVal (c : Char) : Option Nat :=
  if '0' ≤ c && c ≤ '9' then some (c.toNat - 48)
  else if 'A' ≤ c && c ≤ 'F' then some (c.toNat - 55)
  else if 'a' ≤ c && c ≤ 'f' then some (c.toNat - 87)
  else none

/-- Decode one single-character escape (the character after a backslash,
other than `u`). -/
def decodeSimpleEscape (e : Char) : Option Char :=
  if e = '"' then some '"'
  else if e = '\\' then some '\\'
  else if e = '/' then some '/'
  else if e = 'n' then some '\n'
  else if e = 't' then some '\t'
  else if e = 'r' then some '\r'
  else if e = 'b' then some (Char.ofNat 8)
  else if e = 'f' then some (Char.ofNat 12)
  else none

/-- Parse the body of a JSON string literal (after the opening quote),
returning the decoded string and the characters after the closing quote. -/
def parseStrBody : List Char → Option (String × List Char)
  | [] => none
  | c :: cs =>
      if c = '"' then some ("", cs)
      else if c = '\\' then
        match cs with
        | [] => none
        | e :: cs' =>
            if e = 'u' then
              match cs' with
              | h1 :: h2 :: h3 :: h4 :: cs'' =>
                  match hexVal h1, hexVal h2, hexVal h3, hexVal h4 with
                  | some a, some b, some c2, some d =>
                      let n := ((a * 16 + b) * 16 + c2) * 16 + d
                      if n < 55296 then
                        match parseStrBody cs'' with
                        | some (s, rest) =>
                            some (String.mk (Char.ofNat n :: s.data), rest)
                        | none => none
                      else none
                  | _, _, _, _ => none
              | _ => none
            else
              match decodeSimpleEscape e with
              | some d =>
                  match parseStrBody cs' with
                  | some (s, rest) => some (String.mk (d :: s.data), rest)
                  | none => none
              | none => none
      else if c.val < 32 then none
      else
        match parseStrBody cs with
        | some (s, rest) => some (String.mk (c :: s.data), rest)
        | none => none

/-- Parse a JSON number (integer syntax only; see the module-level note). -/
def parseNum (cs : List Char) : Option (JValue × List Char) :=
  match cs with
  | '-' :: rest =>
      let (ds, rest') := takeDigits rest
      if ds.isEmpty then none else some (.num (-(digitsToNat 0 ds : Int)), rest')
  | _ =>
      let (ds, rest') := takeDigits cs
      if ds.isEmpty then none else some (.num (digitsToNat 0 ds : Int), rest')

/-- Match an expected literal character sequence. -/
def stripLit : List Char → List Char → Option (List Char)
  | [], cs => some cs
  | l :: ls, c :: cs => if c = l then stripLit ls cs else none
  | _ :: _, [] => none

mutual
/-- Fuel-indexed JSON value parser (one parsing step per unit of fuel). -/
def parseVal : Nat → List Char → Option (JValue × List Char)
  | 0, _ => none
  | fuel + 1, cs =>
      match skipWs cs with
      | [] => none
      | c :: rest =>
          if c = 'n' then
            match stripLit ['u', 'l', 'l'] rest with
            | some r => some (.null, r)
            | none => none
          else if c = 't' then
            match stripLit ['r', 'u', 'e'] rest with
            | some r => some (.bool true, r)
            | none => none
          else if c = 'f' then
            match stripLit ['a', 'l', 's', 'e'] rest with
            | some r => some (.bool false, r)
            | none => none
          else if c = '"' then
            match parseStrBody rest with
            | some (s, r) => some (.str s, r)
            | none => none
          else if c = '-' || isDig c then parseNum (c :: rest)
          else if c = '[' then
            match skipWs rest with
            | ']' :: r => some (.arr [], r)
            | r => parseArrElems fuel r
          else if c = '{' then
            match skipWs rest with
            | '}' :: r => some (.obj [], r)
            | r => parseObjFields fuel r
          else none

/-- Parse the elements of a non-empty JSON array (after `[`). -/
def parseArrElems : Nat → List Char → Option (JValue × List Char)
  | 0, _ => none
  | fuel + 1, cs =>
      match parseVal fuel cs with
      | some (v, rest) =>
          match skipWs rest with
          | ',' :: r =>
              match parseArrElems fuel r with
              | some (.arr vs, r') => some (.arr (v :: vs), r')
              | _ => none
          | ']' :: r => some (.arr [v], r)
          | _ => none
      | none => none

/-- Parse the fields of a non-empty JSON object (after `{`). -/
def parseObjFields : Nat → List Char → Option (JValue × List Char)
  | 0, _ => none
  | fuel + 1, cs =>
      match skipWs cs with
      | '"' :: rest =>
          match parseStrBody rest with
          | some (k, r1) =>
              match skipWs r1 with
              | ':' :: r2 =>
                  match parseVal fuel r2 with
                  | some (v, r3) =>
                      match skipWs r3 with
                      | ',' :: r4 =>
                          match parseObjFields fuel r4 with
                          | some (.obj fs, r5) => some (.obj ((k, v) :: fs), r5)
                          | _ => none
                      | '}' :: r4 => some (.obj [(k, v)], r4)
                      | _ => none
                  | none => none
              | _ => none
          | none => none
      | _ => none
end

/-- `JSON.parse`: parse a whole string as one JSON value (the remainder
after the value must be whitespace). -/
def jparse (s : String) : Option JValue :=
  match parseVal (2 * s.length + 2) s.data with
  | some (v, rest) => if (skipWs rest).isEmpty then some v else none
  | none => none

/-! ## The `good` class of values

`good` values are those on which the Lean model of `JSON.stringify` /
`JSON.parse` agrees exactly with the JavaScript runtime: strings contain no
control characters other than tab, newline, carriage return, backspace and
form feed (so no `\uXXXX` escapes arise), and integers stay in the range
where JavaScript numbers are exact. -/

/-- Characters whose serialization round-trips in the model. -/
def goodChar (c : Char) : Bool :=
  32 ≤ c.val || c.val = 8 || c.val = 9 || c.val = 10 || c.val = 12 || c.val = 13

/-- Strings whose serialization round-trips in the model. -/
def goodStr (s : String) : Bool := s.data.all goodChar

mutual
/-- Values whose serialization round-trips in the model. -/
def good : JValue → Bool
  | .null => true
  | .bool _ => true
  | .num n => n.natAbs ≤ 2 ^ 53
  | .str s => goodStr s
  | .arr xs => goodL xs
  | .obj fs => goodO fs

/-- `good` on element lists. -/
def goodL : List JValue → Bool
  | [] => true
  | x :: xs => good x && goodL xs

/-- `good` on field lists. -/
def goodO : List (String × JValue) → Bool
  | [] => true
  | (k, v) :: fs => goodStr k && good v && goodO fs
end

/-! ## Generic JavaScript `Map` model (insertion-ordered association list) -/

/-- `Map.get`. -/
def aGet {α β : Type} [DecidableEq α] : List (α × β) → α → Option β
  | [], _ => none
  | (k', v) :: rest, k => if k' = k then some v else aGet rest k

/-- `Map.set`: an existing key keeps its position, a new key is appended. -/
def aSet {α β : Type} [DecidableEq α] : List (α × β) → α → β → List (α × β)
  | [], k, v => [(k, v)]
  | (k', v') :: rest, k, v =>
      if k' = k then (k', v) :: rest else (k', v') :: aSet rest k v

/-- `Map.delete`. -/
def aDel {α β : Type} [DecidableEq α] : List (α × β) → α → List (α × β)
  | [], _ => []
  | (k', v') :: rest, k => if k' = k then rest else (k', v') :: aDel rest k

/-- JavaScript truthiness of an optional string (`undefined`, `null` and the
empty string are falsy). -/
def optTruthy : Option String → Bool
  | none => false
  | some s => s ≠ ""

/-- JavaScript truthiness of a `JValue` (objects and arrays are always
truthy; `null`, `false`, `0` and `""` are falsy). -/
def jvTruthy : JValue → Bool
  | .null => false
  | .bool b => b
  | .num n => n ≠ 0
  | .str s => s ≠ ""
  | .arr _ => true
  | .obj _ => true

/-! ## Stream fragments and the chunk accumulator
(`llmClient.ts` `LLMResponseChunk`, `utils/toolCallingFormat.ts`) -/

/-- A content block carried by a `content_block_start` fragment
(`LLMResponseChunk.content_block`). -/
structure ContentBlock where
  type : String
  text : Option String := none
  id : Option String := none
  tool_use_id : Option String := none
  name : Option String := none
  input : Option JValue := none
deriving Repr, DecidableEq, Inhabited

/-- A delta carried by a `content_block_delta` fragment
(`LLMResponseChunk.delta`). -/
structure Delta where
  type : String
  text : Option String := none
  partial_json : Option String := none
deriving Repr, DecidableEq, Inhabited

/-- One fragment of the model's stream (`LLMResponseChunk`). -/
structure LLMResponseChunk where
  type : String
  index : Option Nat := none
  content_block : Option ContentBlock := none
  delta : Option Delta := none
deriving Repr, DecidableEq

/-- A complete tool call extracted from the stream
(`toolCallingFormat.ts` `ToolCall`). -/
structure ToolCall where
  id : String
  name : String
  input : JValue
deriving Repr, DecidableEq

/-- A formatted tool result (`toolCallingFormat.ts` `ToolResult`). -/
structure ToolResult where
  tool_use_id : String
  content : String
  isError : Bool
deriving Repr, DecidableEq

/-- Accumulator state of `parseToolCallsFromChunks`: the completed calls and
the three maps the function maintains. -/
structure PTCState where
  toolCalls : List ToolCall
  indexToToolUseId : List (Nat × String)
  toolCallMap : List (String × ToolCall)
  inputBuffers : List (String × String)
deriving Repr, DecidableEq

/-- Initial accumulator state. -/
def ptcInit : PTCState := ⟨[], [], [], []⟩

/-- `a ?? b` on optional strings (nullish coalescing). -/
def nullish (a b : Option String) : Option String :=
  match a with
  | some x => some x
  | none => b

/-- `chunk.content_block?.tool_use_id ?? chunk.content_block?.id`. -/
def cbToolUseId (cb : Option ContentBlock) : Option String :=
  nullish (cb.bind (·.tool_use_id)) (cb.bind (·.id))

/-- `{...(toolCall.input || {}), ...parsedInput}`: merge the parsed
accumulated JSON over the input given at block start. -/
def mergeParsedInput (base : JValue) (parsed : JValue) : JValue :=
  .obj (spreadInto (spreadInto [] (if jvTruthy base then base else .obj [])) parsed)

/-- The final validation `toolCall.id && toolCall.name && toolCall.input`
before a call is pushed. -/
def tcValid (tc : ToolCall) : Bool :=
  tc.id ≠ "" && tc.name ≠ "" && jvTruthy tc.input

/-- One iteration of the `for await (const chunk of chunks)` loop of
`parseToolCallsFromChunks`.  The three `if` bodies of the source test
`chunk.type` against three different literals, so at most one fires. -/
def ptcStep (st : PTCState) (chunk : LLMResponseChunk) : PTCState :=
  -- Handle content_block_start (tool_use)
  if chunk.type = "content_block_start" ∧
      (chunk.content_block.map (·.type)) = some "tool_use" then
    let cb := chunk.content_block.get!
    let toolUseId := nullish cb.tool_use_id cb.id
    if optTruthy toolUseId ∧ optTruthy cb.name then
      let tid := toolUseId.getD ""
      let inputVal :=
        match cb.input with
        | some v => if jvTruthy v then v else .obj []
        | none => .obj []
      let st1 : PTCState :=
        { st with
          toolCallMap := aSet st.toolCallMap tid ⟨tid, cb.name.getD "", inputVal⟩
          inputBuffers := aSet st.inputBuffers tid "" }
      match chunk.index with
      | some i => { st1 with indexToToolUseId := aSet st1.indexToToolUseId i tid }
      | none => st1
    else st
  -- Handle input_json_delta: resolve the owning buffer by chunk.index
  else if chunk.type = "content_block_delta" ∧
      (chunk.delta.map (·.type)) = some "input_json_delta" then
    let d := chunk.delta.get!
    let fromIndex :=
      match chunk.index with
      | some i => aGet st.indexToToolUseId i
      | none => none
    let toolUseId :=
      if optTruthy fromIndex then fromIndex else cbToolUseId chunk.content_block
    match d.partial_json with
    | some pj =>
        if optTruthy toolUseId ∧ pj ≠ "" ∧ (jsTrim pj).length > 0 then
          let tid := toolUseId.getD ""
          let current := (aGet st.inputBuffers tid).getD ""
          { st with inputBuffers := aSet st.inputBuffers tid (current ++ pj) }
        else st
    | none => st
  -- Handle content_block_stop
  else if chunk.type = "content_block_stop" then
    let fromCb := cbToolUseId chunk.content_block
    let toolUseId :=
      if ¬ optTruthy fromCb then
        match chunk.index with
        | some i => aGet st.indexToToolUseId i
        | none => fromCb
      else fromCb
    if optTruthy toolUseId then
      let tid := toolUseId.getD ""
      match aGet st.toolCallMap tid with
      | some tc =>
          let bufOpt := aGet st.inputBuffers tid
          let tc' :=
            if optTruthy bufOpt ∧ (jsTrim (bufOpt.getD "")).length > 0 then
              match jparse (bufOpt.getD "") with
              | some parsed => { tc with input := mergeParsedInput tc.input parsed }
              | none => tc            -- parse failure: warn, keep original input
            else tc
          let pushed := if tcValid tc' then st.toolCalls ++ [tc'] else st.toolCalls
          let st1 : PTCState :=
            { st with
              toolCalls := pushed
              toolCallMap := aDel st.toolCallMap tid
              inputBuffers := aDel st.inputBuffers tid }
          match chunk.index with
          | some i => { st1 with indexToToolUseId := aDel st1.indexToToolUseId i }
          | none => st1
      | none => st
    else st
  else st

/-- `parseToolCallsFromChunks`: run the loop over the whole fragment stream
and then flush the buffers that never saw a `content_block_stop`
("incomplete, but we'll include them"). -/
def parseToolCallsFromChunks (chunks : List LLMResponseChunk) : List ToolCall :=
  let final := chunks.foldl ptcStep ptcInit
  final.toolCalls ++ (final.toolCallMap.map (·.2)).filter tcValid

/-- `streamingResponseHandler.ts` `extractAnswerText`: the text of a
`text_delta` or of an initial text block (`|| null` turns an empty string
into `null`). -/
def extractAnswerText (chunk : LLMResponseChunk) : Option String :=
  if chunk.type = "content_block_delta" ∧ (chunk.delta.map (·.type)) = some "text_delta" then
    match chunk.delta.bind (·.text) with
    | some t => if t ≠ "" then some t else none
    | none => none
  else if chunk.type = "content_block_start" ∧
      (chunk.content_block.map (·.type)) = some "text" then
    match chunk.content_block.bind (·.text) with
    | some t => if t ≠ "" then some t else none
    | none => none
  else none

/-! ## String helpers (JavaScript string primitives on the model) -/

/-- `pat` is a prefix of `cs`. -/
def isPrefList : List Char → List Char → Bool
  | [], _ => true
  | _ :: _, [] => false
  | p :: ps, c :: cs => p = c && isPrefList ps cs

/-- `cs` contains `pat` as a contiguous sublist (`String.prototype.includes`). -/
def hasSub : List Char → List Char → Bool
  | [], pat => pat.isEmpty
  | c :: cs, pat => isPrefList pat (c :: cs) || hasSub cs pat

/-- `s.includes(pat)`. -/
def strIncludes (s pat : String) : Bool := hasSub s.data pat.data

/-- `s.startsWith(pat)`. -/
def strStarts (s pat : String) : Bool := isPrefList pat.data s.data

/-- `s.endsWith(pat)`. -/
def strEnds (s pat : String) : Bool := isPrefList pat.data.reverse s.data.reverse

/-- `s.slice(n)` (drop the first `n` UTF-16 units; the strings under
verification stay in the basic plane, where units and characters agree). -/
def strDrop (s : String) (n : Nat) : String := String.mk (s.data.drop n)

/-- `s.slice(0, n)`. -/
def strTake (s : String) (n : Nat) : String := String.mk (s.data.take n)

/-- `s.lastIndexOf(c)`: index of the last occurrence, `-1` if absent. -/
def lastIdxOf (cs : List Char) (c : Char) : Int :=
  match cs with
  | [] => -1
  | c' :: rest =>
      let r := lastIdxOf rest c
      if r ≥ 0 then r + 1 else if c' = c then 0 else -1

/-- `s.split('\n')` on character lists: pieces between newline characters,
with empty pieces kept, JavaScript style. -/
def splitNlChars : List Char → List (List Char)
  | [] => [[]]
  | c :: cs =>
      if c = '\n' then [] :: splitNlChars cs
      else
        match splitNlChars cs with
        | [] => [[c]]
        | l :: ls => (c :: l) :: ls

/-- `s.split('\n')`. -/
def splitNl (s : String) : List String :=
  (splitNlChars s.data).map String.mk

/-- `lines.join('\n')`. -/
def joinNl : List String → String
  | [] => ""
  | [l] => l
  | l :: ls => l ++ "\n" ++ joinNl ls

/-- ASCII `toLowerCase`. -/
def lowerStr (s : String) : String := String.mk (s.data.map Char.toLower)

/-- Byte length of the UTF-8 encoding (`Buffer.byteLength(s, 'utf8')`). -/
def byteLen (s : String) : Nat := s.utf8ByteSize

/-! ## Tool-result truncation and formatting
(`utils/toolCallingFormat.ts` lines 198–349).

`MAX_QUERY_RESULT_ROWS` and `MAX_TOOL_RESULT_SIZE_BYTES` come from the
configuration module (environment-provided); they appear here as the
parameters `rowCap` and `byteCap`. -/

/-- The suffix appended to a byte-truncated tool-result content. -/
def truncationIndicator : String := "... [TRUNCATED: result too large]"

/-- `truncateQueryResult`: cap a query result's `data` array at `rowCap`
rows and attach a `_metadata` block recording the original count. -/
def truncateQueryResult (rowCap : Nat) (result : JValue) : JValue :=
  match result with
  | .obj fs =>
      match getKey fs "data" with
      | some (.arr rows) =>
          let totalRows := rows.length
          if totalRows > rowCap then
            .obj (setKey (setKey fs "data" (.arr (rows.take rowCap))) "_metadata"
              (.obj [("totalRows", .num totalRows),
                     ("returnedRows", .num rowCap),
                     ("truncated", .bool true),
                     ("note", .str ("Result truncated: showing first " ++ toString rowCap ++
                       " of " ++ toString totalRows ++ " rows"))]))
          else result
      | _ => result
  | _ => result

/-- `truncateToolResultContent`: cut serialized content down to `byteCap`
bytes, preferring the last `}`/`]` boundary past 80% of the cut, falling
back to a wrapper object when the cut prefix is not valid JSON, and always
appending the truncation indicator.  The float comparison
`lastBoundary > maxContentSize * 0.8` is modelled exactly over ℤ
(`5 * lastBoundary > 4 * maxContentSize`). -/
def truncateToolResultContent (byteCap : Nat) (content : String) : String :=
  let sizeBytes := byteLen content
  if sizeBytes ≤ byteCap then content
  else
    let maxContentSize := byteCap - byteLen truncationIndicator
    let truncated0 := strTake content maxContentSize
    let lastBrace := lastIdxOf truncated0.data '}'
    let lastBracket := lastIdxOf truncated0.data ']'
    let lastBoundary := max lastBrace lastBracket
    let truncated1 :=
      if 5 * lastBoundary > 4 * (maxContentSize : Int) then
        strTake truncated0 (lastBoundary + 1).toNat
      else truncated0
    let truncated2 :=
      match jparse truncated1 with
      | some _ => truncated1
      | none =>
          stringify (.obj [("_truncated", .bool true),
            ("_note", .str "Result was too large and had to be truncated"),
            ("_originalSizeBytes", .num sizeBytes),
            ("_truncatedSizeBytes", .num (byteLen truncated1))])
    truncated2 ++ truncationIndicator

/-- `formatToolResult`: row-cap, serialize and byte-cap a tool result.  The
`JSON.stringify` failure fallback (circular references) cannot arise on
`JValue` and is therefore not reachable in the model.  The `Error` thrown on
an invalid `toolUseId` is the `.error` case. -/
def formatToolResult (rowCap byteCap : Nat) (toolUseId : String) (result : JValue)
    (isError : Bool) : Except String ToolResult :=
  if toolUseId = "" ∨ (jsTrim toolUseId).length = 0 then
    .error "Tool use ID must be a non-empty string"
  else
    let truncatedResult := truncateQueryResult rowCap result
    let content := stringify truncatedResult
    let content2 := truncateToolResultContent byteCap content
    .ok ⟨jsTrim toolUseId, content2, isError⟩

/-! ## Remote Tool Client retry machinery (`server/mcpClient.ts`) -/

/-- `RetryOptions` with the `DEFAULT_RETRY_OPTIONS` values as defaults. -/
structure RetryOptions where
  maxRetries : Nat := 3
  initialDelayMs : Nat := 1000
  maxDelayMs : Nat := 10000
  backoffMultiplier : Nat := 2
  retryOnServerError : Bool := true
  retryOnNetworkError : Bool := true
  retryOnTimeout : Bool := true
deriving Repr, DecidableEq

/-- `DEFAULT_RETRY_OPTIONS`. -/
def DEFAULT_RETRY_OPTIONS : RetryOptions := {}

/-- `calculateBackoffDelay`: exponential backoff capped at `maxDelayMs`. -/
def calculateBackoffDelay (attempt initialDelayMs maxDelayMs multiplier : Nat) : Nat :=
  min (initialDelayMs * multiplier ^ attempt) maxDelayMs

/-- The `MCPError` shape: an `Error` with optional `code`, optional
`data.body` (when `data` is an object carrying a `body`) and the
`isMcpError` marker. -/
structure MCPError where
  name : String := "Error"
  message : String := ""
  code : Option Int := none
  dataBody : Option String := none
  isMcpError : Bool := false
deriving Repr, DecidableEq

/-- JavaScript truthiness of `error.code` (`undefined` and `0` are falsy). -/
def codeTruthy (e : MCPError) : Bool :=
  match e.code with
  | some c => c ≠ 0
  | none => false

/-- `shouldRetry`: the retry decision for a classified error.  The branch
structure mirrors the source: the status-code checks run only under a truthy
`error.code` and fall through to the name/network checks when no range
matches (e.g. negative protocol codes). -/
def shouldRetry (e : MCPError) (attempt maxRetries : Nat) (o : RetryOptions) : Bool :=
  if maxRetries ≤ attempt then false
  else
    let afterCodeBlock : Bool :=
      if e.name = "AbortError" ∨ e.name = "TypeError" ∨ ¬ codeTruthy e then
        o.retryOnNetworkError
      else if e.isMcpError ∧ codeTruthy e ∧ e.code.getD 0 < 0 then false
      else false
    if codeTruthy e then
      let c := e.code.getD 0
      if 500 ≤ c ∧ c < 600 then o.retryOnServerError
      else if c = 429 then true
      else if c = 408 then o.retryOnTimeout
      else if 400 ≤ c ∧ c < 500 then false
      else afterCodeBlock
    else afterCodeBlock

/-- `_isSessionIdError`: an HTTP 400 whose body (or message, when the error
carries no object `data`) mentions a session ID. -/
def isSessionIdError (e : MCPError) : Bool :=
  if e.code = some 400 then
    let errorText :=
      match e.dataBody with
      | some b => b
      | none => e.message
    strIncludes errorText "No valid session ID" || strIncludes errorText "session ID"
  else false

/-- `_isAcceptHeaderError`. -/
def isAcceptHeaderError (e : MCPError) : Bool :=
  e.code = some 406 ||
    (e.code = some 400 && strIncludes (lowerStr e.message) "accept")

/-! ## Response-envelope normalisation (`_extractJsonFromText`,
`mcpClient.ts` lines 496–607) -/

/-- The SSE stage: when the text contains `data:` and a newline, collect the
`data: `-prefixed lines (minus `[DONE]`), join them with newlines and try to
parse; on success the function returns that value, on failure `cleaned`
becomes the joined data.  `.inl` is the early return, `.inr` the updated
`cleaned`. -/
def sseStage (cleaned : String) : JValue ⊕ String :=
  if strIncludes cleaned "data:" && strIncludes cleaned "\n" then
    let dataLines := (splitNl cleaned).filterMap fun line =>
      let t := jsTrim line
      if strStarts t "data: " then
        let dataContent := jsTrim (strDrop t 6)
        if dataContent ≠ "[DONE]" then some dataContent else none
      else none
    if dataLines.length > 0 then
      let combinedData := joinNl dataLines
      match jparse combinedData with
      | some v => .inl v
      | none => .inr combinedData
    else .inr cleaned
  else .inr cleaned

/-- The per-line handler of the SSE stage (the loop body over `lines` in
`_extractJsonFromText`): a trimmed line starting with `data: ` contributes its
trimmed payload unless it is the `[DONE]` marker. -/
def sseDataLine (line : String) : Option String :=
  let t := jsTrim line
  if strStarts t "data: " then
    let dataContent := jsTrim (strDrop t 6)
    if dataContent ≠ "[DONE]" then some dataContent else none
  else none

/-- The markdown code-fence stage, modelling
`/^```(?:json)?\s*\n?([\s\S]*?)\n?```$/` followed by `.trim()` on the
captured group: when the text is wrapped in a fence the result is the fence
body trimmed (which is what the lazy group plus the outer `trim` produce for
every fenced input). -/
def fenceStage (cleaned : String) : String :=
  if strStarts cleaned "```json" ∧ cleaned.length ≥ 10 ∧ strEnds cleaned "```" then
    jsTrim (strTake (strDrop cleaned 7) (cleaned.length - 10))
  else if strStarts cleaned "```" ∧ cleaned.length ≥ 6 ∧ strEnds cleaned "```" then
    jsTrim (strTake (strDrop cleaned 3) (cleaned.length - 6))
  else cleaned

/-- The balanced-brace scanner of the fallback stage: walk the text tracking
depth, string state and escape state; when the depth returns to zero at the
expected closing character, yield the consumed prefix. -/
def scanB (endChar : Char) : List Char → Int → Bool → Bool → List Char → Option (List Char)
  | [], _, _, _, _ => none
  | c :: cs, depth, inString, escapeNext, acc =>
      if escapeNext then scanB endChar cs depth inString false (c :: acc)
      else if c = '\\' then scanB endChar cs depth inString true (c :: acc)
      else if c = '"' then scanB endChar cs depth (!inString) false (c :: acc)
      else if inString then scanB endChar cs depth inString escapeNext (c :: acc)
      else if c = '{' ∨ c = '[' then scanB endChar cs (depth + 1) inString escapeNext (c :: acc)
      else if c = '}' ∨ c = ']' then
        let d := depth - 1
        if d = 0 ∧ c = endChar then some (c :: acc).reverse
        else scanB endChar cs d inString escapeNext (c :: acc)
      else scanB endChar cs depth inString escapeNext (c :: acc)

/-- Locate the first `{` or `[` (whichever comes first) and return the text
from it together with the matching closing character. -/
def firstBraceSuffix : List Char → Option (List Char × Char)
  | [] => none
  | c :: cs =>
      if c = '{' then some (c :: cs, '}')
      else if c = '[' then some (c :: cs, ']')
      else firstBraceSuffix cs

/-- The brace-scan stage: extract the first balanced `{…}`/`[…]` substring
(respecting string and escape state) and parse it; `none` means the overall
function falls back to returning the original text. -/
def braceStage (cleaned : String) : Option JValue :=
  match firstBraceSuffix cleaned.data with
  | none => none
  | some (suffix, endChar) =>
      match scanB endChar suffix 0 false false [] with
      | some sub => jparse (String.mk sub)
      | none => none

/-- `_extractJsonFromText`: SSE extraction, fence stripping, direct parse,
balanced-brace scan — in that order; every failure path returns the original
text (a JavaScript string value, i.e. `.str text`). -/
def extractJsonFromText (text : String) : JValue :=
  let cleaned := jsTrim text
  match sseStage cleaned with
  | .inl v => v
  | .inr cleaned1 =>
      let cleaned2 := fenceStage cleaned1
      match jparse cleaned2 with
      | some v => v
      | none =>
          match braceStage cleaned2 with
          | some v => v
          | none => .str text

/-- The result-content extraction of `_request` (`mcpClient.ts` lines
1199–1217): the joined text fragments go through `_extractJsonFromText`,
and a string result is put through it a second time (double-encoded
responses). -/
def parseContentText (combinedText : String) : JValue :=
  match extractJsonFromText combinedText with
  | .str s2 => extractJsonFromText s2
  | v => v

/-! ## The `_request` retry loop (`mcpClient.ts` lines 881–1317)

The network is abstracted by an outcome oracle: `outcome a` is what the
fetch/parse of loop attempt `a` produces, and `initOk k` whether the `k`-th
forced `_initializeSession(true)` succeeds.  The trace records the number of
fetch attempts, the forced re-initialisations, and every backoff delay that
was actually awaited. -/

/-- What one fetch attempt of `_request` produces. -/
inductive AttemptOutcome where
  /-- 2xx response that parses and carries no protocol error. -/
  | ok : AttemptOutcome
  /-- `!response.ok`: HTTP error with status and (already truncated) body. -/
  | httpError (status : Int) (statusText body : String) : AttemptOutcome
  /-- fetch aborted by the timeout (`AbortError`). -/
  | abortTimeout : AttemptOutcome
  /-- fetch threw a non-MCP error (network failure; name ≠ `AbortError`). -/
  | networkError (msg : String) : AttemptOutcome
  /-- 2xx response whose JSON-RPC body carries `error` (protocol error;
  parse errors behave identically with code `-32700`). -/
  | protocolError (code : Int) (msg : String) : AttemptOutcome
deriving Repr, DecidableEq

/-- Decidable equality for `Except` results. -/
instance {ε α : Type} [DecidableEq ε] [DecidableEq α] : DecidableEq (Except ε α) := fun x y =>
  match x, y with
  | .ok a, .ok b => if h : a = b then .isTrue (by rw [h]) else .isFalse (by simp [h])
  | .error a, .error b => if h : a = b then .isTrue (by rw [h]) else .isFalse (by simp [h])
  | .ok _, .error _ => .isFalse (by simp)
  | .error _, .ok _ => .isFalse (by simp)

/-- Trace and result of one `_request` call. -/
structure RequestTrace where
  attemptsMade : Nat
  inits : Nat
  sleeps : List Nat
  result : Except MCPError Unit
deriving Repr, DecidableEq

/-- Truncation of an HTTP error body to 500 characters. -/
def truncBody (body : String) : String :=
  if body.length > 500 then strTake body 500 ++ "... (truncated)" else body

/-- The `MCPError` built for an HTTP error response. -/
def httpMCPError (status : Int) (statusText body : String) : MCPError :=
  { name := "Error"
    message := "MCP request failed: " ++ toString status ++ " " ++ statusText ++ ". " ++
      truncBody body
    code := some status
    dataBody := some (truncBody body)
    isMcpError := true }

/-- The `MCPError` built in the catch for an `AbortError` (timeout). -/
def timeoutMCPError : MCPError :=
  { name := "Error", message := "MCP request timeout", code := some 408, isMcpError := true }

/-- The wrapping of a non-MCP fetch error. -/
def wrappedNetworkError (msg : String) : MCPError :=
  { name := "Error", message := "MCP request failed: " ++ msg, isMcpError := true }

/-- The `MCPError` built for a JSON-RPC protocol error. -/
def protocolMCPError (code : Int) (msg : String) : MCPError :=
  { name := "Error", message := msg, code := some code, isMcpError := true }

/-- One pass of the `for (attempt… )` loop of `_request`, carried on by
recursion.  `fuel` is the number of loop iterations still allowed
(`maxRetries + 1 - attempt`); exhausting it is the fall-out-of-loop path
that throws `lastError`.  A retryable error thrown after targeted
remediation is re-caught by the inner catch (lines 1237–1284), which is why
the `done` branch still consults `shouldRetry` before giving up — this
mirrors the source control flow, not its comments. -/
def requestLoopAux (outcome : Nat → AttemptOutcome) (initOk : Nat → Bool)
    (ro : RetryOptions) :
    Nat → Nat → Bool → Bool → Option MCPError → Nat → List Nat → Nat → RequestTrace
  | 0, _, _, _, lastError, inits, sleeps, attempts =>
      -- lines 1313–1316: loop exhausted
      ⟨attempts, inits, sleeps,
        .error (lastError.getD { message := "MCP request failed: Unknown error" })⟩
  | fuel + 1, attempt, done, targeted, _lastError, inits, sleeps, attempts =>
      -- lines 897–918: backoff delay unless this is the targeted-remediation replay
      let sleeps :=
        if 0 < attempt ∧ ¬ targeted then
          sleeps ++ [calculateBackoffDelay (attempt - 1) ro.initialDelayMs ro.maxDelayMs
            ro.backoffMultiplier]
        else sleeps
      let attempts := attempts + 1
      match outcome attempt with
      | .ok => ⟨attempts, inits, sleeps, .ok ()⟩
      | .httpError status statusText body =>
          let e := httpMCPError status statusText body
          -- lines 998–1015: one-shot session remediation (first attempt only)
          if isSessionIdError e ∧ attempt = 0 ∧ ¬ done then
            if initOk inits then
              requestLoopAux outcome initOk ro fuel (attempt + 1) true true (some e)
                (inits + 1) sleeps attempts
            else
              -- init failed: fall through to normal handling (remediation not marked done)
              if isAcceptHeaderError e ∧ attempt = 0 ∧ ¬ done then
                requestLoopAux outcome initOk ro fuel (attempt + 1) true true (some e)
                  (inits + 1) sleeps attempts
              else if shouldRetry e attempt ro.maxRetries ro then
                requestLoopAux outcome initOk ro fuel (attempt + 1) done false (some e)
                  (inits + 1) sleeps attempts
              else ⟨attempts, inits + 1, sleeps, .error e⟩
          -- lines 1017–1026: one-shot Accept-header remediation (first attempt only)
          else if isAcceptHeaderError e ∧ attempt = 0 ∧ ¬ done then
            requestLoopAux outcome initOk ro fuel (attempt + 1) true true (some e)
              inits sleeps attempts
          -- lines 1028–1034: throw after targeted remediation … but the inner
          -- catch re-catches the throw and retries when `shouldRetry` holds
          else if done then
            if shouldRetry e attempt ro.maxRetries ro then
              requestLoopAux outcome initOk ro fuel (attempt + 1) done false (some e)
                inits sleeps attempts
            else ⟨attempts, inits, sleeps, .error e⟩
          -- lines 1036–1048: normal retry decision
          else if shouldRetry e attempt ro.maxRetries ro then
            requestLoopAux outcome initOk ro fuel (attempt + 1) done false (some e)
              inits sleeps attempts
          else ⟨attempts, inits, sleeps, .error e⟩
      | .abortTimeout =>
          -- lines 1242–1256
          let e := timeoutMCPError
          if shouldRetry e attempt ro.maxRetries ro then
            requestLoopAux outcome initOk ro fuel (attempt + 1) done false (some e)
              inits sleeps attempts
          else ⟨attempts, inits, sleeps, .error e⟩
      | .networkError msg =>
          -- lines 1269–1283
          let e := wrappedNetworkError msg
          if shouldRetry e attempt ro.maxRetries ro then
            requestLoopAux outcome initOk ro fuel (attempt + 1) done false (some e)
              inits sleeps attempts
          else ⟨attempts, inits, sleeps, .error e⟩
      | .protocolError code msg =>
          -- lines 1176–1189, then the inner catch's `shouldRetry` on an MCP error
          let e := protocolMCPError code msg
          if shouldRetry e attempt ro.maxRetries ro then
            requestLoopAux outcome initOk ro fuel (attempt + 1) done false (some e)
              inits sleeps attempts
          else ⟨attempts, inits, sleeps, .error e⟩

/-- One `_request` call under the outcome oracle. -/
def requestModel (outcome : Nat → AttemptOutcome) (initOk : Nat → Bool)
    (ro : RetryOptions) : RequestTrace :=
  requestLoopAux outcome initOk ro (ro.maxRetries + 1) 0 false false none 0 [] 0

/-! ## JavaScript conversions used by `executeToolCall` -/

mutual
/-- `String(v)` (the property accesses under verification never convert
arrays of objects, so `Array.prototype.toString` is modelled through the
same function). -/
def jsString : JValue → String
  | .null => "null"
  | .bool b => if b then "true" else "false"
  | .num n => String.mk (intChars n)
  | .str s => s
  | .arr xs => jsStringElems xs
  | .obj _ => "[object Object]"

/-- `Array.prototype.toString`: elements joined by commas (`null` becomes
the empty string). -/
def jsStringElems : List JValue → String
  | [] => ""
  | [x] => (match x with | .null => "" | v => jsString v)
  | x :: xs => (match x with | .null => "" | v => jsString v) ++ "," ++ jsStringElems xs
end

/-- `String(v)` where `v` may be `undefined` (absent property). -/
def jsStringU : Option JValue → String
  | none => "undefined"
  | some v => jsString v

/-- Property access `v.k` (absent on non-objects; the inputs under
verification never access properties of `null`, which would throw). -/
def getProp (v : JValue) (k : String) : Option JValue :=
  match v with
  | .obj fs => getKey fs k
  | _ => none

/-- `Number(v)` restricted to the exact cases (integers and integer-shaped
strings); `none` stands for `NaN`/non-integer results, which the claims
under verification never inspect. -/
def jsNumber : JValue → Option Int
  | .num n => some n
  | .bool b => some (if b then 1 else 0)
  | .null => some 0
  | .str s =>
      (jparse (jsTrim s)).bind fun v =>
        match v with
        | .num n => some n
        | _ => none
  | _ => none

/-! ## Query normalisation (`ToolCallingLoop.normalizeDatasourceQuery`,
`toolCallingLoop.ts` lines 107–192) -/

/-- Per-field normalisation: rename `aggregation` to `function` when
`function` is absent; drop `aggregation` when both are present.  A renamed
`function` key is appended (JavaScript assignment of a fresh key), the
`aggregation` key is removed from its position. -/
def normalizeField (field : JValue) : JValue :=
  match field with
  | .obj fo =>
      if hasKey fo "aggregation" ∧ ¬ hasKey fo "function" then
        .obj (delKey (setKey fo "function" ((getKey fo "aggregation").getD .null)) "aggregation")
      else if hasKey fo "aggregation" ∧ hasKey fo "function" then
        .obj (delKey fo "aggregation")
      else .obj fo
  | _ => field

/-- The `min`/`max` rewrite of a date filter (`toolCallingLoop.ts` lines
171–184, split out of `normalizeFilter` for proof structuring): map `min`
to `minDate` and `max` to `maxDate`, then set `dateRangeType: "RANGE"` when
either bound is present. -/
def filterMinMaxTail (fo1 : List (String × JValue)) : List (String × JValue) :=
  let fo2 :=
    if hasKey fo1 "min" then
      delKey (setKey fo1 "minDate" ((getKey fo1 "min").getD .null)) "min"
    else fo1
  let fo3 :=
    if hasKey fo2 "max" then
      delKey (setKey fo2 "maxDate" ((getKey fo2 "max").getD .null)) "max"
    else fo2
  if hasKey fo3 "minDate" ∨ hasKey fo3 "maxDate" then
    setKey fo3 "dateRangeType" (.str "RANGE")
  else fo3

/-- Per-filter normalisation: a `QUANTITATIVE_DATE` or `DATE` filter
carrying `min`/`max` becomes a `DATE` filter with `minDate`/`maxDate` and
`dateRangeType: "RANGE"` (and loses `quantitativeFilterType`). -/
def normalizeFilter (filter : JValue) : JValue :=
  match filter with
  | .obj fo =>
      let filterType := getKey fo "filterType"
      let hasMinMax := hasKey fo "min" ∨ hasKey fo "max"
      let isQD := filterType = some (.str "QUANTITATIVE_DATE")
      let isD := filterType = some (.str "DATE")
      if (isQD ∨ isD) ∧ hasMinMax then
        .obj (filterMinMaxTail
          (if isQD then delKey (setKey fo "filterType" (.str "DATE")) "quantitativeFilterType"
           else fo))
      else .obj fo
  | _ => filter

/-- The `fields` pass of `normalizeDatasourceQuery` (`toolCallingLoop.ts`
lines 120–146): map `normalizeField` over a `fields` array. -/
def applyFieldsRewrite (qo1 : List (String × JValue)) : List (String × JValue) :=
  match getKey qo1 "fields" with
  | some (.arr fs) => setKey qo1 "fields" (.arr (fs.map normalizeField))
  | _ => qo1

/-- The `filters` pass of `normalizeDatasourceQuery` (lines 149–189): map
`normalizeFilter` over a `filters` array. -/
def applyFiltersRewrite (qo2 : List (String × JValue)) : List (String × JValue) :=
  match getKey qo2 "filters" with
  | some (.arr fl) => setKey qo2 "filters" (.arr (fl.map normalizeFilter))
  | _ => qo2

/-- `normalizeDatasourceQuery`: copy the query, drop a top-level `limit`,
normalise each field and each filter.  The function operates on (and
returns) a fresh value; the caller's query object is never mutated. -/
def normalizeDatasourceQuery (query : JValue) : JValue :=
  match query with
  | .obj qo =>
      .obj (applyFiltersRewrite (applyFieldsRewrite
        (if hasKey qo "limit" then delKey qo "limit" else qo)))
  | _ => query

/-! ## Tool dispatch (`ToolCallingLoop.executeToolCall`,
`toolCallingLoop.ts` lines 194–393)

The MCP client is abstracted by a function from typed client calls to
results; the embedding additionally returns the list of client calls made,
in order, so that "never reaches the Remote Tool Client" is a statement
about the trace.  `mapErrorToUserFriendly` (an error-message table) is
abstracted by the `mapErr` parameter, and the typo-suggestion enrichment of
`-32602` errors by `suggestNote` — neither affects which calls are made,
except for the metadata fetch the suggestion block itself performs, which
the embedding does perform and record. -/

/-- A call to one of the MCP client methods. -/
inductive ClientCall where
  | listDatasources (filter : Option String) (pageSize : Option Int) (limit : Option Int)
  | getDatasourceMetadata (luid : String)
  | queryDatasource (luid : String) (query : JValue)
  | getWorkbook (id : String)
  | listViews (filter : Option String) (pageSize : Option Int) (limit : Option Int)
deriving Repr, DecidableEq

/-- An error thrown inside the `try` of `executeToolCall`: either a plain
`new Error(message)` or an `MCPError` from the client. -/
inductive ThrownErr where
  | plain (msg : String)
  | mcpErr (e : MCPError)
deriving Repr, DecidableEq

/-- The user-facing mapping `mapErrorToUserFriendly` produces a message and
recovery suggestions. -/
structure UserFriendlyError where
  message : String
  recoverySuggestions : List String
deriving Repr, DecidableEq

/-- Everything `executeToolCall` needs from its surroundings. -/
structure ToolEnv where
  /-- The MCP client: each method call either returns a value or throws. -/
  mcp : ClientCall → Except MCPError JValue
  /-- `mapErrorToUserFriendly` (abstracted error-message table). -/
  mapErr : ThrownErr → UserFriendlyError
  /-- `MAX_QUERY_RESULT_ROWS` (environment-configured). -/
  rowCap : Nat
  /-- `MAX_TOOL_RESULT_SIZE_BYTES` (environment-configured). -/
  byteCap : Nat

/-- `String(input.datasourceLuid || '').trim()`. -/
def lockedLuidOfInput (input : JValue) : String :=
  jsTrim (jsString (match getProp input "datasourceLuid" with
    | some v => if jvTruthy v then v else .str ""
    | none => .str ""))

/-- The options object built for `list-datasources` / `list-views`. -/
def listOptions (input : JValue) : Option String × Option Int × Option Int :=
  ((getProp input "filter").map jsString,
   (getProp input "pageSize").bind jsNumber,
   (getProp input "limit").bind jsNumber)

/-- The `try`-block of `executeToolCall`: local validation, dispatch to the
client method, and formatting of a successful result.  Returns the thrown
error or the formatted result, plus the client calls made. -/
def executeToolCallTry (env : ToolEnv) (lockedDatasourceLuid : Option String)
    (tc : ToolCall) : (Except ThrownErr (Except String ToolResult)) × List ClientCall :=
  let locked := lockedDatasourceLuid.getD ""
  -- datasource-lock validation (lines 198–216)
  if optTruthy lockedDatasourceLuid ∧
      (tc.name = "query-datasource" ∨ tc.name = "get-datasource-metadata") ∧
      lockedLuidOfInput tc.input ≠ locked then
    (.error (.plain ("Tool call attempted to use datasource \"" ++
      lockedLuidOfInput tc.input ++ "\" but session is locked to \"" ++ locked ++
      "\". You must use the locked datasource for this session.")), [])
  else if optTruthy lockedDatasourceLuid ∧ tc.name = "list-datasources" then
    (.error (.plain ("Tool \"list-datasources\" is not available when a datasource is selected. " ++
      "The session is locked to datasource \"" ++ locked ++ "\".")), [])
  else
    -- dispatch (lines 221–299); a client call is recorded whether it
    -- returns or throws
    let callRes : Except ThrownErr JValue × List ClientCall :=
      if tc.name = "list-datasources" then
        let (f, p, l) := listOptions tc.input
        let call := ClientCall.listDatasources f p l
        ((env.mcp call).mapError ThrownErr.mcpErr, [call])
      else if tc.name = "get-datasource-metadata" then
        let dl := jsStringU (getProp tc.input "datasourceLuid")
        if dl = "" ∨ (jsTrim dl).length = 0 then
          (.error (.plain "datasourceLuid is required and must be a non-empty string"), [])
        else
          let call := ClientCall.getDatasourceMetadata (jsTrim dl)
          ((env.mcp call).mapError ThrownErr.mcpErr, [call])
      else if tc.name = "query-datasource" then
        let dl := jsStringU (getProp tc.input "datasourceLuid")
        if dl = "" ∨ (jsTrim dl).length = 0 then
          (.error (.plain "datasourceLuid is required and must be a non-empty string"), [])
        else
          match getProp tc.input "query" with
          | some (.obj qo) =>
              let call := ClientCall.queryDatasource (jsTrim dl)
                (normalizeDatasourceQuery (.obj qo))
              ((env.mcp call).mapError ThrownErr.mcpErr, [call])
          | _ => (.error (.plain "query is required and must be an object"), [])
      else if tc.name = "get-workbook" then
        let wb := jsStringU (getProp tc.input "workbookId")
        if wb = "" ∨ (jsTrim wb).length = 0 then
          (.error (.plain "workbookId is required and must be a non-empty string"), [])
        else
          let call := ClientCall.getWorkbook (jsTrim wb)
          ((env.mcp call).mapError ThrownErr.mcpErr, [call])
      else if tc.name = "list-views" then
        let (f, p, l) := listOptions tc.input
        let call := ClientCall.listViews f p l
        ((env.mcp call).mapError ThrownErr.mcpErr, [call])
      else (.error (.plain ("Unknown tool: " ++ tc.name)), [])
    match callRes with
    | (.ok v, calls) => (.ok (formatToolResult env.rowCap env.byteCap tc.id v false), calls)
    | (.error e, calls) => (.error e, calls)

/-- The `catch` of `executeToolCall`: possibly fetch metadata for typo
suggestions (recorded in the trace), then map the error and format it as an
error `ToolResult` (an exception from `formatToolResult` itself — empty
`id` — escapes as `.error`). -/
def executeToolCallCatch (env : ToolEnv) (tc : ToolCall) (err : ThrownErr) :
    (Except String ToolResult) × List ClientCall :=
  let metaCalls : List ClientCall :=
    match err with
    | .mcpErr e =>
        if e.isMcpError ∧ e.code = some (-32602) ∧ tc.name = "query-datasource" then
          let dl :=
            match getProp tc.input "datasourceLuid" with
            | some v => if jvTruthy v then some (jsTrim (jsString v)) else none
            | none => none
          match dl, getProp tc.input "query" with
          | some luid, some (.obj qo) =>
              match getKey qo "fields" with
              | some (.arr _) => [ClientCall.getDatasourceMetadata luid]
              | _ => []
          | _, _ => []
        else []
    | _ => []
  let ufe := env.mapErr err
  (formatToolResult env.rowCap env.byteCap tc.id
    (.obj [("error", .str ufe.message),
           ("recoverySuggestions", .arr (ufe.recoverySuggestions.map .str))]) true,
   metaCalls)

/-- `executeToolCall`: run the `try`, catch any thrown error into an error
`ToolResult`.  The returned list is every MCP client call made. -/
def executeToolCall (env : ToolEnv) (lockedDatasourceLuid : Option String)
    (tc : ToolCall) : (Except String ToolResult) × List ClientCall :=
  match executeToolCallTry env lockedDatasourceLuid tc with
  | (.ok r, calls) => (r, calls)
  | (.error e, calls) =>
      let (r, metaCalls) := executeToolCallCatch env tc e
      (r, calls ++ metaCalls)

/-! ## String similarity (`utils/stringSimilarity.ts`) and field
corrections (`utils/fieldCorrection.ts`)

Similarity scores are JavaScript numbers; the model computes them as exact
fractions (numerator over positive denominator, compared by cross
multiplication), so the branch constants (1, 0.8, 0.6, 0.9) and every
threshold comparison are exact. -/

/-- An exact fractional score `num / den` with `den > 0` by construction. -/
structure Score where
  num : Int
  den : Int
deriving Repr, DecidableEq

/-- Exact `a < b` on fractions with positive denominators. -/
def sLt (a b : Score) : Bool := a.num * b.den < b.num * a.den

/-- Exact `a ≤ b` on fractions with positive denominators. -/
def sLe (a b : Score) : Bool := a.num * b.den ≤ b.num * a.den

/-- `\s` for the inputs under verification. -/
def isJsWsCh (c : Char) : Bool := isJWs c || c.val = 11 || c.val = 12

/-- Collapse every whitespace run to a single space (`replace(/\s+/g, ' ')`);
fuel-indexed structural recursion (the list length bounds the steps, each
step consuming at least one character). -/
def collapseWsAux : Nat → List Char → List Char
  | _, [] => []
  | 0, _ :: _ => []
  | fuel + 1, c :: cs =>
      if isJsWsCh c then
        ' ' :: collapseWsAux fuel (cs.dropWhile isJsWsCh)
      else c :: collapseWsAux fuel cs

/-- Collapse every whitespace run to a single space (`replace(/\s+/g, ' ')`). -/
def collapseWs (cs : List Char) : List Char := collapseWsAux cs.length cs

/-- `normalizeString`: lowercase, trim, collapse inner whitespace. -/
def normalizeString (s : String) : String :=
  String.mk (collapseWs (jsTrimChars (lowerStr s).data))

/-- The Levenshtein edit distance (the iterative DP of
`levenshteinDistance` computes exactly this metric). -/
def levAux : List Char → List Char → Nat
  | [], l2 => l2.length
  | l1, [] => l1.length
  | c1 :: t1, c2 :: t2 =>
      if c1 = c2 then levAux t1 t2
      else 1 + min (levAux (c1 :: t1) t2) (min (levAux t1 (c2 :: t2)) (levAux t1 t2))
  termination_by l1 l2 => l1.length + l2.length
  decreasing_by all_goals simp_arith

/-- `levenshteinDistance`. -/
def levenshteinDistance (s1 s2 : String) : Nat := levAux s1.data s2.data

/-- `scoreSimilarity`: exact match 1, prefix 0.8, substring 0.6, otherwise
one minus the normalised edit distance (exactly `(maxLen - d) / maxLen`). -/
def scoreSimilarity (input candidate : String) : Score :=
  let ni := normalizeString input
  let nc := normalizeString candidate
  if ni = nc then ⟨1, 1⟩
  else if strStarts nc ni then ⟨4, 5⟩
  else if strIncludes nc ni then ⟨3, 5⟩
  else
    let distance := levenshteinDistance ni nc
    let maxLen := max ni.length nc.length
    if maxLen = 0 then ⟨0, 1⟩ else ⟨(maxLen : Int) - (distance : Int), (maxLen : Int)⟩

/-- The stop-word set of `fieldCorrection.ts`. -/
def STOP_WORDS : List String :=
  ["for", "the", "and", "with", "all", "any",
   "are", "was", "were", "has", "have", "had", "can", "may", "not", "but",
   "from", "into", "onto", "over", "under", "this", "that", "these", "those"]

/-- ASCII alphanumeric test (`[a-zA-Z0-9]`). -/
def isAlnum (c : Char) : Bool :=
  (c ≥ 'a' && c ≤ 'z') || (c ≥ 'A' && c ≤ 'Z') || (c ≥ '0' && c ≤ '9')

mutual
/-- `String.prototype.split` against a one-or-more-characters class
(`/cls+/`): pieces between separator runs, with empty pieces at the
boundaries, JavaScript style. -/
def splitRunsAux (p : Char → Bool) : List Char → List Char → List (List Char)
  | acc, [] => [acc.reverse]
  | acc, c :: cs =>
      if p c then acc.reverse :: splitRunsSkip p cs else splitRunsAux p (c :: acc) cs

/-- Skip the rest of a separator run, then continue splitting. -/
def splitRunsSkip (p : Char → Bool) : List Char → List (List Char)
  | [] => [[]]
  | c :: cs => if p c then splitRunsSkip p cs else splitRunsAux p [c] cs
end

/-- Split on runs of characters satisfying `p`. -/
def splitRuns (p : Char → Bool) (cs : List Char) : List (List Char) :=
  splitRunsAux p [] cs

/-- A token with the user's casing preserved (`TokenWithCasing`). -/
structure TokenWithCasing where
  original : String
  normalized : String
deriving Repr, DecidableEq

/-- `tokenizeMessage`: split on non-alphanumeric characters and whitespace,
keep normalised tokens of length ≥ 3 that are not stop words. -/
def tokenizeMessage (message : String) : List TokenWithCasing :=
  if message = "" then []
  else
    (splitRuns (fun c => ¬ (isAlnum c || isJsWsCh c)) message.data).flatMap fun part =>
      (splitRuns isJsWsCh part).filterMap fun word =>
        let w := String.mk word
        if (jsTrim w).length = 0 then none
        else
          let normalized := normalizeString w
          if normalized.length ≥ 3 ∧ ¬ STOP_WORDS.contains normalized then
            some ⟨jsTrim w, normalized⟩
          else none

/-- A detected correction (`FieldCorrection`). -/
structure FieldCorrection where
  originalToken : String
  token : String
  fieldCaption : String
  score : Score
deriving Repr, DecidableEq

/-- Stable descending insertion by score (the JavaScript
`sort((a, b) => b.score - a.score)` is a stable sort by descending score). -/
def insertDescByScore (c : FieldCorrection) : List FieldCorrection → List FieldCorrection
  | [] => [c]
  | d :: ds => if sLt d.score c.score then c :: d :: ds else d :: insertDescByScore c ds

/-- Stable sort by descending score. -/
def sortDescByScore (l : List FieldCorrection) : List FieldCorrection :=
  l.foldl (fun acc c => insertDescByScore c acc) []

/-- The field captions of the `query-datasource` calls
(strings with non-empty trim, in order). -/
def fieldCaptionsOf (toolCalls : List ToolCall) : List String :=
  (toolCalls.filter (·.name = "query-datasource")).flatMap fun tc =>
    match getProp tc.input "query" with
    | some q =>
        if jvTruthy q then
          match q with
          | .obj qo =>
              match getKey qo "fields" with
              | some (.arr fields) =>
                  fields.filterMap fun field =>
                    match getProp field "fieldCaption" with
                    | some (.str s) => if (jsTrim s).length > 0 then some s else none
                    | _ => none
              | _ => []
          | _ => []
        else []
    | none => []

/-- Best-scoring token for one field caption, given the tokens (strict
improvement required, so the first best is kept on ties). -/
def bestTokenFor (tokenData : List TokenWithCasing) (fieldCaption : String) :
    Option (String × String × Score) :=
  tokenData.foldl
    (fun best tokenInfo =>
      if tokenInfo.normalized.length < 3 then best
      else
        let score := scoreSimilarity tokenInfo.normalized fieldCaption
        let threshold : Score := if tokenInfo.normalized.length ≤ 3 then ⟨9, 10⟩ else ⟨4, 5⟩
        if sLe threshold score then
          match best with
          | some (_, _, s) => if sLt s score then some (tokenInfo.original, tokenInfo.normalized, score) else best
          | none => some (tokenInfo.original, tokenInfo.normalized, score)
        else best)
    none

/-- `detectFieldCorrections`. -/
def detectFieldCorrections (userMessage : String) (toolCalls : List ToolCall) :
    List FieldCorrection :=
  if userMessage = "" ∨ (jsTrim userMessage).length = 0 then []
  else if toolCalls.isEmpty then []
  else if (toolCalls.filter (·.name = "query-datasource")).isEmpty then []
  else
    let normalizedUserMessage := normalizeString userMessage
    let tokenData := tokenizeMessage userMessage
    if tokenData.isEmpty then []
    else
      let fieldCaptions := fieldCaptionsOf toolCalls
      if fieldCaptions.isEmpty then []
      else
        let corrections := fieldCaptions.filterMap fun fieldCaption =>
          let normalizedFieldCaption := normalizeString fieldCaption
          if strIncludes normalizedUserMessage normalizedFieldCaption then none
          else
            (bestTokenFor tokenData fieldCaption).map fun (orig, tok, score) =>
              (⟨orig, tok, fieldCaption, score⟩ : FieldCorrection)
        let sorted := sortDescByScore corrections
        -- deduplicate on token→caption, keeping the highest score
        let seen := sorted.foldl
          (fun (seen : List (String × FieldCorrection)) c =>
            let key := c.token ++ "->" ++ c.fieldCaption
            match aGet seen key with
            | some existing => if sLt existing.score c.score then aSet seen key c else seen
            | none => aSet seen key c)
          []
        seen.map (·.2)

/-- `buildCorrectionNote`. -/
def buildCorrectionNote (corrections : List FieldCorrection) : Option String :=
  if corrections.isEmpty then none
  else
    let parts := corrections.map fun c =>
      "\"" ++ c.originalToken ++ "\" as \"" ++ c.fieldCaption ++ "\""
    some ("\n\nNote: Interpreted " ++ String.intercalate "; " parts ++ ".")

/-! ## Transcript messages (`llmClient.ts` `LLMMessage`,
`toolCallingFormat.ts` message builders) -/

/-- One content block of a structured message. -/
inductive ContentPart where
  | textPart (text : String)
  | toolUsePart (id name : String) (input : JValue)
  | toolResultPart (tool_use_id : String) (content : String)
deriving Repr, DecidableEq

/-- Message content: plain text or a block list. -/
inductive MsgContent where
  | text (s : String)
  | parts (ps : List ContentPart)
deriving Repr, DecidableEq

/-- A transcript message. -/
structure LLMMessage where
  role : String
  content : MsgContent
deriving Repr, DecidableEq

/-- `buildUserMessage`. -/
def buildUserMessage (content : String) : Except String LLMMessage :=
  if content = "" ∨ (jsTrim content).length = 0 then
    .error "User message content must be a non-empty string"
  else .ok ⟨"user", .text (jsTrim content)⟩

/-- Validation loop of `buildAssistantMessageWithToolCalls`. -/
def validateToolCalls (i : Nat) : List ToolCall → Option String
  | [] => none
  | tc :: rest =>
      if tc.id = "" ∨ (jsTrim tc.id).length = 0 then
        some ("Tool call at index " ++ toString i ++ " must have a non-empty id")
      else if tc.name = "" ∨ (jsTrim tc.name).length = 0 then
        some ("Tool call at index " ++ toString i ++ " must have a non-empty name")
      else
        match tc.input with
        | .obj _ => validateToolCalls (i + 1) rest
        | _ => some ("Tool call at index " ++ toString i ++ " must have a plain object input")

/-- `buildAssistantMessageWithToolCalls`. -/
def buildAssistantMessageWithToolCalls (toolCalls : List ToolCall) :
    Except String LLMMessage :=
  if toolCalls.isEmpty then .error "Tool calls must be a non-empty array"
  else
    match validateToolCalls 0 toolCalls with
    | some msg => .error msg
    | none =>
        .ok ⟨"assistant", .parts (toolCalls.map fun tc => .toolUsePart tc.id tc.name tc.input)⟩

/-- Validation loop of `buildUserMessageWithToolResults`. -/
def validateToolResults (i : Nat) : List ToolResult → Option String
  | [] => none
  | r :: rest =>
      if r.tool_use_id = "" ∨ (jsTrim r.tool_use_id).length = 0 then
        some ("Tool result at index " ++ toString i ++ " must have a non-empty tool_use_id")
      else validateToolResults (i + 1) rest

/-- `buildUserMessageWithToolResults` (the `isError` flag is deliberately
not serialized to the model). -/
def buildUserMessageWithToolResults (toolResults : List ToolResult) :
    Except String LLMMessage :=
  if toolResults.isEmpty then .error "Tool results must be a non-empty array"
  else
    match validateToolResults 0 toolResults with
    | some msg => .error msg
    | none =>
        .ok ⟨"user", .parts (toolResults.map fun r => .toolResultPart r.tool_use_id r.content)⟩

/-! ## The orchestration loop (`ToolCallingLoop.execute`,
`toolCallingLoop.ts` lines 549–969)

Abstractions: the model gateway is the oracle `oracle k msgs` (the stream
returned by the `k`-th `streamToolCalling` call, or the error it throws);
the context envelope and the injected conversation history are the
already-computed `contextString` / `history` (their computation is outside
the claims); progress events carry the fields the claims are about (texts,
tool names and ids) — timestamps, citations and result summaries are
omitted payload. -/

/-- `DEFAULT_MAX_ITERATIONS` (`toolCallingLoop.ts` line 48). -/
def DEFAULT_MAX_ITERATIONS : Nat := 5

/-- Progress events pushed over the SSE channel. -/
inductive ProgressEvent where
  | reasoningStart (iteration : Option Nat)
  | toolCallStart (tool : String) (id : String)
  | toolCallComplete (tool : String) (id : String)
  | answerStart
  | answerChunk (text : String)
  | answerComplete (text : String)
  | errorEvent (message : String)
deriving Repr, DecidableEq

/-- `streamAnswerChunks`: accumulate the extracted answer text and emit one
`answer_chunk` event per truthy extracted fragment. -/
def streamAnswerChunks (chunks : List LLMResponseChunk) : String × List ProgressEvent :=
  chunks.foldl
    (fun acc chunk =>
      match extractAnswerText chunk with
      | some t => (acc.1 ++ t, acc.2 ++ [.answerChunk t])
      | none => acc)
    ("", [])

/-- Everything `execute` needs from its surroundings. -/
structure LoopEnv where
  toolEnv : ToolEnv
  /-- `llmClient.streamToolCalling`, indexed by call number. -/
  oracle : Nat → List LLMMessage → Except String (List LLMResponseChunk)
  /-- whether an SSE response object was passed. -/
  sse : Bool
  /-- `config.defaults?.datasourceLuid`. -/
  defaultDatasourceLuid : Option String
  /-- the context envelope (after its own try/catch), if any. -/
  contextString : Option String
  /-- injected conversation history (after filtering), if any. -/
  history : List LLMMessage

/-- Mutable state of the multi-turn loop. -/
structure LoopState where
  messages : List LLMMessage
  iteration : Nat
  allToolCalls : List ToolCall
  allToolResults : List ToolResult
  events : List ProgressEvent
  llmCalls : Nat
  toolRounds : Nat
  clientCalls : List ClientCall
deriving Repr

/-- Result and trace of one `execute` run.  `allToolCalls` is the
accumulated tool-call log (the source's `allToolCalls` variable). -/
structure ExecResult where
  result : Except String String
  events : List ProgressEvent
  transcript : List LLMMessage
  llmCalls : Nat
  toolRounds : Nat
  clientCalls : List ClientCall
  allToolCalls : List ToolCall
deriving Repr

/-- The answer-only re-query (`toolCallingLoop.ts` lines 729–781 and, for
the max-iterations fallback, 899–948): stream the answer, append the
field-correction note when earlier rounds made tool calls, emit
`answer_complete`, return the answer. -/
def answerAttempt (env : LoopEnv) (userMessage : String) (errPre : String)
    (st : LoopState) : ExecResult :=
  let events := st.events ++ [.answerStart]
  match env.oracle st.llmCalls st.messages with
  | .error msg =>
      let ufe := env.toolEnv.mapErr (.plain msg)
      ⟨.error (errPre ++ ufe.message), events ++ [.errorEvent (errPre ++ ufe.message)],
        st.messages, st.llmCalls + 1, st.toolRounds, st.clientCalls, st.allToolCalls⟩
  | .ok answerChunks =>
      let (answer0, chunkEvents) := streamAnswerChunks answerChunks
      let answer :=
        if ¬ st.allToolCalls.isEmpty then
          answer0 ++ ((buildCorrectionNote (detectFieldCorrections userMessage st.allToolCalls)).getD "")
        else answer0
      ⟨.ok answer, events ++ chunkEvents ++ [.answerComplete answer], st.messages,
        st.llmCalls + 1, st.toolRounds, st.clientCalls, st.allToolCalls⟩

/-- Sequential execution of one round's tool calls (lines 809–870): per
call, a `tool_call_start` event, the dispatch, a `tool_call_complete`
event.  An exception escaping `executeToolCall` aborts the run. -/
def runToolCalls (env : LoopEnv) (locked : Option String) :
    List ToolCall → Except String (List ToolResult × List ProgressEvent × List ClientCall)
  | [] => .ok ([], [], [])
  | tc :: rest =>
      match executeToolCall env.toolEnv locked tc with
      | (.ok r, calls) =>
          match runToolCalls env locked rest with
          | .ok (rs, evs, cls) =>
              .ok (r :: rs,
                [.toolCallStart tc.name tc.id, .toolCallComplete tc.name tc.id] ++ evs,
                calls ++ cls)
          | .error m => .error m
      | (.error m, _) => .error m

/-- The `while (iteration < maxIter)` loop, by recursion on the remaining
rounds; exhausting them is the max-iterations fallback. -/
def execLoop (env : LoopEnv) (locked : Option String) (userMessage : String)
    (maxIter : Nat) : Nat → LoopState → ExecResult
  | 0, st =>
      -- lines 884–968: max iterations reached; one last answer attempt
      answerAttempt env userMessage
        ("Max iterations (" ++ toString maxIter ++ ") reached and failed to get answer: ") st
  | fuel + 1, st =>
      let st := { st with
        iteration := st.iteration + 1
        events := st.events ++
          [ProgressEvent.reasoningStart (if maxIter > 1 then some (st.iteration + 1) else none)] }
      match env.oracle st.llmCalls st.messages with
      | .error msg =>
          -- lines 675–701: model failure is fatal
          let ufe := env.toolEnv.mapErr (.plain msg)
          if env.sse then
            ⟨.error msg, st.events ++ [.errorEvent ufe.message], st.messages,
              st.llmCalls + 1, st.toolRounds, st.clientCalls, st.allToolCalls⟩
          else
            ⟨.error ("LLM request failed: " ++ ufe.message), st.events, st.messages,
              st.llmCalls + 1, st.toolRounds, st.clientCalls, st.allToolCalls⟩
      | .ok chunks =>
          let st := { st with llmCalls := st.llmCalls + 1 }
          let toolCalls := parseToolCallsFromChunks chunks
          if toolCalls.isEmpty then
            -- lines 716–802: final answer
            answerAttempt env userMessage "Failed to get answer: " st
          else
            match runToolCalls env locked toolCalls with
            | .error m =>
                ⟨.error m, st.events, st.messages, st.llmCalls, st.toolRounds,
                  st.clientCalls, st.allToolCalls⟩
            | .ok (results, toolEvents, newCalls) =>
                match buildAssistantMessageWithToolCalls toolCalls,
                    buildUserMessageWithToolResults results with
                | .ok am, .ok um =>
                    execLoop env locked userMessage maxIter fuel
                      { messages := st.messages ++ [am, um]
                        iteration := st.iteration
                        allToolCalls := st.allToolCalls ++ toolCalls
                        allToolResults := st.allToolResults ++ results
                        events := st.events ++ toolEvents
                        llmCalls := st.llmCalls
                        toolRounds := st.toolRounds + 1
                        clientCalls := st.clientCalls ++ newCalls }
                | .error m, _ =>
                    ⟨.error m, st.events ++ toolEvents, st.messages, st.llmCalls,
                      st.toolRounds, st.clientCalls ++ newCalls, st.allToolCalls ++ toolCalls⟩
                | _, .error m =>
                    ⟨.error m, st.events ++ toolEvents, st.messages, st.llmCalls,
                      st.toolRounds, st.clientCalls ++ newCalls, st.allToolCalls ++ toolCalls⟩

/-- The datasource the run is locked to:
`datasourceLuid ?? config.defaults?.datasourceLuid`. -/
def effectiveDatasourceLuid (env : LoopEnv) (datasourceLuid : Option String) :
    Option String :=
  match datasourceLuid with
  | some l => some l
  | none => env.defaultDatasourceLuid

/-- The initial transcript: optional system message, injected history, user
message. -/
def initialMessages (env : LoopEnv) (userMessage : String) : List LLMMessage :=
  (match env.contextString with
    | some c => [(⟨"system", .text c⟩ : LLMMessage)]
    | none => []) ++
  env.history ++ [(⟨"user", .text (jsTrim userMessage)⟩ : LLMMessage)]

/-- `ToolCallingLoop.execute`. -/
def execute (env : LoopEnv) (userMessage : String) (datasourceLuid : Option String)
    (maxIterations : Option Nat) : ExecResult :=
  if userMessage = "" ∨ (jsTrim userMessage).length = 0 then
    ⟨.error "User message must be a non-empty string", [], [], 0, 0, [], []⟩
  else
    let maxIter := maxIterations.getD DEFAULT_MAX_ITERATIONS
    execLoop env (effectiveDatasourceLuid env datasourceLuid) userMessage maxIter maxIter
      ⟨initialMessages env userMessage, 0, [], [], [], 0, 0, []⟩

/-! ## Gateway URL normalisation (`llmClient.ts` lines 29–45) -/

/-- `replace(/\/+$/, '')`: strip every trailing slash. -/
def stripTrailingSlashes (s : String) : String :=
  String.mk (s.data.reverse.dropWhile (· = '/')).reverse

/-- `normaliseMessagesUrl`: trim, reject empty, strip trailing slashes,
append `/v1/messages` unless already present. -/
def normaliseMessagesUrl (baseUrl : String) : Except String String :=
  let trimmed := jsTrim baseUrl
  if trimmed = "" then .error "Gateway URL cannot be empty"
  else
    let normalized := stripTrailingSlashes trimmed
    if strEnds normalized "/v1/messages" then .ok normalized
    else .ok (normalized ++ "/v1/messages")

/-! ## Statement-support definitions -/

/-- A `content_block_start` fragment opening a tool-use block. -/
def mkToolUseStart (i : Nat) (id name : String) (input : JValue) : LLMResponseChunk :=
  { type := "content_block_start", index := some i,
    content_block := some ⟨"tool_use", none, some id, none, some name, some input⟩ }

/-- A `content_block_delta` fragment carrying an `input_json_delta`.  As in
the protocol, it carries the block `index` but no tool id. -/
def mkInputJsonDelta (i : Nat) (partialJson : String) : LLMResponseChunk :=
  { type := "content_block_delta", index := some i,
    delta := some { type := "input_json_delta", partial_json := some partialJson } }

/-- A `content_block_stop` fragment for a block index. -/
def mkBlockStop (i : Nat) : LLMResponseChunk :=
  { type := "content_block_stop", index := some i }

/-- The canonical single-tool-block fragment stream: a tool-use block start,
any number of `input_json_delta` fragments sharing its index, and the
matching stop. -/
def singleBlockStream (i : Nat) (id name : String) (input0 : JValue)
    (deltas : List String) : List LLMResponseChunk :=
  [mkToolUseStart i id name input0] ++ deltas.map (mkInputJsonDelta i) ++ [mkBlockStop i]

/-- The delta fragments the accumulator keeps: those whose text is non-empty
after trimming (`partialJson && partialJson.trim().length > 0`). -/
def keptDeltas (deltas : List String) : List String :=
  deltas.filter fun s => s ≠ "" ∧ (jsTrim s).length > 0

/-- Concatenation of a list of strings. -/
def strJoin : List String → String
  | [] => ""
  | s :: rest => s ++ strJoin rest

/-- The merge-or-keep step run at `content_block_stop`: parse the
accumulated buffer and spread it over the stored input; keep the stored
input when the buffer is blank or does not parse. -/
def mergeBuf (iv : JValue) (buf : String) : JValue :=
  if buf ≠ "" ∧ (jsTrim buf).length > 0 then
    match jparse buf with
    | some parsed => mergeParsedInput iv parsed
    | none => iv
  else iv

/-- The input at block start as stored by the accumulator (`input || {}`). -/
def seededInput (input0 : JValue) : JValue :=
  if jvTruthy input0 then input0 else .obj []

/-- The input the code reconstructs for the canonical stream: the JS
object-spread merge of the block-start input and the parse of the kept
deltas' concatenation; the block-start input alone when nothing was
buffered or the buffered JSON does not parse. -/
def reconstructedInput (input0 : JValue) (deltas : List String) : JValue :=
  mergeBuf (seededInput input0) (strJoin (keptDeltas deltas))

/-- The texts of the `answer_chunk` events in an event list, in order. -/
def answerChunkTexts (events : List ProgressEvent) : List String :=
  events.filterMap fun e =>
    match e with
    | .answerChunk t => some t
    | _ => none

/-- Key uniqueness of a JavaScript object (objects cannot carry duplicate
keys). -/
def nodupKeys (fs : List (String × JValue)) : Prop :=
  (fs.map Prod.fst).Nodup

instance (fs : List (String × JValue)) : Decidable (nodupKeys fs) :=
  inferInstanceAs (Decidable (fs.map Prod.fst).Nodup)

/-- The characters a serialized JSON value can start with. -/
def headCh (c : Char) : Bool :=
  c = 'n' || c = 't' || c = 'f' || c = '"' || c = '[' || c = '{' || c = '-' || isDig c

/-- The characters a serialized JSON value can end with. -/
def lastCh (c : Char) : Bool :=
  c = 'l' || c = 'e' || c = '"' || c = ']' || c = '}' || isDig c

/-- The next character (if any) is not a decimal digit, so a parsed number
literal ends exactly where its serialization does. -/
def headNotDigit : List Char → Bool
  | [] => true
  | c :: _ => !(isDig c)

/-! ## Shared lemmas: association lists -/

theorem getKey_setKey_self (fs : List (String × JValue)) (k : String) (v : JValue) :
    getKey (setKey fs k v) k = some v := by
  induction fs with
  | nil => simp [setKey, getKey]
  | cons p rest ih =>
      obtain ⟨k', v'⟩ := p
      by_cases h : k' = k <;> simp [setKey, getKey, h, ih]

theorem getKey_setKey_ne (fs : List (String × JValue)) (k k' : String) (v : JValue)
    (h : k' ≠ k) : getKey (setKey fs k v) k' = getKey fs k' := by
  induction fs with
  | nil =>
      simp only [setKey, getKey]
      rw [if_neg (Ne.symm h)]
  | cons p rest ih =>
      obtain ⟨k'', v''⟩ := p
      unfold setKey
      by_cases h1 : k'' = k
      · rw [if_pos h1]
        subst h1
        unfold getKey
        rw [if_neg (Ne.symm h), if_neg (Ne.symm h)]
      · rw [if_neg h1]
        unfold getKey
        by_cases h2 : k'' = k'
        · rw [if_pos h2, if_pos h2]
        · rw [if_neg h2, if_neg h2]
          exact ih

theorem getKey_delKey_ne (fs : List (String × JValue)) (k k' : String)
    (h : k' ≠ k) : getKey (delKey fs k) k' = getKey fs k' := by
  induction fs with
  | nil => simp [delKey, getKey]
  | cons p rest ih =>
      obtain ⟨k'', v''⟩ := p
      unfold delKey
      by_cases h1 : k'' = k
      · rw [if_pos h1]
        subst h1
        conv_rhs => unfold getKey
        rw [if_neg (Ne.symm h)]
      · rw [if_neg h1]
        unfold getKey
        by_cases h2 : k'' = k'
        · rw [if_pos h2, if_pos h2]
        · rw [if_neg h2, if_neg h2]
          exact ih

theorem getKey_eq_none_of_not_mem (fs : List (String × JValue)) (k : String)
    (h : k ∉ fs.map Prod.fst) : getKey fs k = none := by
  induction fs with
  | nil => simp [getKey]
  | cons p rest ih =>
      obtain ⟨k', v'⟩ := p
      simp only [List.map_cons, List.mem_cons] at h
      push_neg at h
      unfold getKey
      rw [if_neg (Ne.symm h.1)]
      exact ih h.2

theorem getKey_delKey_self (fs : List (String × JValue)) (k : String)
    (h : nodupKeys fs) : getKey (delKey fs k) k = none := by
  induction fs with
  | nil => simp [delKey, getKey]
  | cons p rest ih =>
      obtain ⟨k', v'⟩ := p
      simp only [nodupKeys, List.map_cons, List.nodup_cons] at h
      by_cases h1 : k' = k
      · subst h1
        simp only [delKey, if_pos rfl]
        exact getKey_eq_none_of_not_mem rest k' h.1
      · simp [delKey, getKey, h1, ih h.2]

theorem delKey_map_fst_sublist (fs : List (String × JValue)) (k : String) :
    ((delKey fs k).map Prod.fst).Sublist (fs.map Prod.fst) := by
  induction fs with
  | nil => simp [delKey]
  | cons p rest ih =>
      obtain ⟨k', v'⟩ := p
      by_cases h : k' = k
      · simp only [delKey, if_pos h, List.map_cons]
        exact (List.sublist_cons_self _ _)
      · simp only [delKey, if_neg h, List.map_cons]
        exact ih.cons₂ _

theorem setKey_map_fst_of_mem (fs : List (String × JValue)) (k : String) (v : JValue)
    (h : k ∈ fs.map Prod.fst) : (setKey fs k v).map Prod.fst = fs.map Prod.fst := by
  induction fs with
  | nil => simp at h
  | cons p rest ih =>
      obtain ⟨k', v'⟩ := p
      by_cases h1 : k' = k
      · simp [setKey, h1]
      · simp only [List.map_cons, List.mem_cons] at h
        rcases h with h | h
        · exact absurd h.symm h1
        · simp [setKey, h1, ih h]

theorem nodupKeys_delKey (fs : List (String × JValue)) (k : String)
    (h : nodupKeys fs) : nodupKeys (delKey fs k) :=
  (delKey_map_fst_sublist fs k).nodup h

/-! ## Shared lemmas: whitespace and trimming -/

theorem data_mk (l : List Char) : (String.mk l).data = l := rfl

theorem skipWs_of_head_nonWs {c : Char} (cs : List Char) (h : isJWs c = false) :
    skipWs (c :: cs) = c :: cs := by
  simp [skipWs, h]

theorem skipWs_nil : skipWs [] = [] := rfl

theorem jsTrimChars_eq_self {cs : List Char}
    (h1 : ∀ c, cs.head? = some c → isJWs c = false)
    (h2 : ∀ c, cs.getLast? = some c → isJWs c = false) :
    jsTrimChars cs = cs := by
  unfold jsTrimChars
  match hcs : cs with
  | [] => rfl
  | c :: rest =>
      rw [skipWs_of_head_nonWs _ (h1 c (by simp))]
      have hlast : ∀ d, (c :: rest).reverse.head? = some d → isJWs d = false := by
        intro d hd
        apply h2
        rwa [← List.head?_reverse]
      match hrev : (c :: rest).reverse with
      | [] => simp at hrev
      | d :: rest' =>
          rw [skipWs_of_head_nonWs _ (hlast d (by rw [hrev]; simp))]
          rw [← hrev, List.reverse_reverse]

theorem jsTrim_eq_self {s : String}
    (h1 : ∀ c, s.data.head? = some c → isJWs c = false)
    (h2 : ∀ c, s.data.getLast? = some c → isJWs c = false) :
    jsTrim s = s := by
  unfold jsTrim
  rw [jsTrimChars_eq_self h1 h2]

/-! ## Shared lemmas: prefixes and suffixes -/

theorem isPrefList_append_self (p t : List Char) : isPrefList p (p ++ t) = true := by
  induction p with
  | nil => simp [isPrefList]
  | cons c cs ih => simp [isPrefList, ih]

theorem strEnds_append (a suffix : String) :
    strEnds (a ++ suffix) suffix = true := by
  unfold strEnds
  have : (a ++ suffix).data = a.data ++ suffix.data := by
    simp [String.data_append]
  rw [this, List.reverse_append]
  exact isPrefList_append_self _ _

/-! ## Claim C6 -/

/-- C6: for every classified error and attempt number below the retry
maximum (with the configured default options): HTTP 5xx, 429 and 408/timeout
errors and errors with no status code (network/abort) are retryable; other
4xx errors and negative-code protocol errors from the tool service are not;
and the backoff delay for retry attempt `n` is
`initialDelay × multiplier^n`, capped at the maximum delay. -/
theorem c6_retry_decision_and_backoff (e : MCPError) (attempt : Nat)
    (hA : attempt < DEFAULT_RETRY_OPTIONS.maxRetries) :
    (∀ c : Int, e.code = some c → (500 ≤ c ∧ c < 600) ∨ c = 429 ∨ c = 408 →
      shouldRetry e attempt DEFAULT_RETRY_OPTIONS.maxRetries DEFAULT_RETRY_OPTIONS = true) ∧
    (e.code = none →
      shouldRetry e attempt DEFAULT_RETRY_OPTIONS.maxRetries DEFAULT_RETRY_OPTIONS = true) ∧
    (∀ c : Int, e.code = some c → 400 ≤ c → c < 500 → c ≠ 408 → c ≠ 429 →
      shouldRetry e attempt DEFAULT_RETRY_OPTIONS.maxRetries DEFAULT_RETRY_OPTIONS = false) ∧
    (∀ c : Int, e.code = some c → c < 0 → e.isMcpError = true → e.name = "Error" →
      shouldRetry e attempt DEFAULT_RETRY_OPTIONS.maxRetries DEFAULT_RETRY_OPTIONS = false) ∧
    (∀ n init maxd mult : Nat,
      calculateBackoffDelay n init maxd mult = min (init * mult ^ n) maxd) := by
  have hA' : ¬ DEFAULT_RETRY_OPTIONS.maxRetries ≤ attempt := Nat.not_le.mpr hA
  refine ⟨?_, ?_, ?_, ?_, ?_⟩
  · rintro c hc hcase
    have hc0 : c ≠ 0 := by rcases hcase with ⟨h1, h2⟩ | h | h <;> omega
    have hct : codeTruthy e = true := by simp [codeTruthy, hc, hc0]
    simp only [shouldRetry, if_neg hA', hct, if_true, hc, Option.getD_some]
    rcases hcase with ⟨h1, h2⟩ | rfl | rfl
    · rw [if_pos ⟨h1, h2⟩]; rfl
    · rw [if_neg (by omega), if_pos rfl]
    · rw [if_neg (by omega), if_neg (by omega), if_pos rfl]; rfl
  · intro hc
    have hct : codeTruthy e = false := by simp [codeTruthy, hc]
    simp only [shouldRetry, if_neg hA', hct, Bool.false_eq_true, if_false]
    rw [if_pos (Or.inr (Or.inr (by simp [hct])))]
    rfl
  · intro c hc h4 h5 h408 h429
    have hc0 : c ≠ 0 := by omega
    have hct : codeTruthy e = true := by simp [codeTruthy, hc, hc0]
    simp only [shouldRetry, if_neg hA', hct, if_true, hc, Option.getD_some]
    rw [if_neg (by omega), if_neg h429, if_neg h408, if_pos ⟨h4, h5⟩]
  · intro c hc hneg hmcp hname
    have hc0 : c ≠ 0 := by omega
    have hct : codeTruthy e = true := by simp [codeTruthy, hc, hc0]
    simp only [shouldRetry, if_neg hA', hct, if_true, hc, Option.getD_some]
    rw [if_neg (by omega), if_neg (by omega), if_neg (by omega), if_neg (by omega)]
    rw [if_neg (by rw [hname]; decide)]
    split_ifs with h2
    · rfl
    · exfalso
      apply h2
      exact ⟨hmcp, trivial, hneg⟩
  · intro n init maxd mult
    rfl

/-- C6 witness: concrete classifications and delays under the defaults. -/
theorem c6_witness :
    shouldRetry ⟨"Error", "", some 503, none, true⟩ 0 DEFAULT_RETRY_OPTIONS.maxRetries
        DEFAULT_RETRY_OPTIONS = true ∧
    shouldRetry ⟨"Error", "", none, none, true⟩ 1 DEFAULT_RETRY_OPTIONS.maxRetries
        DEFAULT_RETRY_OPTIONS = true ∧
    shouldRetry ⟨"Error", "", some 404, none, true⟩ 0 DEFAULT_RETRY_OPTIONS.maxRetries
        DEFAULT_RETRY_OPTIONS = false ∧
    shouldRetry ⟨"Error", "", some (-32602), none, true⟩ 0 DEFAULT_RETRY_OPTIONS.maxRetries
        DEFAULT_RETRY_OPTIONS = false ∧
    calculateBackoffDelay 2 1000 10000 2 = min (1000 * 2 ^ 2) 10000 := by
  refine ⟨?_, ?_, ?_, ?_, ?_⟩
  · exact (c6_retry_decision_and_backoff ⟨"Error", "", some 503, none, true⟩ 0
      (by decide)).1 503 rfl (.inl (by decide))
  · exact (c6_retry_decision_and_backoff ⟨"Error", "", none, none, true⟩ 1
      (by decide)).2.1 rfl
  · exact (c6_retry_decision_and_backoff ⟨"Error", "", some 404, none, true⟩ 0
      (by decide)).2.2.1 404 rfl (by decide) (by decide) (by decide) (by decide)
  · exact (c6_retry_decision_and_backoff ⟨"Error", "", some (-32602), none, true⟩ 0
      (by decide)).2.2.2.1 (-32602) rfl (by decide) rfl rfl
  · exact (c6_retry_decision_and_backoff ⟨"Error", "", none, none, true⟩ 0
      (by decide)).2.2.2.2 2 1000 10000 2

/-! ## Claim C10 -/

/-- C10 counterexample: a URL already ending in two copies of
`/v1/messages` is returned unchanged, so its result ends with the suffix
twice — refuting "ends with `/v1/messages` exactly once". -/
theorem c10_counterexample :
    normaliseMessagesUrl "http://h/v1/messages/v1/messages" =
      .ok "http://h/v1/messages/v1/messages" ∧
    strEnds "http://h/v1/messages/v1/messages" "/v1/messages/v1/messages" = true := by
  constructor
  · rfl
  · rfl

theorem skipWs_head_nonWs {l : List Char} {c : Char}
    (h : (skipWs l).head? = some c) : isJWs c = false := by
  induction l with
  | nil => simp [skipWs] at h
  | cons d rest ih =>
      unfold skipWs at h
      by_cases hd : isJWs d
      · rw [if_pos hd] at h
        exact ih h
      · rw [if_neg hd] at h
        simp only [List.head?_cons, Option.some_inj] at h
        subst h
        exact Bool.not_eq_true _ ▸ (by simpa using hd)

theorem skipWs_suffix (l : List Char) : skipWs l <:+ l := by
  induction l with
  | nil => simp [skipWs]
  | cons d rest ih =>
      unfold skipWs
      by_cases hd : isJWs d
      · rw [if_pos hd]
        exact ih.trans (List.suffix_cons d rest)
      · rw [if_neg hd]

theorem suffix_getLast {l₁ l₂ : List Char} (h : l₁ <:+ l₂) (hne : l₁ ≠ []) :
    l₁.getLast? = l₂.getLast? := by
  obtain ⟨t, rfl⟩ := h
  rw [List.getLast?_append_of_ne_nil]
  exact hne

theorem prefix_head {l₁ l₂ : List Char} (h : l₁ <+: l₂) (hne : l₁ ≠ []) :
    l₁.head? = l₂.head? := by
  obtain ⟨t, rfl⟩ := h
  match l₁, hne with
  | c :: rest, _ => simp

theorem jsTrim_head_nonWs {s : String} {c : Char}
    (h : (jsTrim s).data.head? = some c) : isJWs c = false := by
  unfold jsTrim jsTrimChars at h
  simp only [data_mk] at h
  rw [List.head?_reverse] at h
  have hsuf := skipWs_suffix ((skipWs s.data).reverse)
  have hne : skipWs ((skipWs s.data).reverse) ≠ [] := by
    intro he
    rw [he] at h
    simp at h
  rw [suffix_getLast hsuf hne] at h
  rw [List.getLast?_reverse] at h
  exact skipWs_head_nonWs h

theorem jsTrim_last_nonWs {s : String} {c : Char}
    (h : (jsTrim s).data.getLast? = some c) : isJWs c = false := by
  unfold jsTrim jsTrimChars at h
  simp only [data_mk] at h
  rw [List.getLast?_reverse] at h
  exact skipWs_head_nonWs h

theorem jsTrim_fixed {r : String}
    (h1 : ∀ c, r.data.head? = some c → isJWs c = false)
    (h2 : ∀ c, r.data.getLast? = some c → isJWs c = false) :
    jsTrim r = r :=
  jsTrim_eq_self h1 h2

theorem isPrefList_head {p : Char} {ps l : List Char}
    (h : isPrefList (p :: ps) l = true) : ∃ t, l = p :: t ∧ isPrefList ps t = true := by
  match l with
  | [] => simp [isPrefList] at h
  | c :: cs =>
      simp only [isPrefList, Bool.and_eq_true, decide_eq_true_eq] at h
      exact ⟨cs, by rw [h.1], h.2⟩

theorem stripTrailingSlashes_prefix (s : String) :
    (stripTrailingSlashes s).data <+: s.data := by
  unfold stripTrailingSlashes
  simp only [data_mk]
  have h := List.dropWhile_suffix (l := s.data.reverse) (p := (· = '/'))
  have := h.reverse
  simpa using this

theorem stripTrailingSlashes_eq_self {s : String} {c : Char}
    (hl : s.data.getLast? = some c) (hc : c ≠ '/') :
    stripTrailingSlashes s = s := by
  obtain ⟨l⟩ := s
  unfold stripTrailingSlashes
  simp only [data_mk] at hl ⊢
  match hrev : l.reverse with
  | [] =>
      rw [List.reverse_eq_nil_iff] at hrev
      rw [hrev] at hl
      simp at hl
  | d :: rest =>
      have hd : d = c := by
        rw [← List.head?_reverse, hrev] at hl
        simpa using hl
      subst hd
      rw [List.dropWhile_cons_of_neg (by simpa using hc)]
      rw [← hrev, List.reverse_reverse]

/-- The last character of a string ending in `/v1/messages` is `s`, hence
no trailing slash. -/
theorem c10_no_trailing_slash {r : String} (h : strEnds r "/v1/messages" = true) :
    strEnds r "/" = false := by
  unfold strEnds at h ⊢
  have hrev : ("/v1/messages" : String).data.reverse =
      's' :: "egassem/1v/".data := by decide
  rw [hrev] at h
  obtain ⟨t, hr, _⟩ := isPrefList_head h
  rw [show ("/" : String).data.reverse = ['/'] from by decide, hr]
  simp [isPrefList]

/-- A string ending in `/v1/messages` whose head is not whitespace is a
fixed point of `normaliseMessagesUrl`. -/
theorem c10_idem_of_ends {r : String}
    (hEnds : strEnds r "/v1/messages" = true)
    (hHead : ∀ c, r.data.head? = some c → isJWs c = false) :
    normaliseMessagesUrl r = .ok r := by
  have hrev : ("/v1/messages" : String).data.reverse =
      's' :: "egassem/1v/".data := by decide
  have h1 := hEnds
  unfold strEnds at h1
  rw [hrev] at h1
  obtain ⟨t, hr, _⟩ := isPrefList_head h1
  have hlast : r.data.getLast? = some 's' := by
    rw [← List.head?_reverse, hr]
    rfl
  have htrim : jsTrim r = r := by
    refine jsTrim_eq_self hHead ?_
    intro c hc
    rw [hlast] at hc
    obtain rfl : c = 's' := by simpa using hc.symm
    decide
  have hne : r ≠ "" := by
    intro he
    subst he
    simp at hr
  have hstrip : stripTrailingSlashes r = r :=
    stripTrailingSlashes_eq_self hlast (by decide)
  unfold normaliseMessagesUrl
  rw [htrim, if_neg hne, hstrip, if_pos hEnds]

/-- Heads surviving `stripTrailingSlashes ∘ jsTrim` are non-whitespace. -/
theorem c10_head_ok_of_strip {s : String} :
    ∀ c, (stripTrailingSlashes (jsTrim s)).data.head? = some c → isJWs c = false := by
  intro c hc
  have hpre := stripTrailingSlashes_prefix (jsTrim s)
  have hne : (stripTrailingSlashes (jsTrim s)).data ≠ [] := by
    intro he
    rw [he] at hc
    simp at hc
  rw [prefix_head hpre hne] at hc
  exact jsTrim_head_nonWs hc

/-- C10 (amended): for every input URL that is non-empty after trimming,
the result ends with `/v1/messages` (a second copy is never appended when
one is already present), has no trailing slash, and the function is
idempotent on its own output; an empty or whitespace-only URL is rejected.
("Exactly once" does not hold: an input already carrying repeated copies
keeps them — see the counterexample.) -/
theorem c10_normaliseMessagesUrl_amended (s : String) :
    (jsTrim s = "" → normaliseMessagesUrl s = .error "Gateway URL cannot be empty") ∧
    (jsTrim s ≠ "" → ∃ r, normaliseMessagesUrl s = .ok r ∧
      strEnds r "/v1/messages" = true ∧
      strEnds r "/" = false ∧
      normaliseMessagesUrl r = .ok r) := by
  constructor
  · intro h
    unfold normaliseMessagesUrl
    rw [h]
    rfl
  · intro h
    -- the result `r` in both branches
    set t := jsTrim s with ht
    set normalized := stripTrailingSlashes t with hn
    by_cases hb : strEnds normalized "/v1/messages" = true
    case pos =>
      refine ⟨normalized, ?_, hb, ?_, ?_⟩
      · unfold normaliseMessagesUrl
        rw [← ht, if_neg h, ← hn, if_pos hb]
      · exact c10_no_trailing_slash hb
      · exact c10_idem_of_ends hb c10_head_ok_of_strip
    case neg =>
      refine ⟨normalized ++ "/v1/messages", ?_, strEnds_append _ _, ?_, ?_⟩
      · unfold normaliseMessagesUrl
        rw [← ht, if_neg h, ← hn, if_neg hb]
      · exact c10_no_trailing_slash (strEnds_append normalized "/v1/messages")
      · refine c10_idem_of_ends (strEnds_append normalized "/v1/messages") ?_
        intro c hc
        rw [show (normalized ++ "/v1/messages").data =
          normalized.data ++ ("/v1/messages" : String).data from by simp [String.data_append]] at hc
        match hnd : normalized.data with
        | [] =>
            rw [hnd] at hc
            simp only [List.nil_append] at hc
            obtain rfl : c = '/' := by
              have : ("/v1/messages" : String).data.head? = some '/' := by decide
              rw [this] at hc
              simpa using hc.symm
            decide
        | d :: rest =>
            rw [hnd] at hc
            simp only [List.cons_append, List.head?_cons, Option.some_inj] at hc
            subst hc
            apply c10_head_ok_of_strip (s := s)
            rw [← hn, hnd]
            simp

/-- C10 witness: the amended theorem at concrete inputs — a whitespace-only
URL is rejected; a URL with a trailing slash normalises to a fixed point
ending in `/v1/messages`. -/
theorem c10_amended_witness :
    normaliseMessagesUrl "  " = .error "Gateway URL cannot be empty" ∧
    (∃ r, normaliseMessagesUrl "https://gw.example.com/" = .ok r ∧
      strEnds r "/v1/messages" = true ∧
      strEnds r "/" = false ∧
      normaliseMessagesUrl r = .ok r) :=
  ⟨(c10_normaliseMessagesUrl_amended "  ").1 (by decide),
   (c10_normaliseMessagesUrl_amended "https://gw.example.com/").2 (by decide)⟩

/-! ## Claim C3 -/

/-- C3 (code bug): the session-remediation behaviour of `_request`,
evaluated on the failing input.  First conjunct: a "No valid session ID"
HTTP 400 on the first attempt triggers exactly one forced
re-initialisation and one replay with no backoff delay, and the replay's
success ends the call — as claimed.  Second conjunct: when the replay
instead fails with a retryable HTTP 503, the code does NOT throw —
the inner catch re-catches the thrown error and runs two further
backoff-delayed retries (sleeps of 2000ms and 4000ms; four fetch attempts
in all), contradicting the claim and the source's own comment
("don't retry again ... prevents going through the normal retry loop after
targeted remediation", mcpClient.ts lines 1028–1031).  Third conjunct: a
second consecutive session failure after the replay is terminal (no second
initialisation, no sleeps). -/
theorem c3_session_remediation_trace :
    requestModel
        (fun a => if a = 0 then
          .httpError 400 "Bad Request" "Bad Request: No valid session ID provided"
          else .ok)
        (fun _ => true) {} =
      ⟨2, 1, [], .ok ()⟩ ∧
    requestModel
        (fun a => if a = 0 then
          .httpError 400 "Bad Request" "Bad Request: No valid session ID provided"
          else .httpError 503 "Service Unavailable" "upstream busy")
        (fun _ => true) {} =
      ⟨4, 1, [2000, 4000],
        .error (httpMCPError 503 "Service Unavailable" "upstream busy")⟩ ∧
    requestModel
        (fun _ => .httpError 400 "Bad Request" "Bad Request: No valid session ID provided")
        (fun _ => true) {} =
      ⟨2, 1, [],
        .error (httpMCPError 400 "Bad Request" "Bad Request: No valid session ID provided")⟩ := by
  refine ⟨?_, ?_, ?_⟩ <;> rfl

/-! ## Claim C9 -/

theorem mem_setKey_map_fst {fs : List (String × JValue)} {k a : String} {v : JValue}
    (h : a ∈ (setKey fs k v).map Prod.fst) : a ∈ fs.map Prod.fst ∨ a = k := by
  induction fs with
  | nil =>
      simp only [setKey, List.map_cons, List.map_nil, List.mem_singleton] at h
      exact .inr h
  | cons p rest ih =>
      obtain ⟨k', v'⟩ := p
      by_cases h1 : k' = k
      · rw [show setKey ((k', v') :: rest) k v = (k', v) :: rest from by
          simp [setKey, h1]] at h
        simp only [List.map_cons, List.mem_cons] at h ⊢
        tauto
      · rw [show setKey ((k', v') :: rest) k v = (k', v') :: setKey rest k v from by
          simp [setKey, h1]] at h
        simp only [List.map_cons, List.mem_cons] at h ⊢
        rcases h with h | h
        · exact .inl (.inl h)
        · rcases ih h with h' | h'
          · exact .inl (.inr h')
          · exact .inr h'

theorem nodupKeys_setKey (fs : List (String × JValue)) (k : String) (v : JValue)
    (h : nodupKeys fs) : nodupKeys (setKey fs k v) := by
  induction fs with
  | nil => simp [setKey, nodupKeys]
  | cons p rest ih =>
      obtain ⟨k', v'⟩ := p
      simp only [nodupKeys, List.map_cons, List.nodup_cons] at h
      by_cases h1 : k' = k
      · simp only [setKey, if_pos h1, nodupKeys, List.map_cons, List.nodup_cons]
        exact h
      · simp only [setKey, if_neg h1, nodupKeys, List.map_cons, List.nodup_cons]
        refine ⟨?_, ih h.2⟩
        intro hmem
        rcases mem_setKey_map_fst hmem with h' | h'
        · exact h.1 h'
        · exact h1 h'

theorem hasKey_iff_getKey {fs : List (String × JValue)} {k : String} :
    hasKey fs k = true ↔ ∃ v, getKey fs k = some v := by
  simp [hasKey, Option.isSome_iff_exists]

/-- Per-field lookup specification of the `aggregation → function` rewrite. -/
theorem normalizeField_spec (fo : List (String × JValue)) (hnd : nodupKeys fo) :
    (hasKey fo "aggregation" = true → hasKey fo "function" = false →
      ∃ fo', normalizeField (.obj fo) = .obj fo' ∧
        getKey fo' "function" = getKey fo "aggregation" ∧
        getKey fo' "aggregation" = none ∧
        (∀ k, k ≠ "aggregation" → k ≠ "function" → getKey fo' k = getKey fo k)) ∧
    (hasKey fo "aggregation" = true → hasKey fo "function" = true →
      ∃ fo', normalizeField (.obj fo) = .obj fo' ∧
        getKey fo' "aggregation" = none ∧
        (∀ k, k ≠ "aggregation" → getKey fo' k = getKey fo k)) ∧
    (hasKey fo "aggregation" = false → normalizeField (.obj fo) = .obj fo) := by
  refine ⟨?_, ?_, ?_⟩
  · intro h1 h2
    obtain ⟨a, ha⟩ := hasKey_iff_getKey.mp h1
    refine ⟨delKey (setKey fo "function" ((getKey fo "aggregation").getD .null)) "aggregation",
      ?_, ?_, ?_, ?_⟩
    · simp only [normalizeField]
      rw [if_pos ⟨h1, by simp [h2]⟩]
    · rw [getKey_delKey_ne _ _ _ (by decide), getKey_setKey_self, ha]
      simp
    · exact getKey_delKey_self _ _ (nodupKeys_setKey fo _ _ hnd)
    · intro k hk1 hk2
      rw [getKey_delKey_ne _ _ _ hk1, getKey_setKey_ne _ _ _ _ hk2]
  · intro h1 h2
    refine ⟨delKey fo "aggregation", ?_, ?_, ?_⟩
    · simp only [normalizeField]
      rw [if_neg (by simp [h2]), if_pos ⟨h1, h2⟩]
    · exact getKey_delKey_self _ _ hnd
    · intro k hk1
      exact getKey_delKey_ne _ _ _ hk1
  · intro h1
    simp only [normalizeField]
    rw [if_neg (by simp [h1]), if_neg (by simp [h1])]

/-- Lookup specification of the `min`/`max` rewrite tail. -/
theorem filterMinMaxTail_spec (fo1 : List (String × JValue)) (hnd1 : nodupKeys fo1) :
    (∀ v, getKey fo1 "min" = some v → getKey (filterMinMaxTail fo1) "minDate" = some v) ∧
    (∀ v, getKey fo1 "max" = some v → getKey (filterMinMaxTail fo1) "maxDate" = some v) ∧
    getKey (filterMinMaxTail fo1) "min" = none ∧
    getKey (filterMinMaxTail fo1) "max" = none ∧
    ((hasKey fo1 "min" = true ∨ hasKey fo1 "max" = true) →
      getKey (filterMinMaxTail fo1) "dateRangeType" = some (.str "RANGE")) ∧
    getKey (filterMinMaxTail fo1) "filterType" = getKey fo1 "filterType" ∧
    getKey (filterMinMaxTail fo1) "quantitativeFilterType" =
      getKey fo1 "quantitativeFilterType" := by
  simp only [filterMinMaxTail]
  by_cases hm : hasKey fo1 "min" = true
  case pos =>
    obtain ⟨mv, hmv⟩ := hasKey_iff_getKey.mp hm
    rw [if_pos hm]
    set fo2 := delKey (setKey fo1 "minDate" ((getKey fo1 "min").getD .null)) "min" with hfo2
    have hnd2 : nodupKeys fo2 := nodupKeys_delKey _ _ (nodupKeys_setKey _ _ _ hnd1)
    have f2_minDate : getKey fo2 "minDate" = some mv := by
      rw [hfo2, getKey_delKey_ne _ _ _ (by decide), getKey_setKey_self, hmv]
      rfl
    have f2_min : getKey fo2 "min" = none :=
      getKey_delKey_self _ _ (nodupKeys_setKey _ _ _ hnd1)
    have f2_max : getKey fo2 "max" = getKey fo1 "max" := by
      rw [hfo2, getKey_delKey_ne _ _ _ (by decide), getKey_setKey_ne _ _ _ _ (by decide)]
    have f2_ft : getKey fo2 "filterType" = getKey fo1 "filterType" := by
      rw [hfo2, getKey_delKey_ne _ _ _ (by decide), getKey_setKey_ne _ _ _ _ (by decide)]
    have f2_qft : getKey fo2 "quantitativeFilterType" = getKey fo1 "quantitativeFilterType" := by
      rw [hfo2, getKey_delKey_ne _ _ _ (by decide), getKey_setKey_ne _ _ _ _ (by decide)]
    by_cases hx : hasKey fo2 "max" = true
    case pos =>
      obtain ⟨xv, hxv⟩ := hasKey_iff_getKey.mp hx
      rw [if_pos hx]
      set fo3 := delKey (setKey fo2 "maxDate" ((getKey fo2 "max").getD .null)) "max" with hfo3
      have hnd3 : nodupKeys fo3 := nodupKeys_delKey _ _ (nodupKeys_setKey _ _ _ hnd2)
      have f3_minDate : getKey fo3 "minDate" = some mv := by
        rw [hfo3, getKey_delKey_ne _ _ _ (by decide), getKey_setKey_ne _ _ _ _ (by decide),
          f2_minDate]
      have f3_maxDate : getKey fo3 "maxDate" = some xv := by
        rw [hfo3, getKey_delKey_ne _ _ _ (by decide), getKey_setKey_self, hxv]
        rfl
      have f3_min : getKey fo3 "min" = none := by
        rw [hfo3, getKey_delKey_ne _ _ _ (by decide), getKey_setKey_ne _ _ _ _ (by decide),
          f2_min]
      have f3_max : getKey fo3 "max" = none :=
        getKey_delKey_self _ _ (nodupKeys_setKey _ _ _ hnd2)
      have f3_ft : getKey fo3 "filterType" = getKey fo1 "filterType" := by
        rw [hfo3, getKey_delKey_ne _ _ _ (by decide), getKey_setKey_ne _ _ _ _ (by decide),
          f2_ft]
      have f3_qft : getKey fo3 "quantitativeFilterType" =
          getKey fo1 "quantitativeFilterType" := by
        rw [hfo3, getKey_delKey_ne _ _ _ (by decide), getKey_setKey_ne _ _ _ _ (by decide),
          f2_qft]
      rw [if_pos (Or.inl (by rw [hasKey, f3_minDate]; rfl))]
      refine ⟨?_, ?_, ?_, ?_, ?_, ?_, ?_⟩
      · intro v hv
        rw [getKey_setKey_ne _ _ _ _ (by decide), f3_minDate]
        rw [hmv] at hv
        exact hv ▸ rfl
      · intro v hv
        rw [getKey_setKey_ne _ _ _ _ (by decide), f3_maxDate]
        rw [f2_max] at hxv
        rw [hxv] at hv
        exact hv ▸ rfl
      · rw [getKey_setKey_ne _ _ _ _ (by decide), f3_min]
      · rw [getKey_setKey_ne _ _ _ _ (by decide), f3_max]
      · intro _
        rw [getKey_setKey_self]
      · rw [getKey_setKey_ne _ _ _ _ (by decide), f3_ft]
      · rw [getKey_setKey_ne _ _ _ _ (by decide), f3_qft]
    case neg =>
      rw [if_neg hx]
      have f2_maxNone : getKey fo2 "max" = none := by
        rcases h : getKey fo2 "max" with _ | v
        · rfl
        · exact absurd (hasKey_iff_getKey.mpr ⟨v, h⟩) hx
      rw [if_pos (Or.inl (by rw [hasKey, f2_minDate]; rfl))]
      refine ⟨?_, ?_, ?_, ?_, ?_, ?_, ?_⟩
      · intro v hv
        rw [getKey_setKey_ne _ _ _ _ (by decide), f2_minDate]
        rw [hmv] at hv
        exact hv ▸ rfl
      · intro v hv
        rw [f2_max] at f2_maxNone
        rw [f2_maxNone] at hv
        exact absurd hv (by simp)
      · rw [getKey_setKey_ne _ _ _ _ (by decide), f2_min]
      · rw [getKey_setKey_ne _ _ _ _ (by decide), f2_max]
        rw [f2_max] at f2_maxNone
        exact f2_maxNone
      · intro _
        rw [getKey_setKey_self]
      · rw [getKey_setKey_ne _ _ _ _ (by decide), f2_ft]
      · rw [getKey_setKey_ne _ _ _ _ (by decide), f2_qft]
  case neg =>
    rw [if_neg hm]
    have f1_minNone : getKey fo1 "min" = none := by
      rcases h : getKey fo1 "min" with _ | v
      · rfl
      · exact absurd (hasKey_iff_getKey.mpr ⟨v, h⟩) hm
    by_cases hx : hasKey fo1 "max" = true
    case pos =>
      obtain ⟨xv, hxv⟩ := hasKey_iff_getKey.mp hx
      rw [if_pos hx]
      set fo3 := delKey (setKey fo1 "maxDate" ((getKey fo1 "max").getD .null)) "max" with hfo3
      have hnd3 : nodupKeys fo3 := nodupKeys_delKey _ _ (nodupKeys_setKey _ _ _ hnd1)
      have f3_maxDate : getKey fo3 "maxDate" = some xv := by
        rw [hfo3, getKey_delKey_ne _ _ _ (by decide), getKey_setKey_self, hxv]
        rfl
      have f3_min : getKey fo3 "min" = none := by
        rw [hfo3, getKey_delKey_ne _ _ _ (by decide), getKey_setKey_ne _ _ _ _ (by decide),
          f1_minNone]
      have f3_max : getKey fo3 "max" = none :=
        getKey_delKey_self _ _ (nodupKeys_setKey _ _ _ hnd1)
      have f3_ft : getKey fo3 "filterType" = getKey fo1 "filterType" := by
        rw [hfo3, getKey_delKey_ne _ _ _ (by decide), getKey_setKey_ne _ _ _ _ (by decide)]
      have f3_qft : getKey fo3 "quantitativeFilterType" =
          getKey fo1 "quantitativeFilterType" := by
        rw [hfo3, getKey_delKey_ne _ _ _ (by decide), getKey_setKey_ne _ _ _ _ (by decide)]
      rw [if_pos (Or.inr (by rw [hasKey, f3_maxDate]; rfl))]
      refine ⟨?_, ?_, ?_, ?_, ?_, ?_, ?_⟩
      · intro v hv
        rw [f1_minNone] at hv
        exact absurd hv (by simp)
      · intro v hv
        rw [getKey_setKey_ne _ _ _ _ (by decide), f3_maxDate]
        rw [hxv] at hv
        exact hv ▸ rfl
      · rw [getKey_setKey_ne _ _ _ _ (by decide), f3_min]
      · rw [getKey_setKey_ne _ _ _ _ (by decide), f3_max]
      · intro _
        rw [getKey_setKey_self]
      · rw [getKey_setKey_ne _ _ _ _ (by decide), f3_ft]
      · rw [getKey_setKey_ne _ _ _ _ (by decide), f3_qft]
    case neg =>
      rw [if_neg hx]
      have f1_maxNone : getKey fo1 "max" = none := by
        rcases h : getKey fo1 "max" with _ | v
        · rfl
        · exact absurd (hasKey_iff_getKey.mpr ⟨v, h⟩) hx
      by_cases hdr : (hasKey fo1 "minDate" = true ∨ hasKey fo1 "maxDate" = true)
      · rw [if_pos hdr]
        refine ⟨?_, ?_, ?_, ?_, ?_, ?_, ?_⟩
        · intro v hv
          rw [f1_minNone] at hv
          exact absurd hv (by simp)
        · intro v hv
          rw [f1_maxNone] at hv
          exact absurd hv (by simp)
        · rw [getKey_setKey_ne _ _ _ _ (by decide)]
          exact f1_minNone
        · rw [getKey_setKey_ne _ _ _ _ (by decide)]
          exact f1_maxNone
        · intro hcon
          rcases hcon with h | h
          · exact absurd h hm
          · exact absurd h hx
        · rw [getKey_setKey_ne _ _ _ _ (by decide)]
        · rw [getKey_setKey_ne _ _ _ _ (by decide)]
      · rw [if_neg hdr]
        refine ⟨?_, ?_, f1_minNone, f1_maxNone, ?_, rfl, rfl⟩
        · intro v hv
          rw [f1_minNone] at hv
          exact absurd hv (by simp)
        · intro v hv
          rw [f1_maxNone] at hv
          exact absurd hv (by simp)
        · intro hcon
          rcases hcon with h | h
          · exact absurd h hm
          · exact absurd h hx

/-- Per-filter lookup specification of the date-filter rewrite. -/
theorem normalizeFilter_spec (fo : List (String × JValue)) (hnd : nodupKeys fo) :
    ((getKey fo "filterType" = some (.str "QUANTITATIVE_DATE") ∨
        getKey fo "filterType" = some (.str "DATE")) →
      (hasKey fo "min" = true ∨ hasKey fo "max" = true) →
      ∃ fo', normalizeFilter (.obj fo) = .obj fo' ∧
        getKey fo' "filterType" = some (.str "DATE") ∧
        (∀ v, getKey fo "min" = some v → getKey fo' "minDate" = some v) ∧
        (∀ v, getKey fo "max" = some v → getKey fo' "maxDate" = some v) ∧
        getKey fo' "min" = none ∧
        getKey fo' "max" = none ∧
        getKey fo' "dateRangeType" = some (.str "RANGE") ∧
        (getKey fo "filterType" = some (.str "QUANTITATIVE_DATE") →
          getKey fo' "quantitativeFilterType" = none)) ∧
    ((¬ ((getKey fo "filterType" = some (.str "QUANTITATIVE_DATE") ∨
          getKey fo "filterType" = some (.str "DATE")) ∧
        (hasKey fo "min" = true ∨ hasKey fo "max" = true))) →
      normalizeFilter (.obj fo) = .obj fo) := by
  constructor
  · intro hFT hMM
    by_cases hqd : getKey fo "filterType" = some (.str "QUANTITATIVE_DATE")
    · -- QUANTITATIVE_DATE: `filterType` rewritten, `quantitativeFilterType` dropped
      set fo1 := delKey (setKey fo "filterType" (JValue.str "DATE")) "quantitativeFilterType"
        with hfo1
      have hnd1 : nodupKeys fo1 := nodupKeys_delKey _ _ (nodupKeys_setKey _ _ _ hnd)
      have f1_ft : getKey fo1 "filterType" = some (.str "DATE") := by
        rw [hfo1, getKey_delKey_ne _ _ _ (by decide), getKey_setKey_self]
      have f1_min : getKey fo1 "min" = getKey fo "min" := by
        rw [hfo1, getKey_delKey_ne _ _ _ (by decide), getKey_setKey_ne _ _ _ _ (by decide)]
      have f1_max : getKey fo1 "max" = getKey fo "max" := by
        rw [hfo1, getKey_delKey_ne _ _ _ (by decide), getKey_setKey_ne _ _ _ _ (by decide)]
      have f1_qft : getKey fo1 "quantitativeFilterType" = none :=
        getKey_delKey_self _ _ (nodupKeys_setKey _ _ _ hnd)
      obtain ⟨t1, t2, t3, t4, t5, t6, t7⟩ := filterMinMaxTail_spec fo1 hnd1
      refine ⟨filterMinMaxTail fo1, ?_, ?_, ?_, ?_, t3, t4, ?_, ?_⟩
      · simp only [normalizeFilter]
        rw [if_pos ⟨hFT, hMM⟩, if_pos hqd]
      · rw [t6, f1_ft]
      · intro v hv
        exact t1 v (by rw [f1_min]; exact hv)
      · intro v hv
        exact t2 v (by rw [f1_max]; exact hv)
      · apply t5
        rcases hMM with h | h
        · exact .inl (by simpa [hasKey, f1_min] using h)
        · exact .inr (by simpa [hasKey, f1_max] using h)
      · intro _
        rw [t7, f1_qft]
    · -- plain DATE filter
      have hd : getKey fo "filterType" = some (.str "DATE") := hFT.resolve_left hqd
      obtain ⟨t1, t2, t3, t4, t5, t6, t7⟩ := filterMinMaxTail_spec fo hnd
      refine ⟨filterMinMaxTail fo, ?_, ?_, t1, t2, t3, t4, ?_, ?_⟩
      · simp only [normalizeFilter]
        rw [if_pos ⟨hFT, hMM⟩, if_neg hqd]
      · rw [t6, hd]
      · exact t5 hMM
      · intro hq
        exact absurd hq hqd
  · intro hno
    simp only [normalizeFilter]
    rw [if_neg ?hc]
    case hc =>
      intro hcand
      exact hno ⟨hcand.1, by simpa using hcand.2⟩

/-- Lookup specification of the `fields` pass. -/
theorem applyFieldsRewrite_spec (q1 : List (String × JValue)) (hnd : nodupKeys q1) :
    nodupKeys (applyFieldsRewrite q1) ∧
    (∀ fs, getKey q1 "fields" = some (.arr fs) →
      getKey (applyFieldsRewrite q1) "fields" = some (.arr (fs.map normalizeField))) ∧
    (∀ k, k ≠ "fields" → getKey (applyFieldsRewrite q1) k = getKey q1 k) := by
  refine ⟨?_, ?_, ?_⟩
  · unfold applyFieldsRewrite
    split
    · exact nodupKeys_setKey _ _ _ hnd
    · exact hnd
  · intro fs hfs
    unfold applyFieldsRewrite
    split
    · rename_i fs' heq
      rw [hfs] at heq
      obtain rfl : fs' = fs := by
        have := Option.some.inj heq
        exact (JValue.arr.inj this.symm)
      rw [getKey_setKey_self]
    · rename_i hno
      exact absurd hfs (by intro hc; exact hno fs hc)
  · intro k hk
    unfold applyFieldsRewrite
    split
    · rw [getKey_setKey_ne _ _ _ _ hk]
    · rfl

/-- Lookup specification of the `filters` pass. -/
theorem applyFiltersRewrite_spec (q2 : List (String × JValue)) (hnd : nodupKeys q2) :
    nodupKeys (applyFiltersRewrite q2) ∧
    (∀ fl, getKey q2 "filters" = some (.arr fl) →
      getKey (applyFiltersRewrite q2) "filters" = some (.arr (fl.map normalizeFilter))) ∧
    (∀ k, k ≠ "filters" → getKey (applyFiltersRewrite q2) k = getKey q2 k) := by
  refine ⟨?_, ?_, ?_⟩
  · unfold applyFiltersRewrite
    split
    · exact nodupKeys_setKey _ _ _ hnd
    · exact hnd
  · intro fl hfl
    unfold applyFiltersRewrite
    split
    · rename_i fl' heq
      rw [hfl] at heq
      obtain rfl : fl' = fl := by
        have := Option.some.inj heq
        exact (JValue.arr.inj this.symm)
      rw [getKey_setKey_self]
    · rename_i hno
      exact absurd hfl (by intro hc; exact hno fl hc)
  · intro k hk
    unfold applyFiltersRewrite
    split
    · rw [getKey_setKey_ne _ _ _ _ hk]
    · rfl

/-- Lookup specification of the `limit` removal. -/
theorem limitStage_spec (qo : List (String × JValue)) (hnd : nodupKeys qo) :
    nodupKeys (if hasKey qo "limit" then delKey qo "limit" else qo) ∧
    getKey (if hasKey qo "limit" then delKey qo "limit" else qo) "limit" = none ∧
    (∀ k, k ≠ "limit" →
      getKey (if hasKey qo "limit" then delKey qo "limit" else qo) k = getKey qo k) := by
  by_cases hl : hasKey qo "limit" = true
  · rw [if_pos hl]
    exact ⟨nodupKeys_delKey _ _ hnd, getKey_delKey_self _ _ hnd,
      fun k hk => getKey_delKey_ne _ _ _ hk⟩
  · rw [if_neg hl]
    refine ⟨hnd, ?_, fun k _ => rfl⟩
    rcases h : getKey qo "limit" with _ | v
    · rfl
    · exact absurd (hasKey_iff_getKey.mpr ⟨v, h⟩) hl

/-- Top-level lookup specification of `normalizeDatasourceQuery`. -/
theorem normalizeDatasourceQuery_spec (qo : List (String × JValue)) (hnd : nodupKeys qo) :
    ∃ ro, normalizeDatasourceQuery (.obj qo) = .obj ro ∧
      getKey ro "limit" = none ∧
      (∀ k, k ≠ "limit" → k ≠ "fields" → k ≠ "filters" → getKey ro k = getKey qo k) ∧
      (∀ fs, getKey qo "fields" = some (.arr fs) →
        getKey ro "fields" = some (.arr (fs.map normalizeField))) ∧
      (∀ fl, getKey qo "filters" = some (.arr fl) →
        getKey ro "filters" = some (.arr (fl.map normalizeFilter))) := by
  obtain ⟨hnd1, h1_limit, h1_ne⟩ := limitStage_spec qo hnd
  obtain ⟨hnd2, h2_fields, h2_ne⟩ := applyFieldsRewrite_spec _ hnd1
  obtain ⟨_, h3_filters, h3_ne⟩ := applyFiltersRewrite_spec _ hnd2
  refine ⟨_, rfl, ?_, ?_, ?_, ?_⟩
  · rw [h3_ne _ (by decide), h2_ne _ (by decide)]
    exact h1_limit
  · intro k hk1 hk2 hk3
    rw [h3_ne _ hk3, h2_ne _ hk2]
    exact h1_ne _ hk1
  · intro fs hfs
    rw [h3_ne _ (by decide)]
    exact h2_fields fs (by rw [h1_ne _ (by decide)]; exact hfs)
  · intro fl hfl
    apply h3_filters
    rw [h2_ne _ (by decide), h1_ne _ (by decide)]
    exact hfl

/-- C9: before a `query-datasource` call is dispatched, the engine rewrites
the model-supplied query without touching the recorded input (the embedding
is pure; the source copies before modifying): a top-level `limit` key is
removed and all other non-`fields`/`filters` keys are untouched (conjunct
1); in each field an `aggregation` key is renamed to `function` when
`function` is absent and dropped when `function` is present (conjunct 2);
`QUANTITATIVE_DATE`/`DATE` filters carrying `min`/`max` become `filterType
DATE` with `minDate`/`maxDate` and `dateRangeType RANGE` (conjunct 3); and
the query handed to the MCP client by `executeToolCall` is the rewritten
one, so it may differ from the ToolCall's recorded input (conjunct 4). -/
theorem c9_normalizeDatasourceQuery_rewrites :
    (∀ qo, nodupKeys qo → ∃ ro, normalizeDatasourceQuery (.obj qo) = .obj ro ∧
      getKey ro "limit" = none ∧
      (∀ k, k ≠ "limit" → k ≠ "fields" → k ≠ "filters" → getKey ro k = getKey qo k) ∧
      (∀ fs, getKey qo "fields" = some (.arr fs) →
        getKey ro "fields" = some (.arr (fs.map normalizeField))) ∧
      (∀ fl, getKey qo "filters" = some (.arr fl) →
        getKey ro "filters" = some (.arr (fl.map normalizeFilter)))) ∧
    (∀ fo, nodupKeys fo →
      (hasKey fo "aggregation" = true → hasKey fo "function" = false →
        ∃ fo', normalizeField (.obj fo) = .obj fo' ∧
          getKey fo' "function" = getKey fo "aggregation" ∧
          getKey fo' "aggregation" = none ∧
          (∀ k, k ≠ "aggregation" → k ≠ "function" → getKey fo' k = getKey fo k)) ∧
      (hasKey fo "aggregation" = true → hasKey fo "function" = true →
        ∃ fo', normalizeField (.obj fo) = .obj fo' ∧
          getKey fo' "aggregation" = none ∧
          (∀ k, k ≠ "aggregation" → getKey fo' k = getKey fo k)) ∧
      (hasKey fo "aggregation" = false → normalizeField (.obj fo) = .obj fo)) ∧
    (∀ fo, nodupKeys fo →
      ((getKey fo "filterType" = some (.str "QUANTITATIVE_DATE") ∨
          getKey fo "filterType" = some (.str "DATE")) →
        (hasKey fo "min" = true ∨ hasKey fo "max" = true) →
        ∃ fo', normalizeFilter (.obj fo) = .obj fo' ∧
          getKey fo' "filterType" = some (.str "DATE") ∧
          (∀ v, getKey fo "min" = some v → getKey fo' "minDate" = some v) ∧
          (∀ v, getKey fo "max" = some v → getKey fo' "maxDate" = some v) ∧
          getKey fo' "min" = none ∧
          getKey fo' "max" = none ∧
          getKey fo' "dateRangeType" = some (.str "RANGE") ∧
          (getKey fo "filterType" = some (.str "QUANTITATIVE_DATE") →
            getKey fo' "quantitativeFilterType" = none))) ∧
    (∀ (env : ToolEnv) (id l : String) (qo : List (String × JValue)),
      l ≠ "" → jsTrim l ≠ "" →
      (executeToolCallTry env none
        ⟨id, "query-datasource",
          .obj [("datasourceLuid", .str l), ("query", .obj qo)]⟩).2 =
        [ClientCall.queryDatasource (jsTrim l) (normalizeDatasourceQuery (.obj qo))]) := by
  refine ⟨normalizeDatasourceQuery_spec,
    fun fo h => normalizeField_spec fo h,
    fun fo h => (normalizeFilter_spec fo h).1, ?_⟩
  intro env id l qo hl hlt
  have hlen : ¬ (jsTrim l).length = 0 := fun h => hlt (by
    cases hj : jsTrim l with
    | mk d =>
      rw [hj] at h
      have hd : d = [] := List.length_eq_zero.mp h
      rw [hd])
  rcases hm : env.mcp (ClientCall.queryDatasource (jsTrim l)
      (normalizeDatasourceQuery (.obj qo))) with e | v <;>
    simp [executeToolCallTry, optTruthy, getProp, getKey, jsStringU, jsString,
      hl, hlen, hm, Except.mapError]

/-- C9 witness: the rewrite at a concrete query — `limit` removed,
`aggregation` renamed, a `QUANTITATIVE_DATE` range filter converted. -/
theorem c9_witness :
    (∃ ro, normalizeDatasourceQuery (.obj
        [("datasourceLuid", .str "d"), ("limit", .num 10),
         ("fields", .arr [.obj [("fieldCaption", .str "Sales"), ("aggregation", .str "SUM")]]),
         ("filters", .arr [.obj [("field", .str "Date"),
            ("filterType", .str "QUANTITATIVE_DATE"),
            ("min", .str "2024-01-01"), ("max", .str "2024-12-31")]])]) = .obj ro ∧
      getKey ro "limit" = none ∧ getKey ro "datasourceLuid" = some (.str "d")) ∧
    (∃ fo', normalizeField (.obj [("fieldCaption", .str "Sales"), ("aggregation", .str "SUM")]) =
        .obj fo' ∧ getKey fo' "function" = some (.str "SUM") ∧
        getKey fo' "aggregation" = none) ∧
    (∃ fo', normalizeFilter (.obj [("field", .str "Date"),
        ("filterType", .str "QUANTITATIVE_DATE"),
        ("min", .str "2024-01-01"), ("max", .str "2024-12-31")]) = .obj fo' ∧
      getKey fo' "filterType" = some (.str "DATE") ∧
      getKey fo' "minDate" = some (.str "2024-01-01") ∧
      getKey fo' "dateRangeType" = some (.str "RANGE")) ∧
    (∀ env : ToolEnv,
      (executeToolCallTry env none
        ⟨"t1", "query-datasource",
          .obj [("datasourceLuid", .str "ds-9"), ("query", .obj [("limit", .num 5)])]⟩).2 =
        [ClientCall.queryDatasource "ds-9" (normalizeDatasourceQuery (.obj [("limit", .num 5)]))]) := by
  refine ⟨?_, ?_, ?_, ?_⟩
  · obtain ⟨ro, hro, hlim, hne, _, _⟩ :=
      c9_normalizeDatasourceQuery_rewrites.1
        [("datasourceLuid", .str "d"), ("limit", .num 10),
         ("fields", .arr [.obj [("fieldCaption", .str "Sales"), ("aggregation", .str "SUM")]]),
         ("filters", .arr [.obj [("field", .str "Date"),
            ("filterType", .str "QUANTITATIVE_DATE"),
            ("min", .str "2024-01-01"), ("max", .str "2024-12-31")]])] (by decide)
    exact ⟨ro, hro, hlim, by rw [hne "datasourceLuid" (by decide) (by decide) (by decide)]; rfl⟩
  · obtain ⟨fo', hfo, hfn, hagg, _⟩ :=
      (c9_normalizeDatasourceQuery_rewrites.2.1
        [("fieldCaption", .str "Sales"), ("aggregation", .str "SUM")] (by decide)).1
        (by decide) (by decide)
    exact ⟨fo', hfo, by rw [hfn]; rfl, hagg⟩
  · obtain ⟨fo', hfo, hft, hmin, _, _, _, hdr, _⟩ :=
      c9_normalizeDatasourceQuery_rewrites.2.2.1
        [("field", .str "Date"), ("filterType", .str "QUANTITATIVE_DATE"),
         ("min", .str "2024-01-01"), ("max", .str "2024-12-31")] (by decide)
        (.inl (by decide)) (.inl (by decide))
    exact ⟨fo', hfo, hft, hmin _ (by decide), hdr⟩
  · intro env
    exact c9_normalizeDatasourceQuery_rewrites.2.2.2 env "t1" "ds-9" [("limit", .num 5)]
      (by decide) (by decide)

theorem str_length_eq_zero {s : String} (h : s.length = 0) : s = "" := by
  cases s with
  | mk d =>
    have hd : d = [] := List.length_eq_zero.mp h
    rw [hd]

/-- C7 counterexample: a `formatToolResult` output whose serialized content
exceeds the byte cap gets the truncation indicator appended after the (here
valid-JSON) cut, so the final content string is NOT valid serialized data:
parsing it fails.  This refutes the "always valid serialized data" part of
the claim for every truncated result, including the fallback-wrapper path,
because the indicator is appended unconditionally
(`return truncated + truncationIndicator`). -/
theorem c7_counterexample :
    formatToolResult 100 40 "t1"
        (.num 11111111111111111111111111111111111111111111) false =
      .ok ⟨"t1", "1111111" ++ truncationIndicator, false⟩ ∧
    jparse ("1111111" ++ truncationIndicator) = none := by
  constructor
  · decide
  · decide

/-- C7 (amended): `truncateQueryResult` caps an oversized `data` array at
exactly `rowCap` rows and attaches a `_metadata` block with the original
total, the returned count and `truncated = true` (conjunct 1), and leaves a
within-cap result untouched (conjunct 2); `truncateToolResultContent`
returns content within the byte cap unchanged (conjunct 3) and otherwise
returns a cut prefix followed by the truncation indicator, where the prefix
alone is valid JSON or is the fallback wrapper object built from an invalid
cut (conjunct 4) — the full content string including the indicator is not
valid JSON (see the counterexample); `formatToolResult` applies the row cap
then serialization then the byte cap, on success and on error alike
(conjunct 5). -/
theorem c7_truncation_amended (rowCap byteCap : Nat) :
    (∀ fs rows, getKey fs "data" = some (.arr rows) → rows.length > rowCap →
      ∃ fs', truncateQueryResult rowCap (.obj fs) = .obj fs' ∧
        getKey fs' "data" = some (.arr (rows.take rowCap)) ∧
        (rows.take rowCap).length = rowCap ∧
        ∃ md, getKey fs' "_metadata" = some (.obj md) ∧
          getKey md "totalRows" = some (.num rows.length) ∧
          getKey md "returnedRows" = some (.num rowCap) ∧
          getKey md "truncated" = some (.bool true)) ∧
    (∀ fs rows, getKey fs "data" = some (.arr rows) → rows.length ≤ rowCap →
      truncateQueryResult rowCap (.obj fs) = .obj fs) ∧
    (∀ content, byteLen content ≤ byteCap →
      truncateToolResultContent byteCap content = content) ∧
    (∀ content, byteLen content > byteCap →
      ∃ t, truncateToolResultContent byteCap content = t ++ truncationIndicator ∧
        ((jparse t).isSome ∨
          ∃ t0, jparse t0 = none ∧
            t = stringify (.obj [("_truncated", .bool true),
              ("_note", .str "Result was too large and had to be truncated"),
              ("_originalSizeBytes", .num (byteLen content)),
              ("_truncatedSizeBytes", .num (byteLen t0))]))) ∧
    (∀ (id : String) (result : JValue) (isError : Bool), id ≠ "" → jsTrim id ≠ "" →
      formatToolResult rowCap byteCap id result isError =
        .ok ⟨jsTrim id,
          truncateToolResultContent byteCap (stringify (truncateQueryResult rowCap result)),
          isError⟩) := by
  refine ⟨?_, ?_, ?_, ?_, ?_⟩
  · intro fs rows hdata hgt
    simp only [truncateQueryResult]
    split
    · rename_i rows' heq
      rw [hdata] at heq
      obtain rfl : rows' = rows := (JValue.arr.inj (Option.some.inj heq)).symm
      rw [if_pos hgt]
      refine ⟨_, rfl, ?_, ?_, ?_⟩
      · rw [getKey_setKey_ne _ _ _ _ (by decide), getKey_setKey_self]
      · rw [List.length_take]
        omega
      · exact ⟨_, getKey_setKey_self _ _ _, rfl, rfl, rfl⟩
    · rename_i hno
      exact absurd hdata (by intro hc; exact hno rows hc)
  · intro fs rows hdata hle
    simp only [truncateQueryResult]
    split
    · rename_i rows' heq
      rw [hdata] at heq
      obtain rfl : rows' = rows := (JValue.arr.inj (Option.some.inj heq)).symm
      rw [if_neg (by omega)]
    · rfl
  · intro content hle
    simp only [truncateToolResultContent]
    rw [if_pos hle]
  · intro content hgt
    simp only [truncateToolResultContent]
    rw [if_neg (by omega)]
    refine ⟨_, rfl, ?_⟩
    split
    · rename_i v hp
      left
      rw [hp]
      rfl
    · rename_i hp
      right
      exact ⟨_, hp, rfl⟩
  · intro id result isError hne htr
    simp only [formatToolResult]
    rw [if_neg (fun h => h.elim hne (fun h2 => htr (str_length_eq_zero h2)))]

/-- C7 witness: the row cap at `rowCap = 2` on a three-row result; identity
of within-cap content; the indicator-suffixed shape of an over-cap content;
the success shape of `formatToolResult`. -/
theorem c7_witness :
    (∃ fs', truncateQueryResult 2 (.obj [("data",
        .arr [.num 1, .num 2, .num 3])]) = .obj fs' ∧
      getKey fs' "data" = some (.arr ([JValue.num 1, .num 2, .num 3].take 2)) ∧
      ([JValue.num 1, .num 2, .num 3].take 2).length = 2 ∧
      ∃ md, getKey fs' "_metadata" = some (.obj md) ∧
        getKey md "totalRows" = some (.num ([JValue.num 1, .num 2, .num 3].length)) ∧
        getKey md "returnedRows" = some (.num 2) ∧
        getKey md "truncated" = some (.bool true)) ∧
    truncateToolResultContent 40 "ok" = "ok" ∧
    (∃ t, truncateToolResultContent 40
        "11111111111111111111111111111111111111111111" = t ++ truncationIndicator ∧
      ((jparse t).isSome ∨
        ∃ t0, jparse t0 = none ∧
          t = stringify (.obj [("_truncated", .bool true),
            ("_note", .str "Result was too large and had to be truncated"),
            ("_originalSizeBytes",
              .num (byteLen "11111111111111111111111111111111111111111111")),
            ("_truncatedSizeBytes", .num (byteLen t0))]))) ∧
    formatToolResult 2 40 "t1" (.bool true) false =
      .ok ⟨jsTrim "t1",
        truncateToolResultContent 40 (stringify (truncateQueryResult 2 (.bool true))),
        false⟩ := by
  refine ⟨?_, ?_, ?_, ?_⟩
  · exact (c7_truncation_amended 2 40).1 [("data", .arr [.num 1, .num 2, .num 3])]
      [JValue.num 1, .num 2, .num 3] (by decide) (by decide)
  · exact (c7_truncation_amended 2 40).2.2.1 "ok" (by decide)
  · exact (c7_truncation_amended 2 40).2.2.2.1
      "11111111111111111111111111111111111111111111" (by decide)
  · exact (c7_truncation_amended 2 40).2.2.2.2 "t1" (.bool true) false
      (by decide) (by decide)

theorem str_append_assoc (a b c : String) : (a ++ b) ++ c = a ++ (b ++ c) := by
  cases a with
  | mk da =>
    cases b with
    | mk db =>
      cases c with
      | mk dc =>
        show String.mk ((da ++ db) ++ dc) = String.mk (da ++ (db ++ dc))
        rw [List.append_assoc]

theorem str_empty_append (s : String) : "" ++ s = s := by
  cases s with
  | mk d => rfl

theorem jvTruthy_seededInput (v : JValue) : jvTruthy (seededInput v) = true := by
  unfold seededInput
  by_cases h : jvTruthy v = true
  · rw [if_pos h]; exact h
  · rw [if_neg h]; rfl

theorem jvTruthy_mergeBuf (iv : JValue) (buf : String) (hiv : jvTruthy iv = true) :
    jvTruthy (mergeBuf iv buf) = true := by
  unfold mergeBuf
  by_cases hc : buf ≠ "" ∧ (jsTrim buf).length > 0
  · rw [if_pos hc]
    rcases h : jparse buf with _ | p
    · simp [h, hiv]
    · simp [h, mergeParsedInput, jvTruthy]
  · rw [if_neg hc]
    exact hiv

/-- Effect of the block-start fragment on the empty accumulator. -/
theorem ptcStep_start (i : Nat) (id name : String) (input0 : JValue)
    (hid : id ≠ "") (hname : name ≠ "") :
    ptcStep ptcInit (mkToolUseStart i id name input0) =
      ⟨[], [(i, id)], [(id, ⟨id, name, seededInput input0⟩)], [(id, "")]⟩ := by
  simp [ptcStep, mkToolUseStart, ptcInit, nullish, optTruthy, aSet, hid, hname, seededInput]

/-- Effect of one `input_json_delta` fragment on the single-block state: the
text is appended to the buffer resolved by index exactly when it is
non-blank. -/
theorem ptcStep_delta (i : Nat) (id name : String) (iv : JValue) (b s : String)
    (hid : id ≠ "") :
    ptcStep ⟨[], [(i, id)], [(id, ⟨id, name, iv⟩)], [(id, b)]⟩ (mkInputJsonDelta i s) =
      ⟨[], [(i, id)], [(id, ⟨id, name, iv⟩)],
        [(id, if s ≠ "" ∧ (jsTrim s).length > 0 then b ++ s else b)]⟩ := by
  by_cases hs : s ≠ "" ∧ (jsTrim s).length > 0
  · rw [if_pos hs]
    simp [ptcStep, mkInputJsonDelta, aGet, aSet, optTruthy, nullish, cbToolUseId,
      hid, hs.1, hs.2]
  · rw [if_neg hs]
    rw [Decidable.not_and_iff_or_not] at hs
    rcases hs with hs | hs
    · simp at hs
      simp [ptcStep, mkInputJsonDelta, aGet, aSet, optTruthy, nullish, cbToolUseId, hid, hs]
    · simp [ptcStep, mkInputJsonDelta, aGet, aSet, optTruthy, nullish, cbToolUseId, hid, hs]

/-- Folding all delta fragments appends exactly the kept (non-blank) texts
to the buffer. -/
theorem ptcFold_deltas (i : Nat) (id name : String) (iv : JValue) (hid : id ≠ "")
    (deltas : List String) (b : String) :
    (deltas.map (mkInputJsonDelta i)).foldl ptcStep
        ⟨[], [(i, id)], [(id, ⟨id, name, iv⟩)], [(id, b)]⟩ =
      ⟨[], [(i, id)], [(id, ⟨id, name, iv⟩)], [(id, b ++ strJoin (keptDeltas deltas))]⟩ := by
  induction deltas generalizing b with
  | nil =>
    simp only [List.map_nil, List.foldl_nil, keptDeltas, List.filter_nil, strJoin]
    rw [show b ++ "" = b from by cases b with | mk d => show String.mk _ = _; rw [List.append_nil]]
  | cons s rest ih =>
    rw [List.map_cons, List.foldl_cons, ptcStep_delta i id name iv b s hid]
    by_cases hs : s ≠ "" ∧ (jsTrim s).length > 0
    · rw [if_pos hs, ih (b ++ s)]
      have hk : keptDeltas (s :: rest) = s :: keptDeltas rest := by
        simp [keptDeltas, List.filter_cons, hs.1, hs.2]
      rw [hk]
      show _ = PTCState.mk _ _ _ [(id, b ++ (s ++ strJoin (keptDeltas rest)))]
      rw [← str_append_assoc]
    · rw [if_neg hs, ih b]
      have hk : keptDeltas (s :: rest) = keptDeltas rest := by
        simp only [keptDeltas, List.filter_cons]
        rw [if_neg (by simpa using hs)]
      rw [hk]

/-- Effect of the `content_block_stop` fragment: the buffered JSON is parsed
and merged over the stored input (or the stored input kept), the call is
pushed, and the three maps are cleaned up. -/
theorem ptcStep_stop (i : Nat) (id name : String) (iv : JValue) (buf : String)
    (hid : id ≠ "") (hname : name ≠ "") (hiv : jvTruthy iv = true) :
    ptcStep ⟨[], [(i, id)], [(id, ⟨id, name, iv⟩)], [(id, buf)]⟩ (mkBlockStop i) =
      ⟨[⟨id, name, mergeBuf iv buf⟩], [], [], []⟩ := by
  have hvalid : tcValid ⟨id, name, mergeBuf iv buf⟩ = true := by
    simp [tcValid, hid, hname, jvTruthy_mergeBuf iv buf hiv]
  by_cases hc : buf ≠ "" ∧ (jsTrim buf).length > 0
  · have hm : mergeBuf iv buf = match jparse buf with
        | some parsed => mergeParsedInput iv parsed
        | none => iv := by unfold mergeBuf; rw [if_pos hc]
    rcases h : jparse buf with _ | p <;>
      simp_all [ptcStep, mkBlockStop, cbToolUseId, nullish, optTruthy, aGet, aDel,
        hid, hc.1, hc.2, h, hm]
  · have hm : mergeBuf iv buf = iv := by unfold mergeBuf; rw [if_neg hc]
    rw [Decidable.not_and_iff_or_not] at hc
    rcases hc with hc | hc
    · simp at hc
      simp_all [ptcStep, mkBlockStop, cbToolUseId, nullish, optTruthy, aGet, aDel, hid, hc, hm]
    · simp_all [ptcStep, mkBlockStop, cbToolUseId, nullish, optTruthy, aGet, aDel, hid, hc, hm]

/-- C1 counterexample: a whitespace-only `input_json_delta` fragment is
dropped by the accumulator (`partialJson && partialJson.trim().length > 0`),
so when the whitespace falls inside a JSON string literal the reconstructed
input is the parse of the kept fragments only — not the parse of the full
concatenation, which here succeeds and yields a different object. -/
theorem c1_counterexample :
    parseToolCallsFromChunks (singleBlockStream 0 "t1" "tool" (.obj [])
        ["\x7b\"a\":\"x", " ", "y\"\x7d"]) =
      [⟨"t1", "tool", .obj [("a", .str "xy")]⟩] ∧
    jparse (strJoin ["\x7b\"a\":\"x", " ", "y\"\x7d"]) =
      some (.obj [("a", .str "x y")]) ∧
    JValue.obj [("a", JValue.str "xy")] ≠
      mergeParsedInput (seededInput (.obj [])) (.obj [("a", .str "x y")]) := by
    refine ⟨by decide, by decide, by decide⟩

/-- C1 (amended): for every fragment stream of a tool-use block start
(non-empty id and name), input_json_delta fragments sharing its index and
the matching stop, `parseToolCallsFromChunks` returns exactly one ToolCall,
never dropped, whose input is the JSON-merge of the block-start input
(`input || \x7b\x7d`) and the parse of the concatenation of the KEPT delta
texts — those that are non-empty and non-blank after trimming; blank
fragments are discarded by the accumulator.  The owning buffer is resolved
by the fragment's index, as the delta fragments carry no tool id.  If the
accumulated JSON fails to parse, the block-start input is kept and the call
is still returned. -/
theorem c1_parseToolCalls_amended (i : Nat) (id name : String) (input0 : JValue)
    (deltas : List String) (hid : id ≠ "") (hname : name ≠ "") :
    parseToolCallsFromChunks (singleBlockStream i id name input0 deltas) =
      [⟨id, name, reconstructedInput input0 deltas⟩] := by
  unfold parseToolCallsFromChunks singleBlockStream
  simp only [List.foldl_append, List.foldl_cons, List.foldl_nil]
  rw [ptcStep_start i id name input0 hid hname]
  rw [ptcFold_deltas i id name (seededInput input0) hid deltas ""]
  rw [str_empty_append]
  rw [ptcStep_stop i id name (seededInput input0) _ hid hname (jvTruthy_seededInput input0)]
  rfl

/-- C1 witness: a concrete two-fragment stream whose deltas are all kept;
the reconstructed input is the spread-merge of the seeded input and the
parsed buffer. -/
theorem c1_witness :
    parseToolCallsFromChunks (singleBlockStream 0 "t1" "query"
        (.obj [("a", .num 1)]) ["\x7b\"b\":", "2\x7d"]) =
      [⟨"t1", "query", reconstructedInput (.obj [("a", .num 1)]) ["\x7b\"b\":", "2\x7d"]⟩] ∧
    reconstructedInput (.obj [("a", .num 1)]) ["\x7b\"b\":", "2\x7d"] =
      .obj [("a", .num 1), ("b", .num 2)] :=
  ⟨c1_parseToolCalls_amended 0 "t1" "query" (.obj [("a", .num 1)]) ["\x7b\"b\":", "2\x7d"]
      (by decide) (by decide),
    by decide⟩

/-- The transcript a loop run returns extends the messages of the state it
started from: messages are only ever appended. -/
theorem execLoop_transcript_extends (env : LoopEnv) (locked : Option String)
    (userMessage : String) (maxIter : Nat) :
    ∀ fuel st, ∃ suffix, (execLoop env locked userMessage maxIter fuel st).transcript =
      st.messages ++ suffix := by
  intro fuel
  induction fuel with
  | zero =>
    intro st
    refine ⟨[], ?_⟩
    unfold execLoop answerAttempt
    rcases env.oracle st.llmCalls st.messages with msg | chunks <;> simp
  | succ fuel ih =>
    intro st
    simp only [execLoop]
    split
    · refine ⟨[], ?_⟩
      split <;> simp
    · split
      · refine ⟨[], ?_⟩
        unfold answerAttempt
        split <;> split <;> simp
      · split
        · exact ⟨[], by simp⟩
        · split
          · rename_i results toolEvents newCalls hrun am um ham hum
            obtain ⟨s, hs⟩ := ih _
            exact ⟨[am, um] ++ s, by rw [hs]; simp⟩
          · exact ⟨[], by simp⟩
          · exact ⟨[], by simp⟩

/-- C4: under a locked datasource `L`, a `query-datasource` or
`get-datasource-metadata` call naming a different datasource, and any
`list-datasources` call, fails locally: `executeToolCall` makes NO client
call (its recorded call trace is empty) and returns — does not throw — an
error `ToolResult` (`isError = true`) for the call's id (conjuncts 1–2);
every loop run's transcript extends its starting messages (conjunct 3); and
when a round's only tool call produces such a result, the assistant/user
message pair containing that error result is appended to the transcript the
run returns (conjunct 4). -/
theorem c4_locked_datasource_validation :
    (∀ (env : ToolEnv) (L : String) (tc : ToolCall), L ≠ "" →
      (tc.name = "query-datasource" ∨ tc.name = "get-datasource-metadata") →
      lockedLuidOfInput tc.input ≠ L →
      tc.id ≠ "" → (jsTrim tc.id).length ≠ 0 →
      ∃ r, executeToolCall env (some L) tc = (.ok r, []) ∧
        r.isError = true ∧ r.tool_use_id = jsTrim tc.id) ∧
    (∀ (env : ToolEnv) (L : String) (tc : ToolCall), L ≠ "" →
      tc.name = "list-datasources" →
      tc.id ≠ "" → (jsTrim tc.id).length ≠ 0 →
      ∃ r, executeToolCall env (some L) tc = (.ok r, []) ∧
        r.isError = true ∧ r.tool_use_id = jsTrim tc.id) ∧
    (∀ (env : LoopEnv) (locked : Option String) (userMessage : String) (maxIter fuel : Nat)
      (st : LoopState), ∃ suffix,
      (execLoop env locked userMessage maxIter fuel st).transcript = st.messages ++ suffix) ∧
    (∀ (env : LoopEnv) (L userMessage : String) (maxIter fuel : Nat) (st : LoopState)
        (chunks : List LLMResponseChunk) (tc : ToolCall) (r : ToolResult) (am um : LLMMessage),
      env.oracle st.llmCalls st.messages = .ok chunks →
      parseToolCallsFromChunks chunks = [tc] →
      executeToolCall env.toolEnv (some L) tc = (.ok r, []) →
      buildAssistantMessageWithToolCalls [tc] = .ok am →
      buildUserMessageWithToolResults [r] = .ok um →
      ∃ suffix,
        (execLoop env (some L) userMessage maxIter (fuel + 1) st).transcript =
          st.messages ++ [am, um] ++ suffix) := by
  refine ⟨?_, ?_, fun env locked u mi fuel st => execLoop_transcript_extends env locked u mi fuel st, ?_⟩
  · intro env L tc hL hname hne hid htid
    have htry : ∃ m, executeToolCallTry env (some L) tc = (.error (.plain m), []) := by
      simp only [executeToolCallTry]
      rw [if_pos ⟨by simp [optTruthy, hL], hname, by simpa using hne⟩]
      exact ⟨_, rfl⟩
    obtain ⟨m, htry⟩ := htry
    simp only [executeToolCall, htry, executeToolCallCatch, formatToolResult]
    rw [if_neg (fun h => h.elim hid htid)]
    exact ⟨_, rfl, rfl, rfl⟩
  · intro env L tc hL hname hid htid
    have htry : ∃ m, executeToolCallTry env (some L) tc = (.error (.plain m), []) := by
      simp only [executeToolCallTry]
      rw [if_neg (fun h => by
        rcases h.2.1 with h2 | h2 <;> rw [hname] at h2 <;> exact absurd h2 (by decide))]
      rw [if_pos ⟨by simp [optTruthy, hL], hname⟩]
      exact ⟨_, rfl⟩
    obtain ⟨m, htry⟩ := htry
    simp only [executeToolCall, htry, executeToolCallCatch, formatToolResult]
    rw [if_neg (fun h => h.elim hid htid)]
    exact ⟨_, rfl, rfl, rfl⟩
  · intro env L userMessage maxIter fuel st chunks tc r am um ho hparse hexec ham hum
    simp only [execLoop, ho, hparse]
    have hrun : runToolCalls env (some L) [tc] =
        .ok ([r], [.toolCallStart tc.name tc.id, .toolCallComplete tc.name tc.id], []) := by
      simp [runToolCalls, hexec]
    simp only [hrun, ham, hum, List.isEmpty_cons, Bool.false_eq_true, if_false]
    obtain ⟨s, hs⟩ := execLoop_transcript_extends env (some L) userMessage maxIter fuel _
    exact ⟨s, by rw [hs]⟩

/-- C4 witness: a run locked to `ds-1` whose first round requests a
`query-datasource` call naming datasource `other`: the call fails locally
with an error ToolResult, no client call is made, and the error result's
message pair lands in the transcript. -/
theorem c4_witness :
    (∃ r, executeToolCall ⟨fun _ => .ok .null, fun _ => ⟨"mapped", []⟩, 100, 1000⟩
        (some "ds-1") ⟨"t1", "query-datasource", .obj [("datasourceLuid", .str "other")]⟩ =
        (.ok r, []) ∧ r.isError = true ∧ r.tool_use_id = jsTrim "t1") ∧
    (∃ r, executeToolCall ⟨fun _ => .ok .null, fun _ => ⟨"mapped", []⟩, 100, 1000⟩
        (some "ds-1") ⟨"t2", "list-datasources", .obj []⟩ =
        (.ok r, []) ∧ r.isError = true ∧ r.tool_use_id = jsTrim "t2") ∧
    (∃ suffix,
      (execLoop
        ⟨⟨fun _ => .ok .null, fun _ => ⟨"mapped", []⟩, 100, 1000⟩,
          fun k _ => if k = 0 then
            .ok (singleBlockStream 0 "t1" "query-datasource"
              (.obj [("datasourceLuid", .str "other")]) [])
          else .ok [], false, none, none, []⟩
        (some "ds-1") "hello" 3 3 ⟨[], 0, [], [], [], 0, 0, []⟩).transcript =
      [] ++
        [⟨"assistant", .parts [.toolUsePart "t1" "query-datasource"
            (.obj [("datasourceLuid", .str "other")])]⟩,
         ⟨"user", .parts [.toolResultPart "t1"
            "\x7b\"error\":\"mapped\",\"recoverySuggestions\":[]\x7d"]⟩] ++ suffix) := by
  refine ⟨?_, ?_, ?_⟩
  · exact c4_locked_datasource_validation.1
      ⟨fun _ => .ok .null, fun _ => ⟨"mapped", []⟩, 100, 1000⟩ "ds-1"
      ⟨"t1", "query-datasource", .obj [("datasourceLuid", .str "other")]⟩
      (by decide) (by decide) (by decide) (by decide) (by decide)
  · exact c4_locked_datasource_validation.2.1
      ⟨fun _ => .ok .null, fun _ => ⟨"mapped", []⟩, 100, 1000⟩ "ds-1"
      ⟨"t2", "list-datasources", .obj []⟩
      (by decide) (by decide) (by decide) (by decide)
  · exact c4_locked_datasource_validation.2.2.2
      ⟨⟨fun _ => .ok .null, fun _ => ⟨"mapped", []⟩, 100, 1000⟩,
        fun k _ => if k = 0 then
          .ok (singleBlockStream 0 "t1" "query-datasource"
            (.obj [("datasourceLuid", .str "other")]) [])
        else .ok [], false, none, none, []⟩
      "ds-1" "hello" 3 2 ⟨[], 0, [], [], [], 0, 0, []⟩
      (singleBlockStream 0 "t1" "query-datasource"
        (.obj [("datasourceLuid", .str "other")]) [])
      ⟨"t1", "query-datasource", .obj [("datasourceLuid", .str "other")]⟩
      ⟨"t1", "\x7b\"error\":\"mapped\",\"recoverySuggestions\":[]\x7d", true⟩
      ⟨"assistant", .parts [.toolUsePart "t1" "query-datasource"
          (.obj [("datasourceLuid", .str "other")])]⟩
      ⟨"user", .parts [.toolResultPart "t1"
          "\x7b\"error\":\"mapped\",\"recoverySuggestions\":[]\x7d"]⟩
      rfl (by decide) (by decide) rfl rfl

/-- When every model call before the bound yields a non-empty tool-call
round that executes and builds cleanly, the loop spends every unit of fuel
on a tool round and then makes exactly one more model call (the fallback
answer-only attempt), which alone decides between a final answer and the
terminal max-iterations error. -/
theorem execLoop_rounds_exact (env : LoopEnv) (locked : Option String) (u : String)
    (maxIter : Nat) :
    ∀ fuel st,
    (∀ k msgs, k < st.llmCalls + fuel →
      ∃ chunks results evs calls am um,
        env.oracle k msgs = .ok chunks ∧
        parseToolCallsFromChunks chunks ≠ [] ∧
        runToolCalls env locked (parseToolCallsFromChunks chunks) = .ok (results, evs, calls) ∧
        buildAssistantMessageWithToolCalls (parseToolCallsFromChunks chunks) = .ok am ∧
        buildUserMessageWithToolResults results = .ok um) →
    (execLoop env locked u maxIter fuel st).llmCalls = st.llmCalls + fuel + 1 ∧
    (execLoop env locked u maxIter fuel st).toolRounds = st.toolRounds + fuel ∧
    ((∀ msgs, ∃ chunks, env.oracle (st.llmCalls + fuel) msgs = .ok chunks) →
      ∃ a, (execLoop env locked u maxIter fuel st).result = .ok a) ∧
    (∀ m, (∀ msgs, env.oracle (st.llmCalls + fuel) msgs = .error m) →
      (execLoop env locked u maxIter fuel st).result =
        .error ("Max iterations (" ++ toString maxIter ++ ") reached and failed to get answer: " ++
          (env.toolEnv.mapErr (.plain m)).message)) := by
  intro fuel
  induction fuel with
  | zero =>
    intro st _
    refine ⟨?_, ?_, ?_, ?_⟩
    · show (answerAttempt env u _ st).llmCalls = _
      unfold answerAttempt
      rcases env.oracle st.llmCalls st.messages with m | chs <;> simp
    · show (answerAttempt env u _ st).toolRounds = _
      unfold answerAttempt
      rcases env.oracle st.llmCalls st.messages with m | chs <;> simp
    · intro hfin
      obtain ⟨chunks, hch⟩ := hfin st.messages
      show ∃ a, (answerAttempt env u _ st).result = .ok a
      unfold answerAttempt
      rw [show st.llmCalls + 0 = st.llmCalls from rfl] at hch
      simp [hch]
    · intro m hfin
      show (answerAttempt env u _ st).result = _
      unfold answerAttempt
      have hch := hfin st.messages
      rw [show st.llmCalls + 0 = st.llmCalls from rfl] at hch
      simp [hch]
  | succ fuel ih =>
    intro st H
    obtain ⟨chunks, results, evs, calls, am, um, hch, hne, hrun, ham, hum⟩ :=
      H st.llmCalls st.messages (by omega)
    have hemp : (parseToolCallsFromChunks chunks).isEmpty = false := by
      simpa [List.isEmpty_iff] using hne
    have hred : execLoop env locked u maxIter (fuel + 1) st =
        execLoop env locked u maxIter fuel
          { messages := st.messages ++ [am, um],
            iteration := st.iteration + 1,
            allToolCalls := st.allToolCalls ++ parseToolCallsFromChunks chunks,
            allToolResults := st.allToolResults ++ results,
            events := (st.events ++
              [ProgressEvent.reasoningStart
                (if maxIter > 1 then some (st.iteration + 1) else none)]) ++ evs,
            llmCalls := st.llmCalls + 1,
            toolRounds := st.toolRounds + 1,
            clientCalls := st.clientCalls ++ calls } := by
      simp only [execLoop, hch, hemp, Bool.false_eq_true, if_false, hrun, ham, hum]
    obtain ⟨ih1, ih2, ih3, ih4⟩ := ih
      { messages := st.messages ++ [am, um],
        iteration := st.iteration + 1,
        allToolCalls := st.allToolCalls ++ parseToolCallsFromChunks chunks,
        allToolResults := st.allToolResults ++ results,
        events := (st.events ++
          [ProgressEvent.reasoningStart
            (if maxIter > 1 then some (st.iteration + 1) else none)]) ++ evs,
        llmCalls := st.llmCalls + 1,
        toolRounds := st.toolRounds + 1,
        clientCalls := st.clientCalls ++ calls }
      (by intro k msgs hk; exact H k msgs (by simp at hk; omega))
    refine ⟨?_, ?_, ?_, ?_⟩
    · rw [hred, ih1]; simp; omega
    · rw [hred, ih2]; simp; omega
    · intro hfin
      rw [hred]
      refine ih3 ?_
      intro msgs
      obtain ⟨chunks2, hc2⟩ := hfin msgs
      refine ⟨chunks2, ?_⟩
      show env.oracle (st.llmCalls + 1 + fuel) msgs = _
      rw [show st.llmCalls + 1 + fuel = st.llmCalls + (fuel + 1) from by omega]
      exact hc2
    · intro m hfin
      rw [hred]
      refine ih4 m ?_
      intro msgs
      show env.oracle (st.llmCalls + 1 + fuel) msgs = _
      rw [show st.llmCalls + 1 + fuel = st.llmCalls + (fuel + 1) from by omega]
      exact hfin msgs

/-- C2: the default round bound is 5; with `maxIterations = 3` and a model
whose every round yields at least one cleanly-executing tool call,
`execute` performs exactly 3 tool rounds and 3 + 1 model calls — the extra
call being the single answer-only fallback — returns that attempt's answer
when it succeeds, and surfaces the terminal max-iterations error exactly
when that final attempt fails. -/
theorem c2_round_bound :
    DEFAULT_MAX_ITERATIONS = 5 ∧
    (∀ (env : LoopEnv) (u : String) (dl : Option String),
      u ≠ "" → (jsTrim u).length ≠ 0 →
      (∀ k msgs, k < 3 →
        ∃ chunks results evs calls am um,
          env.oracle k msgs = .ok chunks ∧
          parseToolCallsFromChunks chunks ≠ [] ∧
          runToolCalls env (effectiveDatasourceLuid env dl)
            (parseToolCallsFromChunks chunks) = .ok (results, evs, calls) ∧
          buildAssistantMessageWithToolCalls (parseToolCallsFromChunks chunks) = .ok am ∧
          buildUserMessageWithToolResults results = .ok um) →
      (execute env u dl (some 3)).toolRounds = 3 ∧
      (execute env u dl (some 3)).llmCalls = 4 ∧
      ((∀ msgs, ∃ chunks, env.oracle 3 msgs = .ok chunks) →
        ∃ a, (execute env u dl (some 3)).result = .ok a) ∧
      (∀ m, (∀ msgs, env.oracle 3 msgs = .error m) →
        (execute env u dl (some 3)).result =
          .error ("Max iterations (3) reached and failed to get answer: " ++
            (env.toolEnv.mapErr (.plain m)).message))) := by
  refine ⟨rfl, ?_⟩
  intro env u dl hu hut H
  have hexec : execute env u dl (some 3) =
      execLoop env (effectiveDatasourceLuid env dl) u 3 3
        ⟨initialMessages env u, 0, [], [], [], 0, 0, []⟩ := by
    unfold execute
    rw [if_neg (fun h => h.elim hu hut)]
    rfl
  obtain ⟨h1, h2, h3, h4⟩ := execLoop_rounds_exact env (effectiveDatasourceLuid env dl) u 3 3
    ⟨initialMessages env u, 0, [], [], [], 0, 0, []⟩
    (by intro k msgs hk; exact H k msgs (by simpa using hk))
  rw [hexec]
  exact ⟨by rw [h2], by rw [h1], fun hfin => h3 (fun msgs => hfin msgs),
    fun m hfin => h4 m (fun msgs => hfin msgs)⟩

/-- C2 witness: a model that requests one `get-workbook` call in every
round; with the bound 3 the run makes exactly 3 tool rounds and 4 model
calls and the fallback attempt's answer is returned. -/
theorem c2_witness :
    (execute
      ⟨⟨fun _ => .ok .null, fun _ => ⟨"mapped", []⟩, 100, 1000⟩,
        fun k _ => if k < 3 then
          .ok (singleBlockStream 0 "t1" "get-workbook" (.obj [("workbookId", .str "w1")]) [])
        else .ok [mkInputJsonDelta 0 "\x7b\x7d",
          { type := "content_block_delta", index := some 0,
            delta := some { type := "text_delta", text := some "done" } }],
        false, none, none, []⟩
      "hello" none (some 3)).toolRounds = 3 ∧
    (execute
      ⟨⟨fun _ => .ok .null, fun _ => ⟨"mapped", []⟩, 100, 1000⟩,
        fun k _ => if k < 3 then
          .ok (singleBlockStream 0 "t1" "get-workbook" (.obj [("workbookId", .str "w1")]) [])
        else .ok [mkInputJsonDelta 0 "\x7b\x7d",
          { type := "content_block_delta", index := some 0,
            delta := some { type := "text_delta", text := some "done" } }],
        false, none, none, []⟩
      "hello" none (some 3)).llmCalls = 4 ∧
    (∃ a, (execute
      ⟨⟨fun _ => .ok .null, fun _ => ⟨"mapped", []⟩, 100, 1000⟩,
        fun k _ => if k < 3 then
          .ok (singleBlockStream 0 "t1" "get-workbook" (.obj [("workbookId", .str "w1")]) [])
        else .ok [mkInputJsonDelta 0 "\x7b\x7d",
          { type := "content_block_delta", index := some 0,
            delta := some { type := "text_delta", text := some "done" } }],
        false, none, none, []⟩
      "hello" none (some 3)).result = .ok a) := by
  obtain ⟨-, hmain⟩ := c2_round_bound
  obtain ⟨h1, h2, h3, -⟩ := hmain
    ⟨⟨fun _ => .ok .null, fun _ => ⟨"mapped", []⟩, 100, 1000⟩,
      fun k _ => if k < 3 then
        .ok (singleBlockStream 0 "t1" "get-workbook" (.obj [("workbookId", .str "w1")]) [])
      else .ok [mkInputJsonDelta 0 "\x7b\x7d",
        { type := "content_block_delta", index := some 0,
          delta := some { type := "text_delta", text := some "done" } }],
      false, none, none, []⟩
    "hello" none
    (by decide) (by decide)
    (by
      intro k msgs hk
      refine ⟨singleBlockStream 0 "t1" "get-workbook" (.obj [("workbookId", .str "w1")]) [],
        [⟨"t1", "null", false⟩], [.toolCallStart "get-workbook" "t1",
          .toolCallComplete "get-workbook" "t1"], [ClientCall.getWorkbook "w1"],
        ⟨"assistant", .parts [.toolUsePart "t1" "get-workbook"
          (.obj [("workbookId", .str "w1")])]⟩,
        ⟨"user", .parts [.toolResultPart "t1" "null"]⟩,
        ?_, by decide, by decide, by decide, by decide⟩
      show (if k < 3 then _ else _) = _
      rw [if_pos hk])
  exact ⟨h1, h2, h3 (fun msgs => ⟨_, rfl⟩)⟩

theorem str_append_empty (s : String) : s ++ "" = s := by
  cases s with
  | mk d => show String.mk (d ++ []) = String.mk d; rw [List.append_nil]

theorem strJoin_append (xs ys : List String) : strJoin (xs ++ ys) = strJoin xs ++ strJoin ys := by
  induction xs with
  | nil => rw [List.nil_append, show strJoin [] = "" from rfl, str_empty_append]
  | cons x rest ih =>
    show x ++ strJoin (rest ++ ys) = (x ++ strJoin rest) ++ strJoin ys
    rw [ih, str_append_assoc]

theorem answerChunkTexts_append (xs ys : List ProgressEvent) :
    answerChunkTexts (xs ++ ys) = answerChunkTexts xs ++ answerChunkTexts ys := by
  unfold answerChunkTexts
  exact List.filterMap_append xs ys _

/-- The streamed text equals the concatenation of the emitted
`answer_chunk` texts. -/
theorem streamAnswerChunks_concat (chunks : List LLMResponseChunk) :
    (streamAnswerChunks chunks).1 =
      strJoin (answerChunkTexts (streamAnswerChunks chunks).2) := by
  unfold streamAnswerChunks
  suffices h : ∀ acc : String × List ProgressEvent,
      acc.1 = strJoin (answerChunkTexts acc.2) →
      (chunks.foldl
        (fun acc chunk =>
          match extractAnswerText chunk with
          | some t => (acc.1 ++ t, acc.2 ++ [.answerChunk t])
          | none => acc) acc).1 =
        strJoin (answerChunkTexts (chunks.foldl
          (fun acc chunk =>
            match extractAnswerText chunk with
            | some t => (acc.1 ++ t, acc.2 ++ [.answerChunk t])
            | none => acc) acc).2) by
    exact h ("", []) rfl
  induction chunks with
  | nil => intro acc hacc; exact hacc
  | cons c rest ih =>
    intro acc hacc
    simp only [List.foldl_cons]
    rcases he : extractAnswerText c with _ | t
    · exact ih acc hacc
    · have hacc' : (acc.1 ++ t) =
          strJoin (answerChunkTexts (acc.2 ++ [ProgressEvent.answerChunk t])) := by
        rw [answerChunkTexts_append, strJoin_append, hacc]
        show _ = _ ++ (t ++ "")
        rw [str_append_empty]
      exact ih (acc.1 ++ t, acc.2 ++ [ProgressEvent.answerChunk t]) hacc'

/-- A round's tool events contain no `answer_chunk`. -/
theorem runToolCalls_no_answer_chunks (env : LoopEnv) (locked : Option String) :
    ∀ (tcs : List ToolCall) (rs : List ToolResult) (evs : List ProgressEvent)
      (cls : List ClientCall),
    runToolCalls env locked tcs = .ok (rs, evs, cls) → answerChunkTexts evs = [] := by
  intro tcs
  induction tcs with
  | nil =>
    intro rs evs cls h
    have h' := Except.ok.inj h
    injection h' with h1 h23
    injection h23 with h2 h3
    rw [← h2]
    rfl
  | cons tc rest ih =>
    intro rs evs cls h
    unfold runToolCalls at h
    split at h
    · split at h
      · rename_i r calls heq1 rs' evs' cls' hr
        have h' := Except.ok.inj h
        injection h' with h1 h23
        injection h23 with h2 h3
        rw [← h2, answerChunkTexts_append, ih rs' evs' cls' hr]
        rfl
      · exact absurd h (by simp)
    · exact absurd h (by simp)

/-- In a final answer attempt, a returned answer is the concatenation of
the emitted chunk texts plus the correction note (empty when no tool calls
were made), and the `answer_complete` event carries it. -/
theorem answerAttempt_concat (env : LoopEnv) (u errPre : String) (st : LoopState)
    (a : String) (hst : answerChunkTexts st.events = [])
    (hres : (answerAttempt env u errPre st).result = .ok a) :
    a = strJoin (answerChunkTexts (answerAttempt env u errPre st).events) ++
      (if (answerAttempt env u errPre st).allToolCalls.isEmpty then ""
       else (buildCorrectionNote (detectFieldCorrections u
         (answerAttempt env u errPre st).allToolCalls)).getD "") ∧
    ∃ evs', (answerAttempt env u errPre st).events = evs' ++ [ProgressEvent.answerComplete a] := by
  obtain ⟨m, ho⟩ | ⟨cs, ho⟩ : (∃ m, env.oracle st.llmCalls st.messages = .error m) ∨
      (∃ cs, env.oracle st.llmCalls st.messages = .ok cs) := by
    rcases env.oracle st.llmCalls st.messages with m | c
    · exact .inl ⟨m, rfl⟩
    · exact .inr ⟨c, rfl⟩
  · unfold answerAttempt at hres
    simp only [ho] at hres
    exact absurd hres (by simp)
  · obtain ⟨a0, evs0, hsc⟩ : ∃ a0 evs0, streamAnswerChunks cs = (a0, evs0) := ⟨_, _, rfl⟩
    have h1 : a0 = strJoin (answerChunkTexts evs0) := by
      simpa [hsc] using streamAnswerChunks_concat cs
    unfold answerAttempt at hres ⊢
    simp only [ho, hsc] at hres ⊢
    by_cases hemp : st.allToolCalls.isEmpty
    · rw [if_neg (by simp [hemp])] at hres
      obtain rfl : a0 = a := Except.ok.inj hres
      rw [if_neg (by simp [hemp])]
      rw [if_pos hemp]
      refine ⟨?_, ⟨_, rfl⟩⟩
      rw [str_append_empty, answerChunkTexts_append, answerChunkTexts_append,
        answerChunkTexts_append, hst]
      rw [show answerChunkTexts [ProgressEvent.answerStart] = [] from rfl]
      rw [show answerChunkTexts [ProgressEvent.answerComplete a0] = [] from rfl]
      simpa using h1
    · rw [if_pos (by simpa using hemp)] at hres
      obtain rfl : a0 ++
          ((buildCorrectionNote (detectFieldCorrections u st.allToolCalls)).getD "") = a :=
        Except.ok.inj hres
      rw [if_pos (by simpa using hemp)]
      rw [if_neg hemp]
      refine ⟨?_, ⟨_, rfl⟩⟩
      rw [answerChunkTexts_append, answerChunkTexts_append, answerChunkTexts_append, hst]
      rw [show answerChunkTexts [ProgressEvent.answerStart] = [] from rfl]
      rw [show answerChunkTexts [ProgressEvent.answerComplete (a0 ++
        ((buildCorrectionNote (detectFieldCorrections u st.allToolCalls)).getD ""))] = []
        from rfl]
      rw [h1]
      simp

/-- Loop-level version: any returned answer is the chunk concatenation plus
the note over the returned tool-call log. -/
theorem execLoop_answer_concat (env : LoopEnv) (locked : Option String) (u : String)
    (maxIter : Nat) :
    ∀ fuel st a,
    answerChunkTexts st.events = [] →
    (execLoop env locked u maxIter fuel st).result = .ok a →
    a = strJoin (answerChunkTexts (execLoop env locked u maxIter fuel st).events) ++
      (if (execLoop env locked u maxIter fuel st).allToolCalls.isEmpty then ""
       else (buildCorrectionNote (detectFieldCorrections u
         (execLoop env locked u maxIter fuel st).allToolCalls)).getD "") ∧
    ∃ evs', (execLoop env locked u maxIter fuel st).events =
      evs' ++ [ProgressEvent.answerComplete a] := by
  intro fuel
  induction fuel with
  | zero =>
    intro st a hst hres
    exact answerAttempt_concat env u _ st a hst hres
  | succ fuel ih =>
    intro st a hst hres
    obtain ⟨m, ho⟩ | ⟨chunks, ho⟩ : (∃ m, env.oracle st.llmCalls st.messages = .error m) ∨
        (∃ cs, env.oracle st.llmCalls st.messages = .ok cs) := by
      rcases env.oracle st.llmCalls st.messages with m | c
      · exact .inl ⟨m, rfl⟩
      · exact .inr ⟨c, rfl⟩
    · simp only [execLoop, ho] at hres
      split at hres
      · exact absurd hres (by simp)
      · exact absurd hres (by simp)
    · simp only [execLoop, ho] at hres ⊢
      by_cases hemp : (parseToolCallsFromChunks chunks).isEmpty
      · rw [if_pos hemp] at hres ⊢
        refine answerAttempt_concat env u _ _ a ?_ hres
        show answerChunkTexts (st.events ++ _) = []
        rw [answerChunkTexts_append, hst]
        rfl
      · rw [if_neg hemp] at hres ⊢
        obtain ⟨m, hr⟩ | ⟨results, toolEvents, newCalls, hr⟩ :
            (∃ m, runToolCalls env locked (parseToolCallsFromChunks chunks) = .error m) ∨
            (∃ rs evs cls, runToolCalls env locked (parseToolCallsFromChunks chunks) =
              .ok (rs, evs, cls)) := by
          rcases runToolCalls env locked (parseToolCallsFromChunks chunks)
            with m | ⟨rs, evs, cls⟩
          · exact .inl ⟨m, rfl⟩
          · exact .inr ⟨rs, evs, cls, rfl⟩
        · simp only [hr] at hres
          exact absurd hres (by simp)
        · simp only [hr] at hres ⊢
          obtain ⟨m, hb⟩ | ⟨am, hb⟩ :
              (∃ m, buildAssistantMessageWithToolCalls (parseToolCallsFromChunks chunks) =
                .error m) ∨
              (∃ am, buildAssistantMessageWithToolCalls (parseToolCallsFromChunks chunks) =
                .ok am) := by
            rcases buildAssistantMessageWithToolCalls (parseToolCallsFromChunks chunks)
              with m | am
            · exact .inl ⟨m, rfl⟩
            · exact .inr ⟨am, rfl⟩
          · simp only [hb] at hres
            exact absurd hres (by simp)
          · simp only [hb] at hres ⊢
            obtain ⟨m, hu⟩ | ⟨um, hu⟩ :
                (∃ m, buildUserMessageWithToolResults results = .error m) ∨
                (∃ um, buildUserMessageWithToolResults results = .ok um) := by
              rcases buildUserMessageWithToolResults results with m | um
              · exact .inl ⟨m, rfl⟩
              · exact .inr ⟨um, rfl⟩
            · simp only [hu] at hres
              exact absurd hres (by simp)
            · simp only [hu] at hres ⊢
              refine ih _ a ?_ hres
              show answerChunkTexts ((st.events ++ _) ++ toolEvents) = []
              rw [answerChunkTexts_append, answerChunkTexts_append, hst,
                runToolCalls_no_answer_chunks env locked _ _ _ _ hr]
              rfl

/-- C8 counterexample: a run with one `query-datasource` round over a field
captioned `Sales Amount` and the user message `the sale`: the final answer
carries the appended correction note, which is never emitted as an
`answer_chunk`, so the concatenation of the `answer_chunk` texts differs
from the final answer. -/
theorem c8_counterexample :
    (execute
      ⟨⟨fun _ => .ok .null, fun _ => ⟨"mapped", []⟩, 100, 1000⟩,
        fun k _ => if k = 0 then
          .ok (singleBlockStream 0 "t1" "query-datasource"
            (.obj [("datasourceLuid", .str "d"),
              ("query", .obj [("fields",
                .arr [.obj [("fieldCaption", .str "Sales Amount")]])])]) [])
        else .ok [⟨"content_block_delta", some 0, none, some ⟨"text_delta", some "The answer", none⟩⟩],
        false, none, none, []⟩
      "the sale" none (some 3)).result =
      .ok ("The answer" ++ "\n\nNote: Interpreted \"sale\" as \"Sales Amount\".") ∧
    strJoin (answerChunkTexts (execute
      ⟨⟨fun _ => .ok .null, fun _ => ⟨"mapped", []⟩, 100, 1000⟩,
        fun k _ => if k = 0 then
          .ok (singleBlockStream 0 "t1" "query-datasource"
            (.obj [("datasourceLuid", .str "d"),
              ("query", .obj [("fields",
                .arr [.obj [("fieldCaption", .str "Sales Amount")]])])]) [])
        else .ok [⟨"content_block_delta", some 0, none, some ⟨"text_delta", some "The answer", none⟩⟩],
        false, none, none, []⟩
      "the sale" none (some 3)).events) = "The answer" ∧
    ("The answer" ++ "\n\nNote: Interpreted \"sale\" as \"Sales Amount\".") ≠ "The answer" := by
  refine ⟨by decide, by decide, by decide⟩

/-- C8 (amended): for every run, a returned final answer equals the
concatenation of the emitted `answer_chunk` texts followed by the
field-correction note — the one piece of text added outside the chunk
stream, and empty whenever the run made no tool calls — and the
`answer_complete` event carries exactly that final answer. -/
theorem c8_answer_concat_amended (env : LoopEnv) (u : String) (dl : Option String)
    (mi : Option Nat) (a : String)
    (hres : (execute env u dl mi).result = .ok a) :
    a = strJoin (answerChunkTexts (execute env u dl mi).events) ++
      (if (execute env u dl mi).allToolCalls.isEmpty then ""
       else (buildCorrectionNote (detectFieldCorrections u
         (execute env u dl mi).allToolCalls)).getD "") ∧
    ∃ evs', (execute env u dl mi).events = evs' ++ [ProgressEvent.answerComplete a] := by
  unfold execute at hres ⊢
  by_cases hu : u = "" ∨ (jsTrim u).length = 0
  · rw [if_pos hu] at hres
    exact absurd hres (by simp)
  · rw [if_neg hu] at hres ⊢
    exact execLoop_answer_concat env (effectiveDatasourceLuid env dl) u
      (mi.getD DEFAULT_MAX_ITERATIONS) (mi.getD DEFAULT_MAX_ITERATIONS)
      ⟨initialMessages env u, 0, [], [], [], 0, 0, []⟩ a rfl hres

/-- C8 witness: a no-tool-call run streaming `do` + `ne`: the returned
answer is the chunk concatenation with an empty note. -/
theorem c8_witness :
    ("done" : String) = strJoin (answerChunkTexts (execute
      ⟨⟨fun _ => .ok .null, fun _ => ⟨"mapped", []⟩, 100, 1000⟩,
        fun _ _ => .ok [⟨"content_block_delta", some 0, none, some ⟨"text_delta", some "do", none⟩⟩,
          ⟨"content_block_delta", some 0, none, some ⟨"text_delta", some "ne", none⟩⟩],
        false, none, none, []⟩
      "hi" none (some 3)).events) ++
      (if (execute
        ⟨⟨fun _ => .ok .null, fun _ => ⟨"mapped", []⟩, 100, 1000⟩,
          fun _ _ => .ok [⟨"content_block_delta", some 0, none, some ⟨"text_delta", some "do", none⟩⟩,
            ⟨"content_block_delta", some 0, none, some ⟨"text_delta", some "ne", none⟩⟩],
          false, none, none, []⟩
        "hi" none (some 3)).allToolCalls.isEmpty then ""
       else (buildCorrectionNote (detectFieldCorrections "hi" (execute
        ⟨⟨fun _ => .ok .null, fun _ => ⟨"mapped", []⟩, 100, 1000⟩,
          fun _ _ => .ok [⟨"content_block_delta", some 0, none, some ⟨"text_delta", some "do", none⟩⟩,
            ⟨"content_block_delta", some 0, none, some ⟨"text_delta", some "ne", none⟩⟩],
          false, none, none, []⟩
        "hi" none (some 3)).allToolCalls)).getD "") ∧
    ∃ evs', (execute
      ⟨⟨fun _ => .ok .null, fun _ => ⟨"mapped", []⟩, 100, 1000⟩,
        fun _ _ => .ok [⟨"content_block_delta", some 0, none, some ⟨"text_delta", some "do", none⟩⟩,
          ⟨"content_block_delta", some 0, none, some ⟨"text_delta", some "ne", none⟩⟩],
        false, none, none, []⟩
      "hi" none (some 3)).events = evs' ++ [ProgressEvent.answerComplete "done"] :=
  c8_answer_concat_amended
    ⟨⟨fun _ => .ok .null, fun _ => ⟨"mapped", []⟩, 100, 1000⟩,
      fun _ _ => .ok [⟨"content_block_delta", some 0, none, some ⟨"text_delta", some "do", none⟩⟩,
        ⟨"content_block_delta", some 0, none, some ⟨"text_delta", some "ne", none⟩⟩],
      false, none, none, []⟩
    "hi" none (some 3) "done" (by decide)

theorem isDig_ne {c x : Char} (h : isDig c = true) (hx : isDig x = false) : c ≠ x :=
  fun he => by rw [he, hx] at h; cases h

theorem isDig_not_ws {c : Char} (h : isDig c = true) : isJWs c = false := by
  unfold isJWs
  have h1 : c ≠ ' ' := isDig_ne h (by decide)
  have h2 : c ≠ '\t' := isDig_ne h (by decide)
  have h3 : c ≠ '\n' := isDig_ne h (by decide)
  have h4 : c ≠ '\r' := isDig_ne h (by decide)
  simp [h1, h2, h3, h4]

theorem headCh_cases {c : Char} (h : headCh c = true) :
    c = 'n' ∨ c = 't' ∨ c = 'f' ∨ c = '"' ∨ c = '[' ∨ c = '{' ∨ c = '-' ∨ isDig c = true := by
  simpa [headCh, or_assoc] using h

theorem headCh_not_ws {c : Char} (h : headCh c = true) : isJWs c = false := by
  rcases headCh_cases h with rfl | rfl | rfl | rfl | rfl | rfl | rfl | hd
  · decide
  · decide
  · decide
  · decide
  · decide
  · decide
  · decide
  · exact isDig_not_ws hd

theorem headCh_ne {c x : Char} (h : headCh c = true) (hx : headCh x = false) : c ≠ x :=
  fun he => by rw [he, hx] at h; cases h

theorem lastCh_cases {c : Char} (h : lastCh c = true) :
    c = 'l' ∨ c = 'e' ∨ c = '"' ∨ c = ']' ∨ c = '}' ∨ isDig c = true := by
  simpa [lastCh, or_assoc] using h

theorem lastCh_not_ws {c : Char} (h : lastCh c = true) : isJWs c = false := by
  rcases lastCh_cases h with rfl | rfl | rfl | rfl | rfl | hd
  · decide
  · decide
  · decide
  · decide
  · decide
  · exact isDig_not_ws hd

theorem digitChar_isDig {n : Nat} (h : n < 10) : isDig (digitChar n) = true := by
  interval_cases n <;> decide

theorem digitChar_toNat {n : Nat} (h : n < 10) : (digitChar n).toNat = 48 + n := by
  interval_cases n <;> decide

theorem natCharsAux_shape : ∀ f n, 0 < f →
    ∃ c t, natCharsAux f n = c :: t ∧ isDig c = true := by
  intro f
  induction f with
  | zero => intro n h; exact absurd h (by omega)
  | succ f ih =>
    intro n _
    unfold natCharsAux
    by_cases h : n < 10
    · rw [if_pos h]
      exact ⟨digitChar n, [], rfl, digitChar_isDig h⟩
    · rw [if_neg h]
      cases f with
      | zero => exact ⟨digitChar (n % 10), [], rfl, digitChar_isDig (by omega)⟩
      | succ f2 =>
        obtain ⟨c, t, hct, hc⟩ := ih (n / 10) (by omega)
        exact ⟨c, t ++ [digitChar (n % 10)], by rw [hct]; rfl, hc⟩

theorem natCharsAux_all : ∀ f n, (natCharsAux f n).all isDig = true := by
  intro f
  induction f with
  | zero => intro n; rfl
  | succ f ih =>
    intro n
    unfold natCharsAux
    by_cases h : n < 10
    · rw [if_pos h]
      simp [digitChar_isDig h]
    · rw [if_neg h]
      rw [List.all_append]
      simp [ih (n / 10), digitChar_isDig (show n % 10 < 10 by omega)]

theorem natCharsAux_last : ∀ f n, 0 < f →
    ∃ c, (natCharsAux f n).getLast? = some c ∧ isDig c = true := by
  intro f
  induction f with
  | zero => intro n h; exact absurd h (by omega)
  | succ f _ =>
    intro n _
    unfold natCharsAux
    by_cases h : n < 10
    · rw [if_pos h]
      exact ⟨digitChar n, rfl, digitChar_isDig h⟩
    · rw [if_neg h]
      exact ⟨digitChar (n % 10), List.getLast?_concat _, digitChar_isDig (by omega)⟩

theorem digitsToNat_append (l1 l2 : List Char) : ∀ a,
    digitsToNat a (l1 ++ l2) = digitsToNat (digitsToNat a l1) l2 := by
  induction l1 with
  | nil => intro a; rfl
  | cons c cs ih => intro a; exact ih (a * 10 + (c.toNat - 48))

theorem natCharsAux_val : ∀ f n, n < f → digitsToNat 0 (natCharsAux f n) = n := by
  intro f
  induction f with
  | zero => intro n h; exact absurd h (by omega)
  | succ f ih =>
    intro n hn
    unfold natCharsAux
    by_cases h : n < 10
    · rw [if_pos h]
      show digitsToNat (0 * 10 + ((digitChar n).toNat - 48)) [] = n
      rw [digitChar_toNat h]
      show 0 * 10 + (48 + n - 48) = n
      omega
    · rw [if_neg h]
      rw [digitsToNat_append, ih (n / 10) (by omega)]
      show digitsToNat (n / 10 * 10 + ((digitChar (n % 10)).toNat - 48)) [] = n
      rw [digitChar_toNat (show n % 10 < 10 by omega)]
      show n / 10 * 10 + (48 + n % 10 - 48) = n
      omega

theorem takeDigits_append : ∀ (ds rest : List Char), ds.all isDig = true →
    headNotDigit rest = true → takeDigits (ds ++ rest) = (ds, rest) := by
  intro ds
  induction ds with
  | nil =>
    intro rest _ hr
    cases rest with
    | nil => rfl
    | cons c cs =>
      have hc : isDig c = false := by simpa [headNotDigit] using hr
      simp [takeDigits, hc]
  | cons d ds ih =>
    intro rest hall hr
    rw [List.all_cons] at hall
    have hd : isDig d = true := by
      rcases Bool.and_eq_true .. |>.mp hall with ⟨h1, _⟩; exact h1
    have hds : ds.all isDig = true := by
      rcases Bool.and_eq_true .. |>.mp hall with ⟨_, h2⟩; exact h2
    simp [takeDigits, hd, ih rest hds hr]

theorem natChars_ne_nil (n : Nat) : natChars n ≠ [] := by
  obtain ⟨c, t, hct, -⟩ := natCharsAux_shape (n + 1) n (by omega)
  rw [show natChars n = natCharsAux (n + 1) n from rfl, hct]
  simp

theorem parseNum_intChars (n : Int) (rest : List Char) (hr : headNotDigit rest = true) :
    parseNum (intChars n ++ rest) = some (.num n, rest) := by
  have hall : (natChars n.natAbs).all isDig = true := natCharsAux_all _ _
  have ht := takeDigits_append (natChars n.natAbs) rest hall hr
  have hv : digitsToNat 0 (natChars n.natAbs) = n.natAbs := natCharsAux_val _ _ (by omega)
  have hne : (natChars n.natAbs).isEmpty = false := by
    simp [List.isEmpty_iff, natChars_ne_nil]
  unfold intChars
  by_cases hn : n < 0
  · rw [if_pos hn]
    show parseNum ('-' :: (natChars n.natAbs ++ rest)) = _
    show (match takeDigits (natChars n.natAbs ++ rest) with
      | (ds, rest') => if ds.isEmpty = true then none
          else some (JValue.num (-(digitsToNat 0 ds : Int)), rest')) = _
    rw [ht]
    show (if (natChars n.natAbs).isEmpty = true then none
      else some (JValue.num (-(digitsToNat 0 (natChars n.natAbs) : Int)), rest)) = _
    rw [hne, if_neg (by simp), hv]
    have h2 : -((n.natAbs : Nat) : Int) = n := by omega
    rw [h2]
  · rw [if_neg hn]
    obtain ⟨c, t, hct, hc⟩ := natCharsAux_shape (n.natAbs + 1) n.natAbs (by omega)
    have hshape : natChars n.natAbs = c :: t := hct
    rw [hshape]
    show parseNum (c :: (t ++ rest)) = _
    unfold parseNum
    split
    · rename_i heq
      injection heq with h1 _
      exact absurd h1 (isDig_ne hc (by decide))
    · rw [show c :: (t ++ rest) = natChars n.natAbs ++ rest from by rw [hshape]; rfl]
      rw [ht]
      show (if (natChars n.natAbs).isEmpty = true then none
        else some (JValue.num ((digitsToNat 0 (natChars n.natAbs) : Nat) : Int), rest)) = _
      rw [hne, if_neg (by simp), hv]
      have h2 : ((n.natAbs : Nat) : Int) = n := by omega
      rw [h2]

theorem stringify_head (v : JValue) : ∃ c t, stringifyChars v = c :: t ∧ headCh c = true := by
  cases v with
  | null => exact ⟨'n', _, rfl, by decide⟩
  | bool b =>
    cases b with
    | false => exact ⟨'f', _, rfl, by decide⟩
    | true => exact ⟨'t', _, rfl, by decide⟩
  | num n =>
    show ∃ c t, intChars n = c :: t ∧ _
    unfold intChars
    by_cases hn : n < 0
    · rw [if_pos hn]
      exact ⟨'-', _, rfl, by decide⟩
    · rw [if_neg hn]
      obtain ⟨c, t, hct, hc⟩ := natCharsAux_shape (n.natAbs + 1) n.natAbs (by omega)
      exact ⟨c, t, hct, by simp [headCh, hc]⟩
  | str s => exact ⟨'"', _, rfl, by decide⟩
  | arr xs =>
    cases xs with
    | nil => exact ⟨'[', _, rfl, by decide⟩
    | cons x rest => exact ⟨'[', _, rfl, by decide⟩
  | obj fs =>
    cases fs with
    | nil => exact ⟨'{', _, rfl, by decide⟩
    | cons f rest =>
      obtain ⟨k, v⟩ := f
      exact ⟨'{', _, rfl, by decide⟩

theorem getLast?_cons_of_ne {α : Type} {a : α} {l : List α} (h : l ≠ []) :
    (a :: l).getLast? = l.getLast? := by
  cases l with
  | nil => exact absurd rfl h
  | cons b t => rw [List.getLast?_cons_cons]

theorem stringify_last (v : JValue) :
    ∃ c, (stringifyChars v).getLast? = some c ∧ lastCh c = true := by
  cases v with
  | null => exact ⟨'l', rfl, by decide⟩
  | bool b =>
    cases b with
    | false => exact ⟨'e', rfl, by decide⟩
    | true => exact ⟨'e', rfl, by decide⟩
  | num n =>
    show ∃ c, (intChars n).getLast? = some c ∧ _
    unfold intChars
    by_cases hn : n < 0
    · rw [if_pos hn]
      obtain ⟨c, hgl, hc⟩ := natCharsAux_last (n.natAbs + 1) n.natAbs (by omega)
      refine ⟨c, ?_, by simp [lastCh, hc]⟩
      rw [getLast?_cons_of_ne (natChars_ne_nil _)]
      exact hgl
    · rw [if_neg hn]
      obtain ⟨c, hgl, hc⟩ := natCharsAux_last (n.natAbs + 1) n.natAbs (by omega)
      exact ⟨c, hgl, by simp [lastCh, hc]⟩
  | str s =>
    refine ⟨'"', ?_, by decide⟩
    show ('"' :: (escList s.data ++ ['"'])).getLast? = some '"'
    rw [show '"' :: (escList s.data ++ ['"']) = ('"' :: escList s.data) ++ ['"'] from rfl]
    exact List.getLast?_concat _
  | arr xs =>
    cases xs with
    | nil => exact ⟨']', rfl, by decide⟩
    | cons x rest =>
      refine ⟨']', ?_, by decide⟩
      show ('[' :: (stringifyChars x ++ stringifyTailA rest ++ [']'])).getLast? = some ']'
      rw [show '[' :: (stringifyChars x ++ stringifyTailA rest ++ [']']) =
        ('[' :: (stringifyChars x ++ stringifyTailA rest)) ++ [']'] from by simp]
      exact List.getLast?_concat _
  | obj fs =>
    cases fs with
    | nil => exact ⟨'}', rfl, by decide⟩
    | cons f rest =>
      obtain ⟨k, v⟩ := f
      refine ⟨'}', ?_, by decide⟩
      show ('{' :: (quoteChars k ++ ':' :: stringifyChars v ++
        stringifyTailO rest ++ ['}'])).getLast? = some '}'
      rw [show '{' :: (quoteChars k ++ ':' :: stringifyChars v ++ stringifyTailO rest ++ ['}']) =
        ('{' :: (quoteChars k ++ ':' :: stringifyChars v ++ stringifyTailO rest)) ++ ['}']
        from by simp]
      exact List.getLast?_concat _

theorem goodChar_cases {c : Char} (h : goodChar c = true) :
    32 ≤ c.val ∨ c.val = 8 ∨ c.val = 9 ∨ c.val = 10 ∨ c.val = 12 ∨ c.val = 13 := by
  simpa [goodChar, or_assoc] using h

theorem escapeChar_ge32 {c : Char} (h : goodChar c = true) :
    ∀ d ∈ escapeChar c, 32 ≤ d.val := by
  by_cases h1 : c = '"'
  · subst h1; decide
  · by_cases h2 : c = '\\'
    · subst h2; decide
    · by_cases h3 : c = '\n'
      · subst h3; decide
      · by_cases h4 : c = '\t'
        · subst h4; decide
        · by_cases h5 : c = '\r'
          · subst h5; decide
          · by_cases h6 : c.val = 8
            · have hcc : c = '\x08' := Char.ext (by rw [h6]; rfl)
              subst hcc; decide
            · by_cases h7 : c.val = 12
              · have hcc : c = '\x0c' := Char.ext (by rw [h7]; rfl)
                subst hcc; decide
              · have hge : 32 ≤ c.val := by
                  rcases goodChar_cases h with hh | hh | hh | hh | hh | hh
                  · exact hh
                  · exact absurd hh h6
                  · exact absurd (Char.ext (show c.val = '\t'.val from by rw [hh]; rfl)) h4
                  · exact absurd (Char.ext (show c.val = '\n'.val from by rw [hh]; rfl)) h3
                  · exact absurd hh h7
                  · exact absurd (Char.ext (show c.val = '\r'.val from by rw [hh]; rfl)) h5
                unfold escapeChar
                rw [if_neg h1, if_neg h2, if_neg h3, if_neg h4, if_neg h5, if_neg h6, if_neg h7]
                rw [if_neg (show ¬ c.val < 32 from UInt32.not_lt.mpr hge)]
                intro d hd
                rw [List.mem_singleton.mp hd]
                exact hge

theorem escList_ge32 : ∀ l : List Char, l.all goodChar = true →
    ∀ d ∈ escList l, 32 ≤ d.val := by
  intro l
  induction l with
  | nil => intro _ d hd; simp [escList] at hd
  | cons c cs ih =>
    intro hall d hd
    rw [List.all_cons] at hall
    obtain ⟨hc, hcs⟩ := Bool.and_eq_true .. |>.mp hall
    rw [show escList (c :: cs) = escapeChar c ++ escList cs from rfl] at hd
    rcases List.mem_append.mp hd with hd | hd
    · exact escapeChar_ge32 hc d hd
    · exact ih hcs d hd

theorem quoteChars_ge32 {s : String} (hs : goodStr s = true) :
    ∀ d ∈ quoteChars s, 32 ≤ d.val := by
  intro d hd
  unfold quoteChars at hd
  rcases List.mem_cons.mp hd with rfl | hd
  · decide
  · rcases List.mem_append.mp hd with hd | hd
    · exact escList_ge32 s.data hs d hd
    · rw [List.mem_singleton.mp hd]
      decide

theorem isDig_ge32 {c : Char} (h : isDig c = true) : 32 ≤ c.val := by
  have h0 : '0' ≤ c ∧ c ≤ '9' := by simpa [isDig] using h
  exact UInt32.le_trans (by decide) h0.1

mutual
theorem stringify_ge32 : ∀ v, good v = true → ∀ c ∈ stringifyChars v, 32 ≤ c.val
  | .null, _ => by decide
  | .bool b, _ => by cases b <;> decide
  | .num n, _ => by
      intro c hc
      have hmem : c ∈ intChars n := hc
      unfold intChars at hmem
      by_cases hn : n < 0
      · rw [if_pos hn] at hmem
        rcases List.mem_cons.mp hmem with rfl | hmem
        · decide
        · exact isDig_ge32 (by
            simpa using List.all_eq_true.mp (natCharsAux_all (n.natAbs + 1) n.natAbs) c hmem)
      · rw [if_neg hn] at hmem
        exact isDig_ge32 (by
          simpa using List.all_eq_true.mp (natCharsAux_all (n.natAbs + 1) n.natAbs) c hmem)
  | .str s, h => by
      intro c hc
      exact quoteChars_ge32 (by simpa [good] using h) c hc
  | .arr [], _ => by decide
  | .arr (x :: xs), h => by
      have hx : good x = true ∧ goodL xs = true := by
        have h' : goodL (x :: xs) = true := by simpa [good] using h
        exact Bool.and_eq_true .. |>.mp (by simpa [goodL] using h')
      intro c hc
      rcases List.mem_cons.mp hc with rfl | hc
      · decide
      · rcases List.mem_append.mp hc with hc | hc
        · rcases List.mem_append.mp hc with hc | hc
          · exact stringify_ge32 x hx.1 c hc
          · exact stringifyTailA_ge32 xs hx.2 c hc
        · rw [List.mem_singleton.mp hc]; decide
  | .obj [], _ => by decide
  | .obj ((k, v) :: fs), h => by
      have hx : goodStr k = true ∧ good v = true ∧ goodO fs = true := by
        have h' : goodO ((k, v) :: fs) = true := by simpa [good] using h
        obtain ⟨⟨h1a, h1b⟩, h2⟩ : (goodStr k = true ∧ good v = true) ∧ goodO fs = true := by
          simpa [goodO] using h'
        exact ⟨h1a, h1b, h2⟩
      intro c hc
      rcases List.mem_cons.mp hc with rfl | hc
      · decide
      · rcases List.mem_append.mp hc with hc | hc
        · rcases List.mem_append.mp hc with hc | hc
          · rcases List.mem_append.mp hc with hc | hc
            · exact quoteChars_ge32 hx.1 c hc
            · rcases List.mem_cons.mp hc with rfl | hc
              · decide
              · exact stringify_ge32 v hx.2.1 c hc
          · exact stringifyTailO_ge32 fs hx.2.2 c hc
        · rw [List.mem_singleton.mp hc]; decide

theorem stringifyTailA_ge32 : ∀ xs, goodL xs = true → ∀ c ∈ stringifyTailA xs, 32 ≤ c.val
  | [], _ => by decide
  | x :: xs, h => by
      have hx : good x = true ∧ goodL xs = true :=
        Bool.and_eq_true .. |>.mp (by simpa [goodL] using h)
      intro c hc
      rcases List.mem_cons.mp hc with rfl | hc
      · decide
      · rcases List.mem_append.mp hc with hc | hc
        · exact stringify_ge32 x hx.1 c hc
        · exact stringifyTailA_ge32 xs hx.2 c hc

theorem stringifyTailO_ge32 : ∀ fs, goodO fs = true → ∀ c ∈ stringifyTailO fs, 32 ≤ c.val
  | [], _ => by decide
  | (k, v) :: fs, h => by
      have hx : goodStr k = true ∧ good v = true ∧ goodO fs = true := by
        obtain ⟨⟨h1a, h1b⟩, h2⟩ : (goodStr k = true ∧ good v = true) ∧ goodO fs = true := by
          simpa [goodO] using h
        exact ⟨h1a, h1b, h2⟩
      intro c hc
      rcases List.mem_cons.mp hc with rfl | hc
      · decide
      · rcases List.mem_append.mp hc with hc | hc
        · rcases List.mem_append.mp hc with hc | hc
          · exact quoteChars_ge32 hx.1 c hc
          · rcases List.mem_cons.mp hc with rfl | hc
            · decide
            · exact stringify_ge32 v hx.2.1 c hc
        · exact stringifyTailO_ge32 fs hx.2.2 c hc
end

/-- A serialized good value contains no character below 32; in particular no
newline. -/
theorem stringify_no_nl {v : JValue} (h : good v = true) : '\n' ∉ stringifyChars v := by
  intro hmem
  have := stringify_ge32 v h '\n' hmem
  exact absurd this (by decide)

theorem parseStrBody_escList : ∀ (l : List Char), l.all goodChar = true → ∀ rest,
    parseStrBody (escList l ++ ('"' :: rest)) = some (String.mk l, rest) := by
  intro l
  induction l with
  | nil =>
    intro _ rest
    show parseStrBody ('"' :: rest) = some (String.mk [], rest)
    unfold parseStrBody
    rw [if_pos rfl]
  | cons c cs ih =>
    intro hall rest
    rw [List.all_cons] at hall
    obtain ⟨hc, hcs⟩ := Bool.and_eq_true .. |>.mp hall
    show parseStrBody ((escapeChar c ++ escList cs) ++ ('"' :: rest)) = _
    rw [List.append_assoc]
    by_cases h1 : c = '"'
    · subst h1
      show parseStrBody ('\\' :: '"' :: (escList cs ++ ('"' :: rest))) = _
      unfold parseStrBody
      rw [if_neg (by decide), if_pos rfl]
      show (match decodeSimpleEscape '"' with
        | some d => match parseStrBody (escList cs ++ ('"' :: rest)) with
          | some (s, r) => some (String.mk (d :: s.data), r)
          | none => none
        | none => none) = _
      rw [show decodeSimpleEscape '"' = some '"' from rfl]
      rw [ih hcs rest]
    · by_cases h2 : c = '\\'
      · subst h2
        show parseStrBody ('\\' :: '\\' :: (escList cs ++ ('"' :: rest))) = _
        unfold parseStrBody
        rw [if_neg (by decide), if_pos rfl]
        show (match decodeSimpleEscape '\\' with
          | some d => match parseStrBody (escList cs ++ ('"' :: rest)) with
            | some (s, r) => some (String.mk (d :: s.data), r)
            | none => none
          | none => none) = _
        rw [show decodeSimpleEscape '\\' = some '\\' from rfl]
        rw [ih hcs rest]
      · by_cases h3 : c = '\n'
        · subst h3
          show parseStrBody ('\\' :: 'n' :: (escList cs ++ ('"' :: rest))) = _
          unfold parseStrBody
          rw [if_neg (by decide), if_pos rfl]
          show (match decodeSimpleEscape 'n' with
            | some d => match parseStrBody (escList cs ++ ('"' :: rest)) with
              | some (s, r) => some (String.mk (d :: s.data), r)
              | none => none
            | none => none) = _
          rw [show decodeSimpleEscape 'n' = some '\n' from rfl]
          rw [ih hcs rest]
        · by_cases h4 : c = '\t'
          · subst h4
            show parseStrBody ('\\' :: 't' :: (escList cs ++ ('"' :: rest))) = _
            unfold parseStrBody
            rw [if_neg (by decide), if_pos rfl]
            show (match decodeSimpleEscape 't' with
              | some d => match parseStrBody (escList cs ++ ('"' :: rest)) with
                | some (s, r) => some (String.mk (d :: s.data), r)
                | none => none
              | none => none) = _
            rw [show decodeSimpleEscape 't' = some '\t' from rfl]
            rw [ih hcs rest]
          · by_cases h5 : c = '\r'
            · subst h5
              show parseStrBody ('\\' :: 'r' :: (escList cs ++ ('"' :: rest))) = _
              unfold parseStrBody
              rw [if_neg (by decide), if_pos rfl]
              show (match decodeSimpleEscape 'r' with
                | some d => match parseStrBody (escList cs ++ ('"' :: rest)) with
                  | some (s, r) => some (String.mk (d :: s.data), r)
                  | none => none
                | none => none) = _
              rw [show decodeSimpleEscape 'r' = some '\r' from rfl]
              rw [ih hcs rest]
            · by_cases h6 : c.val = 8
              · have hcc : c = '\x08' := Char.ext (by rw [h6]; rfl)
                subst hcc
                show parseStrBody ('\\' :: 'b' :: (escList cs ++ ('"' :: rest))) = _
                unfold parseStrBody
                rw [if_neg (by decide), if_pos rfl]
                show (match decodeSimpleEscape 'b' with
                  | some d => match parseStrBody (escList cs ++ ('"' :: rest)) with
                    | some (s, r) => some (String.mk (d :: s.data), r)
                    | none => none
                  | none => none) = _
                rw [show decodeSimpleEscape 'b' = some '\x08' from rfl]
                rw [ih hcs rest]
              · by_cases h7 : c.val = 12
                · have hcc : c = '\x0c' := Char.ext (by rw [h7]; rfl)
                  subst hcc
                  show parseStrBody ('\\' :: 'f' :: (escList cs ++ ('"' :: rest))) = _
                  unfold parseStrBody
                  rw [if_neg (by decide), if_pos rfl]
                  show (match decodeSimpleEscape 'f' with
                    | some d => match parseStrBody (escList cs ++ ('"' :: rest)) with
                      | some (s, r) => some (String.mk (d :: s.data), r)
                      | none => none
                    | none => none) = _
                  rw [show decodeSimpleEscape 'f' = some '\x0c' from rfl]
                  rw [ih hcs rest]
                · have hge : 32 ≤ c.val := by
                    rcases goodChar_cases hc with hh | hh | hh | hh | hh | hh
                    · exact hh
                    · exact absurd hh h6
                    · exact absurd (Char.ext (show c.val = '\t'.val from by rw [hh]; rfl)) h4
                    · exact absurd (Char.ext (show c.val = '\n'.val from by rw [hh]; rfl)) h3
                    · exact absurd hh h7
                    · exact absurd (Char.ext (show c.val = '\r'.val from by rw [hh]; rfl)) h5
                  have hesc : escapeChar c = [c] := by
                    unfold escapeChar
                    rw [if_neg h1, if_neg h2, if_neg h3, if_neg h4, if_neg h5, if_neg h6,
                      if_neg h7, if_neg (UInt32.not_lt.mpr hge)]
                  rw [hesc]
                  show parseStrBody (c :: (escList cs ++ ('"' :: rest))) = _
                  unfold parseStrBody
                  rw [if_neg h1, if_neg h2, if_neg (UInt32.not_lt.mpr hge)]
                  rw [ih hcs rest]

/-! ## Claim C5 -/

theorem parseVal_succ_cons (fuel : Nat) (c : Char) (r cs : List Char)
    (h : skipWs cs = c :: r) :
    parseVal (fuel + 1) cs =
      (if c = 'n' then (match stripLit ['u','l','l'] r with
          | some r2 => some (JValue.null, r2) | none => none)
      else if c = 't' then (match stripLit ['r','u','e'] r with
          | some r2 => some (JValue.bool true, r2) | none => none)
      else if c = 'f' then (match stripLit ['a','l','s','e'] r with
          | some r2 => some (JValue.bool false, r2) | none => none)
      else if c = '"' then (match parseStrBody r with
          | some (s, r2) => some (JValue.str s, r2) | none => none)
      else if c = '-' || isDig c then parseNum (c :: r)
      else if c = '[' then
        (match skipWs r with
         | ']' :: r2 => some (JValue.arr [], r2)
         | r2 => parseArrElems fuel r2)
      else if c = '{' then
        (match skipWs r with
         | '}' :: r2 => some (JValue.obj [], r2)
         | r2 => parseObjFields fuel r2)
      else none) := by
  unfold parseVal
  rw [h]

theorem parseArrElems_succ (fuel : Nat) (cs : List Char) :
    parseArrElems (fuel + 1) cs =
      (match parseVal fuel cs with
      | some (v, rest) =>
          (match skipWs rest with
           | ',' :: r =>
              (match parseArrElems fuel r with
               | some (.arr vs, r') => some (JValue.arr (v :: vs), r')
               | _ => none)
           | ']' :: r => some (JValue.arr [v], r)
           | _ => none)
      | none => none) := by
  conv_lhs => unfold parseArrElems

theorem parseObjFields_succ (fuel : Nat) (cs : List Char) :
    parseObjFields (fuel + 1) cs =
      (match skipWs cs with
      | '"' :: rest =>
          (match parseStrBody rest with
          | some (k, r1) =>
              (match skipWs r1 with
              | ':' :: r2 =>
                  (match parseVal fuel r2 with
                  | some (v, r3) =>
                      (match skipWs r3 with
                      | ',' :: r4 =>
                          (match parseObjFields fuel r4 with
                          | some (.obj fs, r5) => some (JValue.obj ((k, v) :: fs), r5)
                          | _ => none)
                      | '}' :: r4 => some (JValue.obj [(k, v)], r4)
                      | _ => none)
                  | none => none)
              | _ => none)
          | none => none)
      | _ => none) := by
  conv_lhs => unfold parseObjFields

theorem goodL_cons {x : JValue} {xs : List JValue} (h : goodL (x :: xs) = true) :
    good x = true ∧ goodL xs = true := by
  simpa [goodL] using h

theorem goodO_cons {k : String} {v : JValue} {fs : List (String × JValue)}
    (h : goodO ((k, v) :: fs) = true) :
    goodStr k = true ∧ good v = true ∧ goodO fs = true := by
  obtain ⟨⟨h1, h2⟩, h3⟩ : (goodStr k = true ∧ good v = true) ∧ goodO fs = true := by
    simpa [goodO] using h
  exact ⟨h1, h2, h3⟩

theorem stringify_length_pos (v : JValue) : 0 < (stringifyChars v).length := by
  obtain ⟨c, t, hct, -⟩ := stringify_head v
  rw [hct]; simp

theorem parse_round : ∀ fuel : Nat,
    (∀ v, good v = true → ∀ rest, headNotDigit rest = true →
       (stringifyChars v).length ≤ fuel →
       parseVal fuel (stringifyChars v ++ rest) = some (v, rest)) ∧
    (∀ x xs, good x = true → goodL xs = true → ∀ rest,
       (stringifyChars x ++ stringifyTailA xs).length < fuel →
       parseArrElems fuel (stringifyChars x ++ (stringifyTailA xs ++ (']' :: rest)))
         = some (.arr (x :: xs), rest)) ∧
    (∀ k v fs, goodStr k = true → good v = true → goodO fs = true → ∀ rest,
       (quoteChars k ++ ':' :: stringifyChars v ++ stringifyTailO fs).length < fuel →
       parseObjFields fuel
           (quoteChars k ++ (':' :: (stringifyChars v ++ (stringifyTailO fs ++ ('}' :: rest)))))
         = some (.obj ((k, v) :: fs), rest)) := by
  intro fuel
  induction fuel with
  | zero =>
    refine ⟨?_, ?_, ?_⟩
    · intro v _ rest _ hlen
      have := stringify_length_pos v
      omega
    · intro x xs _ _ rest hlen
      exact absurd hlen (by omega)
    · intro k v fs _ _ _ rest hlen
      exact absurd hlen (by omega)
  | succ fuel ih =>
    obtain ⟨ihP, ihQ, ihR⟩ := ih
    refine ⟨?_, ?_, ?_⟩
    · intro v hv rest hrest hlen
      cases v with
      | null =>
        have h : skipWs (stringifyChars JValue.null ++ rest) = 'n' :: ('u' :: 'l' :: 'l' :: rest) :=
          skipWs_of_head_nonWs _ (by decide)
        rw [parseVal_succ_cons fuel 'n' _ _ h, if_pos rfl]
        have hs : stripLit ['u','l','l'] ('u' :: 'l' :: 'l' :: rest) = some rest := by
          simp [stripLit]
        rw [hs]
      | bool b =>
        cases b with
        | true =>
          have h : skipWs (stringifyChars (JValue.bool true) ++ rest)
              = 't' :: ('r' :: 'u' :: 'e' :: rest) :=
            skipWs_of_head_nonWs _ (by decide)
          rw [parseVal_succ_cons fuel 't' _ _ h, if_neg (by decide), if_pos rfl]
          have hs : stripLit ['r','u','e'] ('r' :: 'u' :: 'e' :: rest) = some rest := by
            simp [stripLit]
          rw [hs]
        | false =>
          have h : skipWs (stringifyChars (JValue.bool false) ++ rest)
              = 'f' :: ('a' :: 'l' :: 's' :: 'e' :: rest) :=
            skipWs_of_head_nonWs _ (by decide)
          rw [parseVal_succ_cons fuel 'f' _ _ h, if_neg (by decide), if_neg (by decide),
            if_pos rfl]
          have hs : stripLit ['a','l','s','e'] ('a' :: 'l' :: 's' :: 'e' :: rest) = some rest := by
            simp [stripLit]
          rw [hs]
      | num n =>
        by_cases hn : n < 0
        · have hic : intChars n = '-' :: natChars n.natAbs := by
            unfold intChars; rw [if_pos hn]
          have h : skipWs (stringifyChars (JValue.num n) ++ rest)
              = '-' :: (natChars n.natAbs ++ rest) := by
            show skipWs (intChars n ++ rest) = _
            rw [hic]
            exact skipWs_of_head_nonWs _ (by decide)
          rw [parseVal_succ_cons fuel '-' _ _ h]
          rw [if_neg (by decide), if_neg (by decide), if_neg (by decide), if_neg (by decide)]
          rw [if_pos (by decide)]
          have he : '-' :: (natChars n.natAbs ++ rest) = intChars n ++ rest := by
            rw [hic]; rfl
          rw [he, parseNum_intChars n rest hrest]
        · obtain ⟨c, t, hct, hc⟩ := natCharsAux_shape (n.natAbs + 1) n.natAbs (by omega)
          have hic : intChars n = c :: t := by
            unfold intChars; rw [if_neg hn]; exact hct
          have h : skipWs (stringifyChars (JValue.num n) ++ rest) = c :: (t ++ rest) := by
            show skipWs (intChars n ++ rest) = _
            rw [hic]
            exact skipWs_of_head_nonWs _ (isDig_not_ws hc)
          rw [parseVal_succ_cons fuel c _ _ h]
          rw [if_neg (isDig_ne hc (by decide)), if_neg (isDig_ne hc (by decide)),
              if_neg (isDig_ne hc (by decide)), if_neg (isDig_ne hc (by decide))]
          rw [if_pos (by simp [hc])]
          have he : c :: (t ++ rest) = intChars n ++ rest := by
            rw [hic]; rfl
          rw [he, parseNum_intChars n rest hrest]
      | str s =>
        obtain ⟨l⟩ := s
        have hgl : l.all goodChar = true := by simpa [good, goodStr] using hv
        have hform : stringifyChars (JValue.str ⟨l⟩) ++ rest
            = '"' :: (escList l ++ ('"' :: rest)) := by
          show '"' :: ((escList l ++ ['"']) ++ rest) = _
          simp
        rw [hform]
        have h : skipWs ('"' :: (escList l ++ ('"' :: rest)))
            = '"' :: (escList l ++ ('"' :: rest)) :=
          skipWs_of_head_nonWs _ (by decide)
        rw [parseVal_succ_cons fuel '"' _ _ h]
        rw [if_neg (by decide), if_neg (by decide), if_neg (by decide), if_pos rfl]
        rw [parseStrBody_escList l hgl rest]
      | arr xs =>
        cases xs with
        | nil =>
          have h : skipWs (stringifyChars (JValue.arr []) ++ rest) = '[' :: (']' :: rest) :=
            skipWs_of_head_nonWs _ (by decide)
          rw [parseVal_succ_cons fuel '[' _ _ h]
          rw [if_neg (by decide), if_neg (by decide), if_neg (by decide), if_neg (by decide),
              if_neg (by decide), if_pos rfl]
          rw [skipWs_of_head_nonWs _ (show isJWs ']' = false by decide)]
          rfl
        | cons x xs =>
          obtain ⟨hx, hxs⟩ := goodL_cons (show goodL (x :: xs) = true by simpa [good] using hv)
          have hform : stringifyChars (JValue.arr (x :: xs)) ++ rest
              = '[' :: (stringifyChars x ++ (stringifyTailA xs ++ (']' :: rest))) := by
            show '[' :: ((stringifyChars x ++ stringifyTailA xs ++ [']']) ++ rest) = _
            simp
          rw [hform]
          have h : skipWs ('[' :: (stringifyChars x ++ (stringifyTailA xs ++ (']' :: rest))))
              = '[' :: (stringifyChars x ++ (stringifyTailA xs ++ (']' :: rest))) :=
            skipWs_of_head_nonWs _ (by decide)
          rw [parseVal_succ_cons fuel '[' _ _ h]
          rw [if_neg (by decide), if_neg (by decide), if_neg (by decide), if_neg (by decide),
              if_neg (by decide), if_pos rfl]
          obtain ⟨c, t, hct, hc⟩ := stringify_head x
          have hsw : skipWs (stringifyChars x ++ (stringifyTailA xs ++ (']' :: rest)))
              = stringifyChars x ++ (stringifyTailA xs ++ (']' :: rest)) := by
            rw [hct]
            exact skipWs_of_head_nonWs _ (headCh_not_ws hc)
          rw [hsw]
          split
          · rename_i r2 heq
            rw [hct, List.cons_append] at heq
            injection heq with h1 _
            exact absurd h1 (headCh_ne hc (by decide))
          · have hlen2 : (stringifyChars x ++ stringifyTailA xs).length < fuel := by
              have h0 : (stringifyChars (JValue.arr (x :: xs))).length ≤ fuel + 1 := hlen
              rw [show stringifyChars (JValue.arr (x :: xs))
                  = '[' :: (stringifyChars x ++ stringifyTailA xs ++ [']']) from rfl] at h0
              simp [List.length_append] at h0 ⊢
              omega
            exact ihQ x xs hx hxs rest hlen2
      | obj fs =>
        cases fs with
        | nil =>
          have h : skipWs (stringifyChars (JValue.obj []) ++ rest) = '{' :: ('}' :: rest) :=
            skipWs_of_head_nonWs _ (by decide)
          rw [parseVal_succ_cons fuel '{' _ _ h]
          rw [if_neg (by decide), if_neg (by decide), if_neg (by decide), if_neg (by decide),
              if_neg (by decide), if_neg (by decide), if_pos rfl]
          rw [skipWs_of_head_nonWs _ (show isJWs '}' = false by decide)]
          rfl
        | cons f fs =>
          obtain ⟨k, v⟩ := f
          obtain ⟨hk, hv2, hfs⟩ := goodO_cons
            (show goodO ((k, v) :: fs) = true by simpa [good] using hv)
          have hform : stringifyChars (JValue.obj ((k, v) :: fs)) ++ rest
              = '{' :: (quoteChars k ++
                  (':' :: (stringifyChars v ++ (stringifyTailO fs ++ ('}' :: rest))))) := by
            show '{' :: ((quoteChars k ++ ':' :: stringifyChars v ++ stringifyTailO fs
                ++ ['}']) ++ rest) = _
            simp
          rw [hform]
          have h : skipWs ('{' :: (quoteChars k ++
                (':' :: (stringifyChars v ++ (stringifyTailO fs ++ ('}' :: rest))))))
              = '{' :: (quoteChars k ++
                  (':' :: (stringifyChars v ++ (stringifyTailO fs ++ ('}' :: rest))))) :=
            skipWs_of_head_nonWs _ (by decide)
          rw [parseVal_succ_cons fuel '{' _ _ h]
          rw [if_neg (by decide), if_neg (by decide), if_neg (by decide), if_neg (by decide),
              if_neg (by decide), if_neg (by decide), if_pos rfl]
          have hqform : quoteChars k ++
                (':' :: (stringifyChars v ++ (stringifyTailO fs ++ ('}' :: rest))))
              = '"' :: (escList k.data ++
                  ('"' :: (':' :: (stringifyChars v ++ (stringifyTailO fs ++ ('}' :: rest)))))) := by
            show ('"' :: (escList k.data ++ ['"'])) ++ _ = _
            simp
          have hsw : skipWs (quoteChars k ++
                (':' :: (stringifyChars v ++ (stringifyTailO fs ++ ('}' :: rest)))))
              = quoteChars k ++
                (':' :: (stringifyChars v ++ (stringifyTailO fs ++ ('}' :: rest)))) := by
            rw [hqform]
            exact skipWs_of_head_nonWs _ (by decide)
          rw [hsw]
          split
          · rename_i r2 heq
            rw [hqform] at heq
            injection heq with h1 _
            exact absurd h1 (by decide)
          · have hlen2 : (quoteChars k ++ ':' :: stringifyChars v
                ++ stringifyTailO fs).length < fuel := by
              have h0 : (stringifyChars (JValue.obj ((k, v) :: fs))).length ≤ fuel + 1 := hlen
              rw [show stringifyChars (JValue.obj ((k, v) :: fs))
                  = '{' :: (quoteChars k ++ ':' :: stringifyChars v ++ stringifyTailO fs
                      ++ ['}']) from rfl] at h0
              simp [List.length_append] at h0 ⊢
              omega
            exact ihR k v fs hk hv2 hfs rest hlen2
    · intro x xs hx hxs rest hlen
      rw [parseArrElems_succ]
      have hnd : headNotDigit (stringifyTailA xs ++ (']' :: rest)) = true := by
        cases xs with
        | nil => rfl
        | cons y ys => rfl
      have hfl : (stringifyChars x).length ≤ fuel := by
        simp [List.length_append] at hlen; omega
      rw [ihP x hx (stringifyTailA xs ++ (']' :: rest)) hnd hfl]
      show (match skipWs (stringifyTailA xs ++ (']' :: rest)) with
        | ',' :: r =>
            (match parseArrElems fuel r with
             | some (.arr vs, r') => some (JValue.arr (x :: vs), r')
             | _ => none)
        | ']' :: r => some (JValue.arr [x], r)
        | _ => none) = some (JValue.arr (x :: xs), rest)
      cases xs with
      | nil =>
        simp only [stringifyTailA, List.nil_append]
        rw [skipWs_of_head_nonWs _ (show isJWs ']' = false by decide)]
        rfl
      | cons y ys =>
        obtain ⟨hy, hys⟩ := goodL_cons hxs
        have hform : stringifyTailA (y :: ys) ++ (']' :: rest)
            = ',' :: (stringifyChars y ++ (stringifyTailA ys ++ (']' :: rest))) := by
          show (',' :: (stringifyChars y ++ stringifyTailA ys)) ++ (']' :: rest) = _
          simp
        rw [hform, skipWs_of_head_nonWs _ (show isJWs ',' = false by decide)]
        show (match parseArrElems fuel
            (stringifyChars y ++ (stringifyTailA ys ++ (']' :: rest))) with
          | some (.arr vs, r') => some (JValue.arr (x :: vs), r')
          | _ => none) = some (JValue.arr (x :: y :: ys), rest)
        have hlen2 : (stringifyChars y ++ stringifyTailA ys).length < fuel := by
          rw [show stringifyTailA (y :: ys)
              = ',' :: (stringifyChars y ++ stringifyTailA ys) from rfl] at hlen
          simp [List.length_append] at hlen ⊢
          omega
        rw [ihQ y ys hy hys rest hlen2]
    · intro k v fs hk hv2 hfs rest hlen
      obtain ⟨kl⟩ := k
      rw [parseObjFields_succ]
      have hgl : kl.all goodChar = true := by simpa [goodStr] using hk
      have hqform : quoteChars ⟨kl⟩ ++
            (':' :: (stringifyChars v ++ (stringifyTailO fs ++ ('}' :: rest))))
          = '"' :: (escList kl ++
              ('"' :: (':' :: (stringifyChars v ++ (stringifyTailO fs ++ ('}' :: rest)))))) := by
        show ('"' :: (escList kl ++ ['"'])) ++ _ = _
        simp
      rw [hqform]
      rw [skipWs_of_head_nonWs _ (show isJWs '"' = false by decide)]
      show (match parseStrBody (escList kl ++
          ('"' :: (':' :: (stringifyChars v ++ (stringifyTailO fs ++ ('}' :: rest)))))) with
        | some (k', r1) =>
            (match skipWs r1 with
            | ':' :: r2 =>
                (match parseVal fuel r2 with
                | some (w, r3) =>
                    (match skipWs r3 with
                    | ',' :: r4 =>
                        (match parseObjFields fuel r4 with
                        | some (.obj gs, r5) => some (JValue.obj ((k', w) :: gs), r5)
                        | _ => none)
                    | '}' :: r4 => some (JValue.obj [(k', w)], r4)
                    | _ => none)
                | none => none)
            | _ => none)
        | none => none) = some (JValue.obj ((⟨kl⟩, v) :: fs), rest)
      rw [parseStrBody_escList kl hgl]
      show (match skipWs (':' :: (stringifyChars v ++ (stringifyTailO fs ++ ('}' :: rest)))) with
        | ':' :: r2 =>
            (match parseVal fuel r2 with
            | some (w, r3) =>
                (match skipWs r3 with
                | ',' :: r4 =>
                    (match parseObjFields fuel r4 with
                    | some (.obj gs, r5) => some (JValue.obj ((String.mk kl, w) :: gs), r5)
                    | _ => none)
                | '}' :: r4 => some (JValue.obj [(String.mk kl, w)], r4)
                | _ => none)
            | none => none)
        | _ => none) = some (JValue.obj ((⟨kl⟩, v) :: fs), rest)
      rw [skipWs_of_head_nonWs _ (show isJWs ':' = false by decide)]
      show (match parseVal fuel (stringifyChars v ++ (stringifyTailO fs ++ ('}' :: rest))) with
        | some (w, r3) =>
            (match skipWs r3 with
            | ',' :: r4 =>
                (match parseObjFields fuel r4 with
                | some (.obj gs, r5) => some (JValue.obj ((String.mk kl, w) :: gs), r5)
                | _ => none)
            | '}' :: r4 => some (JValue.obj [(String.mk kl, w)], r4)
            | _ => none)
        | none => none) = some (JValue.obj ((⟨kl⟩, v) :: fs), rest)
      have hnd : headNotDigit (stringifyTailO fs ++ ('}' :: rest)) = true := by
        cases fs with
        | nil => rfl
        | cons g gs =>
          obtain ⟨k2, v2⟩ := g
          rfl
      have hfl : (stringifyChars v).length ≤ fuel := by
        simp [List.length_append] at hlen; omega
      rw [ihP v hv2 (stringifyTailO fs ++ ('}' :: rest)) hnd hfl]
      show (match skipWs (stringifyTailO fs ++ ('}' :: rest)) with
        | ',' :: r4 =>
            (match parseObjFields fuel r4 with
            | some (.obj gs, r5) => some (JValue.obj ((String.mk kl, v) :: gs), r5)
            | _ => none)
        | '}' :: r4 => some (JValue.obj [(String.mk kl, v)], r4)
        | _ => none) = some (JValue.obj ((⟨kl⟩, v) :: fs), rest)
      cases fs with
      | nil =>
        simp only [stringifyTailO, List.nil_append]
        rw [skipWs_of_head_nonWs _ (show isJWs '}' = false by decide)]
        rfl
      | cons g gs =>
        obtain ⟨k2, v2⟩ := g
        obtain ⟨hk2, hv2', hgs⟩ := goodO_cons hfs
        have hform2 : stringifyTailO ((k2, v2) :: gs) ++ ('}' :: rest)
            = ',' :: (quoteChars k2 ++
                (':' :: (stringifyChars v2 ++ (stringifyTailO gs ++ ('}' :: rest))))) := by
          show (',' :: (quoteChars k2 ++ ':' :: stringifyChars v2 ++ stringifyTailO gs))
              ++ ('}' :: rest) = _
          simp
        rw [hform2, skipWs_of_head_nonWs _ (show isJWs ',' = false by decide)]
        show (match parseObjFields fuel (quoteChars k2 ++
            (':' :: (stringifyChars v2 ++ (stringifyTailO gs ++ ('}' :: rest))))) with
          | some (.obj gs', r5) => some (JValue.obj ((String.mk kl, v) :: gs'), r5)
          | _ => none) = some (JValue.obj ((⟨kl⟩, v) :: (k2, v2) :: gs), rest)
        have hlen2 : (quoteChars k2 ++ ':' :: stringifyChars v2
            ++ stringifyTailO gs).length < fuel := by
          rw [show stringifyTailO ((k2, v2) :: gs)
              = ',' :: (quoteChars k2 ++ ':' :: stringifyChars v2 ++ stringifyTailO gs)
              from rfl] at hlen
          simp [List.length_append] at hlen ⊢
          omega
        rw [ihR k2 v2 gs hk2 hv2' hgs rest hlen2]

theorem jparse_stringify (v : JValue) (h : good v = true) :
    jparse (stringify v) = some v := by
  unfold jparse stringify
  rw [show (String.mk (stringifyChars v)).length = (stringifyChars v).length from rfl]
  rw [show (String.mk (stringifyChars v)).data = stringifyChars v from rfl]
  have hP := (parse_round (2 * (stringifyChars v).length + 2)).1 v h [] (by rfl) (by omega)
  rw [List.append_nil] at hP
  rw [hP]
  rfl

theorem scanB_step_neutral (endChar c : Char) (cs : List Char) (depth : Int) (acc : List Char)
    (h1 : c ≠ '\\') (h2 : c ≠ '"') (h3 : ¬(c = '\x7b' ∨ c = '[')) (h4 : ¬(c = '\x7d' ∨ c = ']')) :
    scanB endChar (c :: cs) depth false false acc
      = scanB endChar cs depth false false (c :: acc) := by
  conv_lhs => unfold scanB
  rw [if_neg (by simp), if_neg h1, if_neg h2, if_neg (by simp), if_neg h3, if_neg h4]

theorem scanB_neutral_list (endChar : Char) : ∀ (l cs : List Char) (depth : Int)
    (acc : List Char),
    (∀ c ∈ l, c ≠ '\\' ∧ c ≠ '"' ∧ ¬(c = '\x7b' ∨ c = '[') ∧ ¬(c = '\x7d' ∨ c = ']')) →
    scanB endChar (l ++ cs) depth false false acc
      = scanB endChar cs depth false false (l.reverse ++ acc) := by
  intro l
  induction l with
  | nil => intro cs depth acc _; simp
  | cons c l ih =>
    intro cs depth acc hall
    obtain ⟨h1, h2, h3, h4⟩ := hall c (by simp)
    rw [List.cons_append, scanB_step_neutral endChar c _ depth acc h1 h2 h3 h4]
    rw [ih cs depth (c :: acc) (fun d hd => hall d (by simp [hd]))]
    simp

theorem scanB_step_instring (endChar c : Char) (cs : List Char) (depth : Int) (acc : List Char)
    (h1 : c ≠ '\\') (h2 : c ≠ '"') :
    scanB endChar (c :: cs) depth true false acc
      = scanB endChar cs depth true false (c :: acc) := by
  conv_lhs => unfold scanB
  rw [if_neg (by simp), if_neg h1, if_neg h2, if_pos rfl]

theorem scanB_step_backslash (endChar : Char) (cs : List Char) (depth : Int)
    (inString : Bool) (acc : List Char) :
    scanB endChar ('\\' :: cs) depth inString false acc
      = scanB endChar cs depth inString true ('\\' :: acc) := by
  conv_lhs => unfold scanB
  rw [if_neg (by simp), if_pos rfl]

theorem scanB_step_escaped (endChar c : Char) (cs : List Char) (depth : Int)
    (inString : Bool) (acc : List Char) :
    scanB endChar (c :: cs) depth inString true acc
      = scanB endChar cs depth inString false (c :: acc) := by
  conv_lhs => unfold scanB
  rw [if_pos rfl]

theorem scanB_step_quote_open (endChar : Char) (cs : List Char) (depth : Int)
    (acc : List Char) :
    scanB endChar ('"' :: cs) depth false false acc
      = scanB endChar cs depth true false ('"' :: acc) := by
  conv_lhs => unfold scanB
  rw [if_neg (by simp), if_neg (by decide), if_pos rfl]
  rfl

theorem scanB_step_quote_close (endChar : Char) (cs : List Char) (depth : Int)
    (acc : List Char) :
    scanB endChar ('"' :: cs) depth true false acc
      = scanB endChar cs depth false false ('"' :: acc) := by
  conv_lhs => unfold scanB
  rw [if_neg (by simp), if_neg (by decide), if_pos rfl]
  rfl

theorem scanB_step_open (endChar c : Char) (cs : List Char) (depth : Int) (acc : List Char)
    (h : c = '\x7b' ∨ c = '[') :
    scanB endChar (c :: cs) depth false false acc
      = scanB endChar cs (depth + 1) false false (c :: acc) := by
  rcases h with rfl | rfl
  · conv_lhs => unfold scanB
    rw [if_neg (by simp), if_neg (by decide), if_neg (by decide), if_neg (by simp),
      if_pos (by decide)]
  · conv_lhs => unfold scanB
    rw [if_neg (by simp), if_neg (by decide), if_neg (by decide), if_neg (by simp),
      if_pos (by decide)]

theorem scanB_step_close (endChar c : Char) (cs : List Char) (depth : Int) (acc : List Char)
    (h : c = '\x7d' ∨ c = ']') (hne : ¬(depth - 1 = 0 ∧ c = endChar)) :
    scanB endChar (c :: cs) depth false false acc
      = scanB endChar cs (depth - 1) false false (c :: acc) := by
  rcases h with rfl | rfl
  · conv_lhs => unfold scanB
    rw [if_neg (by simp), if_neg (by decide), if_neg (by decide), if_neg (by simp),
      if_neg (by decide), if_pos (by decide)]
    show (if depth - 1 = 0 ∧ '\x7d' = endChar then some (('\x7d' :: acc).reverse)
      else scanB endChar cs (depth - 1) false false ('\x7d' :: acc)) = _
    rw [if_neg hne]
  · conv_lhs => unfold scanB
    rw [if_neg (by simp), if_neg (by decide), if_neg (by decide), if_neg (by simp),
      if_neg (by decide), if_pos (by decide)]
    show (if depth - 1 = 0 ∧ ']' = endChar then some ((']' :: acc).reverse)
      else scanB endChar cs (depth - 1) false false (']' :: acc)) = _
    rw [if_neg hne]

theorem scanB_step_term (endChar c : Char) (cs : List Char) (depth : Int) (acc : List Char)
    (h : c = '\x7d' ∨ c = ']') (h0 : depth - 1 = 0) (he : c = endChar) :
    scanB endChar (c :: cs) depth false false acc = some ((c :: acc).reverse) := by
  rcases h with rfl | rfl
  · conv_lhs => unfold scanB
    rw [if_neg (by simp), if_neg (by decide), if_neg (by decide), if_neg (by simp),
      if_neg (by decide), if_pos (by decide)]
    show (if depth - 1 = 0 ∧ '\x7d' = endChar then some (('\x7d' :: acc).reverse)
      else scanB endChar cs (depth - 1) false false ('\x7d' :: acc)) = _
    rw [if_pos ⟨h0, he⟩]
  · conv_lhs => unfold scanB
    rw [if_neg (by simp), if_neg (by decide), if_neg (by decide), if_neg (by simp),
      if_neg (by decide), if_pos (by decide)]
    show (if depth - 1 = 0 ∧ ']' = endChar then some ((']' :: acc).reverse)
      else scanB endChar cs (depth - 1) false false (']' :: acc)) = _
    rw [if_pos ⟨h0, he⟩]

theorem scanB_string (endChar : Char) : ∀ (l : List Char), l.all goodChar = true →
    ∀ (cs : List Char) (depth : Int) (acc : List Char),
    scanB endChar (escList l ++ ('"' :: cs)) depth true false acc
      = scanB endChar cs depth false false ('"' :: ((escList l).reverse ++ acc)) := by
  intro l
  induction l with
  | nil =>
    intro _ cs depth acc
    show scanB endChar ('"' :: cs) depth true false acc = _
    rw [scanB_step_quote_close]
    simp [escList]
  | cons c l ih =>
    intro hall cs depth acc
    rw [List.all_cons] at hall
    obtain ⟨hc, hl⟩ := Bool.and_eq_true .. |>.mp hall
    show scanB endChar ((escapeChar c ++ escList l) ++ ('"' :: cs)) depth true false acc = _
    rw [List.append_assoc]
    by_cases h1 : c = '"'
    · subst h1
      show scanB endChar ('\\' :: '"' :: (escList l ++ ('"' :: cs))) depth true false acc = _
      rw [scanB_step_backslash, scanB_step_escaped, ih hl cs depth _]
      simp [escList, escapeChar]
    · by_cases h2 : c = '\\'
      · subst h2
        show scanB endChar ('\\' :: '\\' :: (escList l ++ ('"' :: cs))) depth true false acc = _
        rw [scanB_step_backslash, scanB_step_escaped, ih hl cs depth _]
        simp [escList, escapeChar]
      · by_cases h3 : c = '\n'
        · subst h3
          show scanB endChar ('\\' :: 'n' :: (escList l ++ ('"' :: cs))) depth true false acc = _
          rw [scanB_step_backslash, scanB_step_escaped, ih hl cs depth _]
          simp [escList, escapeChar]
        · by_cases h4 : c = '\t'
          · subst h4
            show scanB endChar ('\\' :: 't' :: (escList l ++ ('"' :: cs))) depth true false acc
              = _
            rw [scanB_step_backslash, scanB_step_escaped, ih hl cs depth _]
            simp [escList, escapeChar]
          · by_cases h5 : c = '\r'
            · subst h5
              show scanB endChar ('\\' :: 'r' :: (escList l ++ ('"' :: cs))) depth true false
                acc = _
              rw [scanB_step_backslash, scanB_step_escaped, ih hl cs depth _]
              simp [escList, escapeChar]
            · by_cases h6 : c.val = 8
              · have hcc : c = '\x08' := Char.ext (by rw [h6]; rfl)
                subst hcc
                show scanB endChar ('\\' :: 'b' :: (escList l ++ ('"' :: cs))) depth true false
                  acc = _
                rw [scanB_step_backslash, scanB_step_escaped, ih hl cs depth _]
                simp [escList, escapeChar]
              · by_cases h7 : c.val = 12
                · have hcc : c = '\x0c' := Char.ext (by rw [h7]; rfl)
                  subst hcc
                  show scanB endChar ('\\' :: 'f' :: (escList l ++ ('"' :: cs))) depth true
                    false acc = _
                  rw [scanB_step_backslash, scanB_step_escaped, ih hl cs depth _]
                  simp [escList, escapeChar]
                · have hge : 32 ≤ c.val := by
                    rcases goodChar_cases hc with hh | hh | hh | hh | hh | hh
                    · exact hh
                    · exact absurd hh h6
                    · exact absurd (Char.ext (show c.val = '\t'.val from by rw [hh]; rfl)) h4
                    · exact absurd (Char.ext (show c.val = '\n'.val from by rw [hh]; rfl)) h3
                    · exact absurd hh h7
                    · exact absurd (Char.ext (show c.val = '\r'.val from by rw [hh]; rfl)) h5
                  have hesc : escapeChar c = [c] := by
                    unfold escapeChar
                    rw [if_neg h1, if_neg h2, if_neg h3, if_neg h4, if_neg h5, if_neg h6,
                      if_neg h7, if_neg (UInt32.not_lt.mpr hge)]
                  rw [hesc]
                  show scanB endChar (c :: (escList l ++ ('"' :: cs))) depth true false acc = _
                  rw [scanB_step_instring endChar c _ depth acc h2 h1, ih hl cs depth _]
                  have hre : escList (c :: l) = escapeChar c ++ escList l := rfl
                  rw [hre, hesc]
                  simp

theorem scanB_openquote (endChar : Char) (l : List Char) (hall : l.all goodChar = true)
    (cs : List Char) (depth : Int) (acc : List Char) :
    scanB endChar ('"' :: (escList l ++ ('"' :: cs))) depth false false acc
      = scanB endChar cs depth false false ('"' :: ((escList l).reverse ++ ('"' :: acc))) := by
  rw [scanB_step_quote_open, scanB_string endChar l hall]

theorem intChars_neutral (n : Int) : ∀ c ∈ intChars n,
    c ≠ '\\' ∧ c ≠ '"' ∧ ¬(c = '{' ∨ c = '[') ∧ ¬(c = '}' ∨ c = ']') := by
  intro c hc
  have hd : c = '-' ∨ isDig c = true := by
    unfold intChars at hc
    by_cases hn : n < 0
    · rw [if_pos hn] at hc
      rcases List.mem_cons.mp hc with rfl | hc
      · exact Or.inl rfl
      · exact Or.inr (by
          simpa using List.all_eq_true.mp (natCharsAux_all (n.natAbs + 1) n.natAbs) c hc)
    · rw [if_neg hn] at hc
      exact Or.inr (by
        simpa using List.all_eq_true.mp (natCharsAux_all (n.natAbs + 1) n.natAbs) c hc)
  rcases hd with rfl | hd
  · refine ⟨by decide, by decide, by decide, by decide⟩
  · exact ⟨isDig_ne hd (by decide), isDig_ne hd (by decide),
      by rintro (rfl | rfl) <;> exact absurd hd (by decide),
      by rintro (rfl | rfl) <;> exact absurd hd (by decide)⟩

mutual
theorem scanB_val : ∀ v, good v = true → ∀ (endChar : Char) (cs : List Char) (depth : Int)
    (acc : List Char), 1 ≤ depth →
    scanB endChar (stringifyChars v ++ cs) depth false false acc
      = scanB endChar cs depth false false ((stringifyChars v).reverse ++ acc)
  | .null, _ => by
      intro endChar cs depth acc _
      exact scanB_neutral_list endChar (stringifyChars .null) cs depth acc (by decide)
  | .bool true, _ => by
      intro endChar cs depth acc _
      exact scanB_neutral_list endChar (stringifyChars (.bool true)) cs depth acc (by decide)
  | .bool false, _ => by
      intro endChar cs depth acc _
      exact scanB_neutral_list endChar (stringifyChars (.bool false)) cs depth acc (by decide)
  | .num n, _ => by
      intro endChar cs depth acc _
      exact scanB_neutral_list endChar (intChars n) cs depth acc (intChars_neutral n)
  | .str s, h => by
      intro endChar cs depth acc _
      show scanB endChar ('"' :: ((escList s.data ++ ['"']) ++ cs)) depth false false acc = _
      rw [show (escList s.data ++ ['"']) ++ cs = escList s.data ++ ('"' :: cs) from by simp]
      rw [scanB_openquote endChar s.data (by simpa [good, goodStr] using h)]
      show _ = scanB endChar cs depth false false
        (('"' :: (escList s.data ++ ['"'])).reverse ++ acc)
      simp
  | .arr [], _ => by
      intro endChar cs depth acc hd
      show scanB endChar ('[' :: (']' :: cs)) depth false false acc = _
      rw [scanB_step_open endChar '[' _ _ _ (Or.inr rfl)]
      rw [scanB_step_close endChar ']' _ _ _ (Or.inr rfl) (by rintro ⟨h0, -⟩; omega)]
      rw [show depth + 1 - 1 = depth from by omega]
      show _ = scanB endChar cs depth false false (([ '[', ']' ] : List Char).reverse ++ acc)
      simp
  | .arr (x :: xs), h => by
      intro endChar cs depth acc hd
      obtain ⟨hx, hxs⟩ := goodL_cons (show goodL (x :: xs) = true by simpa [good] using h)
      show scanB endChar ('[' :: ((stringifyChars x ++ stringifyTailA xs ++ [']']) ++ cs))
          depth false false acc = _
      rw [show (stringifyChars x ++ stringifyTailA xs ++ [']']) ++ cs
          = stringifyChars x ++ (stringifyTailA xs ++ (']' :: cs)) from by simp]
      rw [scanB_step_open endChar '[' _ _ _ (Or.inr rfl)]
      rw [scanB_val x hx endChar _ _ _ (by omega)]
      rw [scanB_tailA xs hxs endChar _ _ _ (by omega)]
      rw [scanB_step_close endChar ']' _ _ _ (Or.inr rfl) (by rintro ⟨h0, -⟩; omega)]
      rw [show depth + 1 - 1 = depth from by omega]
      show _ = scanB endChar cs depth false false
        (('[' :: (stringifyChars x ++ stringifyTailA xs ++ [']'])).reverse ++ acc)
      simp
  | .obj [], _ => by
      intro endChar cs depth acc hd
      show scanB endChar ('{' :: ('}' :: cs)) depth false false acc = _
      rw [scanB_step_open endChar '{' _ _ _ (Or.inl rfl)]
      rw [scanB_step_close endChar '}' _ _ _ (Or.inl rfl) (by rintro ⟨h0, -⟩; omega)]
      rw [show depth + 1 - 1 = depth from by omega]
      show _ = scanB endChar cs depth false false (([ '{', '}' ] : List Char).reverse ++ acc)
      simp
  | .obj ((k, v) :: fs), h => by
      intro endChar cs depth acc hd
      obtain ⟨hk, hv, hfs⟩ := goodO_cons
        (show goodO ((k, v) :: fs) = true by simpa [good] using h)
      show scanB endChar ('{' :: ((quoteChars k ++ ':' :: stringifyChars v
          ++ stringifyTailO fs ++ ['}']) ++ cs)) depth false false acc = _
      rw [show (quoteChars k ++ ':' :: stringifyChars v ++ stringifyTailO fs ++ ['}']) ++ cs
          = '"' :: (escList k.data ++ ('"' :: (':' :: (stringifyChars v
              ++ (stringifyTailO fs ++ ('}' :: cs)))))) from by simp [quoteChars]]
      rw [scanB_step_open endChar '{' _ _ _ (Or.inl rfl)]
      rw [scanB_openquote endChar k.data (by simpa [goodStr] using hk)]
      rw [scanB_step_neutral endChar ':' _ _ _ (by decide) (by decide) (by decide) (by decide)]
      rw [scanB_val v hv endChar _ _ _ (by omega)]
      rw [scanB_tailO fs hfs endChar _ _ _ (by omega)]
      rw [scanB_step_close endChar '}' _ _ _ (Or.inl rfl) (by rintro ⟨h0, -⟩; omega)]
      rw [show depth + 1 - 1 = depth from by omega]
      show _ = scanB endChar cs depth false false
        (('{' :: (quoteChars k ++ ':' :: stringifyChars v ++ stringifyTailO fs
          ++ ['}'])).reverse ++ acc)
      simp [quoteChars]

theorem scanB_tailA : ∀ xs, goodL xs = true → ∀ (endChar : Char) (cs : List Char)
    (depth : Int) (acc : List Char), 1 ≤ depth →
    scanB endChar (stringifyTailA xs ++ cs) depth false false acc
      = scanB endChar cs depth false false ((stringifyTailA xs).reverse ++ acc)
  | [], _ => by
      intro endChar cs depth acc _
      simp [stringifyTailA]
  | x :: xs, h => by
      intro endChar cs depth acc hd
      obtain ⟨hx, hxs⟩ := goodL_cons h
      show scanB endChar ((',' :: (stringifyChars x ++ stringifyTailA xs)) ++ cs)
          depth false false acc = _
      rw [show (',' :: (stringifyChars x ++ stringifyTailA xs)) ++ cs
          = ',' :: (stringifyChars x ++ (stringifyTailA xs ++ cs)) from by simp]
      rw [scanB_step_neutral endChar ',' _ _ _ (by decide) (by decide) (by decide) (by decide)]
      rw [scanB_val x hx endChar _ _ _ hd]
      rw [scanB_tailA xs hxs endChar _ _ _ hd]
      show _ = scanB endChar cs depth false false
        ((',' :: (stringifyChars x ++ stringifyTailA xs)).reverse ++ acc)
      simp

theorem scanB_tailO : ∀ fs, goodO fs = true → ∀ (endChar : Char) (cs : List Char)
    (depth : Int) (acc : List Char), 1 ≤ depth →
    scanB endChar (stringifyTailO fs ++ cs) depth false false acc
      = scanB endChar cs depth false false ((stringifyTailO fs).reverse ++ acc)
  | [], _ => by
      intro endChar cs depth acc _
      simp [stringifyTailO]
  | (k, v) :: fs, h => by
      intro endChar cs depth acc hd
      obtain ⟨hk, hv, hfs⟩ := goodO_cons h
      show scanB endChar ((',' :: (quoteChars k ++ ':' :: stringifyChars v
          ++ stringifyTailO fs)) ++ cs) depth false false acc = _
      rw [show (',' :: (quoteChars k ++ ':' :: stringifyChars v ++ stringifyTailO fs)) ++ cs
          = ',' :: ('"' :: (escList k.data ++ ('"' :: (':' :: (stringifyChars v
              ++ (stringifyTailO fs ++ cs)))))) from by simp [quoteChars]]
      rw [scanB_step_neutral endChar ',' _ _ _ (by decide) (by decide) (by decide) (by decide)]
      rw [scanB_openquote endChar k.data (by simpa [goodStr] using hk)]
      rw [scanB_step_neutral endChar ':' _ _ _ (by decide) (by decide) (by decide) (by decide)]
      rw [scanB_val v hv endChar _ _ _ hd]
      rw [scanB_tailO fs hfs endChar _ _ _ hd]
      show _ = scanB endChar cs depth false false
        ((',' :: (quoteChars k ++ ':' :: stringifyChars v ++ stringifyTailO fs)).reverse
          ++ acc)
      simp [quoteChars]
end

theorem scanB_obj_full (fs : List (String × JValue)) (h : goodO fs = true) (cs : List Char) :
    scanB '}' (stringifyChars (.obj fs) ++ cs) 0 false false []
      = some (stringifyChars (.obj fs)) := by
  cases fs with
  | nil =>
    show scanB '}' ('{' :: ('}' :: cs)) 0 false false [] = _
    rw [scanB_step_open '}' '{' _ _ _ (Or.inl rfl)]
    rw [scanB_step_term '}' '}' _ _ _ (Or.inl rfl) (by decide) rfl]
    rfl
  | cons f fs =>
    obtain ⟨k, v⟩ := f
    obtain ⟨hk, hv, hfs⟩ := goodO_cons h
    show scanB '}' ('{' :: ((quoteChars k ++ ':' :: stringifyChars v
        ++ stringifyTailO fs ++ ['}']) ++ cs)) 0 false false [] = _
    rw [show (quoteChars k ++ ':' :: stringifyChars v ++ stringifyTailO fs ++ ['}']) ++ cs
        = '"' :: (escList k.data ++ ('"' :: (':' :: (stringifyChars v
            ++ (stringifyTailO fs ++ ('}' :: cs)))))) from by simp [quoteChars]]
    rw [scanB_step_open '}' '{' _ _ _ (Or.inl rfl)]
    rw [scanB_openquote '}' k.data (by simpa [goodStr] using hk)]
    rw [scanB_step_neutral '}' ':' _ _ _ (by decide) (by decide) (by decide) (by decide)]
    rw [scanB_val v hv '}' _ _ _ (by omega)]
    rw [scanB_tailO fs hfs '}' _ _ _ (by omega)]
    rw [scanB_step_term '}' '}' _ _ _ (Or.inl rfl) (by decide) rfl]
    show some (('}' :: ((stringifyTailO fs).reverse ++ ((stringifyChars v).reverse
        ++ (':' :: ('"' :: ((escList k.data).reverse ++ ('"' :: ('{' :: [])))))))).reverse)
      = some ('{' :: (quoteChars k ++ ':' :: stringifyChars v ++ stringifyTailO fs ++ ['}']))
    simp [quoteChars]

theorem scanB_arr_full (xs : List JValue) (h : goodL xs = true) (cs : List Char) :
    scanB ']' (stringifyChars (.arr xs) ++ cs) 0 false false []
      = some (stringifyChars (.arr xs)) := by
  cases xs with
  | nil =>
    show scanB ']' ('[' :: (']' :: cs)) 0 false false [] = _
    rw [scanB_step_open ']' '[' _ _ _ (Or.inr rfl)]
    rw [scanB_step_term ']' ']' _ _ _ (Or.inr rfl) (by decide) rfl]
    rfl
  | cons x xs =>
    obtain ⟨hx, hxs⟩ := goodL_cons h
    show scanB ']' ('[' :: ((stringifyChars x ++ stringifyTailA xs ++ [']']) ++ cs))
        0 false false [] = _
    rw [show (stringifyChars x ++ stringifyTailA xs ++ [']']) ++ cs
        = stringifyChars x ++ (stringifyTailA xs ++ (']' :: cs)) from by simp]
    rw [scanB_step_open ']' '[' _ _ _ (Or.inr rfl)]
    rw [scanB_val x hx ']' _ _ _ (by omega)]
    rw [scanB_tailA xs hxs ']' _ _ _ (by omega)]
    rw [scanB_step_term ']' ']' _ _ _ (Or.inr rfl) (by decide) rfl]
    show some ((']' :: ((stringifyTailA xs).reverse ++ ((stringifyChars x).reverse
        ++ ('[' :: [])))).reverse)
      = some ('[' :: (stringifyChars x ++ stringifyTailA xs ++ [']']))
    simp

theorem isPrefList_append_right (pat l cs : List Char) (h : isPrefList pat l = true) :
    isPrefList pat (l ++ cs) = true := by
  induction pat generalizing l with
  | nil => rfl
  | cons p ps ih =>
    cases l with
    | nil => simp [isPrefList] at h
    | cons c t =>
      rw [List.cons_append]
      rw [show isPrefList (p :: ps) (c :: t) = (decide (p = c) && isPrefList ps t) from rfl]
        at h
      obtain ⟨h1, h2⟩ := Bool.and_eq_true .. |>.mp h
      show (decide (p = c) && isPrefList ps (t ++ cs)) = true
      rw [h1, ih t h2]
      rfl

theorem hasSub_append_left (p cs pat : List Char) (h : hasSub p pat = true) :
    hasSub (p ++ cs) pat = true := by
  induction p with
  | nil =>
    cases pat with
    | nil => cases cs with
      | nil => rfl
      | cons c t => show (isPrefList [] (c :: t) || hasSub t []) = true; rfl
    | cons q qs => simp [hasSub, List.isEmpty] at h
  | cons c t ih =>
    rw [List.cons_append]
    show (isPrefList pat (c :: (t ++ cs)) || hasSub (t ++ cs) pat) = true
    rw [show hasSub (c :: t) pat = (isPrefList pat (c :: t) || hasSub t pat) from rfl] at h
    rcases Bool.or_eq_true .. |>.mp h with h1 | h1
    · rw [show c :: (t ++ cs) = (c :: t) ++ cs from rfl, isPrefList_append_right pat _ cs h1]
      rfl
    · rw [ih h1, Bool.or_true]

theorem hasSub_single_false (cs : List Char) (c : Char) (h : ∀ x ∈ cs, x ≠ c) :
    hasSub cs [c] = false := by
  induction cs with
  | nil => rfl
  | cons x t ih =>
    show (isPrefList [c] (x :: t) || hasSub t [c]) = false
    rw [show isPrefList [c] (x :: t) = (decide (c = x) && isPrefList [] t) from rfl]
    rw [decide_eq_false (fun he => (h x (by simp)) he.symm), Bool.false_and, Bool.false_or]
    exact ih (fun y hy => h y (by simp [hy]))

theorem splitNlChars_nl (cs : List Char) :
    splitNlChars ('\n' :: cs) = [] :: splitNlChars cs := by
  show (if '\n' = '\n' then [] :: splitNlChars cs else _) = _
  rw [if_pos rfl]

theorem splitNlChars_no_nl (l : List Char) (hl : ∀ x ∈ l, x ≠ '\n') :
    ∀ (cs : List Char) (h : List Char) (t : List (List Char)),
    splitNlChars cs = h :: t → splitNlChars (l ++ cs) = (l ++ h) :: t := by
  induction l with
  | nil => intro cs h t hcs; simpa using hcs
  | cons c l ih =>
    intro cs h t hcs
    rw [List.cons_append]
    show (if c = '\n' then [] :: splitNlChars (l ++ cs)
      else match splitNlChars (l ++ cs) with
        | [] => [[c]]
        | l2 :: ls => (c :: l2) :: ls) = ((c :: l) ++ h) :: t
    rw [if_neg (hl c (by simp)), ih (fun y hy => hl y (by simp [hy])) cs h t hcs]
    rfl

theorem stringify_no_lf {v : JValue} (h : good v = true) :
    ∀ x ∈ (stringifyChars v), x ≠ '\n' := by
  intro x hx he
  have := stringify_ge32 v h x hx
  rw [he] at this
  exact absurd this (by decide)

theorem strIncludes_stringify_nl {v : JValue} (h : good v = true) :
    strIncludes (stringify v) "\n" = false := by
  show hasSub (stringifyChars v) ['\n'] = false
  exact hasSub_single_false _ _ (stringify_no_lf h)

theorem sseStage_no_nl {s : String} (h : strIncludes s "\n" = false) :
    sseStage s = .inr s := by
  unfold sseStage
  rw [h, Bool.and_false]
  rfl

theorem strStarts_false_of_head {s : String} {c p : Char} {ps : List Char}
    (hhead : s.data.head? = some c) (hne : p ≠ c) :
    strStarts s (String.mk (p :: ps)) = false := by
  show isPrefList (p :: ps) s.data = false
  cases hd : s.data with
  | nil => rw [hd] at hhead; cases hhead
  | cons x t =>
    rw [hd] at hhead
    have hx : x = c := by simpa using hhead
    subst hx
    show (decide (p = x) && isPrefList ps t) = false
    rw [decide_eq_false hne, Bool.false_and]

theorem fenceStage_eq_self_of_head {s : String} {c : Char}
    (hhead : s.data.head? = some c) (hne : c ≠ '`') : fenceStage s = s := by
  have h1 : strStarts s "```json" = false :=
    strStarts_false_of_head hhead (fun he => hne he.symm)
  have h2 : strStarts s "```" = false :=
    strStarts_false_of_head hhead (fun he => hne he.symm)
  unfold fenceStage
  rw [if_neg (fun hcon => by rw [h1] at hcon; cases hcon.1),
    if_neg (fun hcon => by rw [h2] at hcon; cases hcon.1)]

theorem stringify_data (v : JValue) : (stringify v).data = stringifyChars v := rfl

theorem jsTrim_stringify {v : JValue} : jsTrim (stringify v) = stringify v := by
  obtain ⟨c, t, hct, hc⟩ := stringify_head v
  obtain ⟨d, hd, hdl⟩ := stringify_last v
  apply jsTrim_eq_self
  · intro x hx
    rw [stringify_data, hct] at hx
    simp only [List.head?_cons, Option.some_inj] at hx
    subst hx
    exact headCh_not_ws hc
  · intro x hx
    rw [stringify_data, hd] at hx
    simp only [Option.some_inj] at hx
    subst hx
    exact lastCh_not_ws hdl

theorem extractJson_direct {v : JValue} (h : good v = true) :
    extractJsonFromText (stringify v) = v := by
  obtain ⟨c, t, hct, hc⟩ := stringify_head v
  unfold extractJsonFromText
  show (match sseStage (jsTrim (stringify v)) with
    | .inl w => w
    | .inr cleaned1 =>
        match jparse (fenceStage cleaned1) with
        | some w => w
        | none =>
            match braceStage (fenceStage cleaned1) with
            | some w => w
            | none => .str (stringify v)) = v
  rw [jsTrim_stringify, sseStage_no_nl (strIncludes_stringify_nl h)]
  show (match jparse (fenceStage (stringify v)) with
    | some w => w
    | none =>
        match braceStage (fenceStage (stringify v)) with
        | some w => w
        | none => .str (stringify v)) = v
  rw [fenceStage_eq_self_of_head (by rw [stringify_data, hct]; rfl)
    (headCh_ne hc (by decide))]
  rw [jparse_stringify v h]

theorem stringify_ne_DONE (v : JValue) : stringify v ≠ "[DONE]" := by
  cases v with
  | null => exact (by decide)
  | bool b => cases b <;> exact (by decide)
  | num n =>
    intro he
    have hd : intChars n = "[DONE]".data := congrArg String.data he
    by_cases hn : n < 0
    · rw [show intChars n = '-' :: natChars n.natAbs from by unfold intChars; rw [if_pos hn]]
        at hd
      rw [show "[DONE]".data = '[' :: "DONE]".data from rfl] at hd
      injection hd with h1 _
      cases h1
    · obtain ⟨c, t, hct, hc⟩ := natCharsAux_shape (n.natAbs + 1) n.natAbs (by omega)
      rw [show intChars n = c :: t from by unfold intChars; rw [if_neg hn]; exact hct] at hd
      rw [show "[DONE]".data = '[' :: "DONE]".data from rfl] at hd
      injection hd with h1 _
      exact absurd h1 (isDig_ne hc (by decide))
  | str s =>
    intro he
    have hd : quoteChars s = "[DONE]".data := congrArg String.data he
    rw [show "[DONE]".data = '[' :: "DONE]".data from rfl] at hd
    rw [show quoteChars s = '"' :: (escList s.data ++ ['"']) from rfl] at hd
    injection hd with h1 _
    cases h1
  | arr xs =>
    cases xs with
    | nil => exact (by decide)
    | cons x xs =>
      intro he
      have hd : stringifyChars (JValue.arr (x :: xs)) = "[DONE]".data :=
        congrArg String.data he
      rw [show stringifyChars (JValue.arr (x :: xs))
          = '[' :: (stringifyChars x ++ stringifyTailA xs ++ [']']) from rfl] at hd
      rw [show "[DONE]".data = '[' :: ('D' :: "ONE]".data) from rfl] at hd
      injection hd with _ h2
      obtain ⟨c, t, hct, hc⟩ := stringify_head x
      rw [hct] at h2
      rw [show (c :: t) ++ stringifyTailA xs ++ [']']
          = c :: (t ++ stringifyTailA xs ++ [']']) from by simp] at h2
      injection h2 with h3 _
      exact absurd h3 (headCh_ne hc (by decide))
  | obj fs =>
    cases fs with
    | nil => exact (by decide)
    | cons f fs =>
      obtain ⟨k, w⟩ := f
      intro he
      have hd : stringifyChars (JValue.obj ((k, w) :: fs)) = "[DONE]".data :=
        congrArg String.data he
      rw [show stringifyChars (JValue.obj ((k, w) :: fs))
          = '{' :: (quoteChars k ++ ':' :: stringifyChars w ++ stringifyTailO fs ++ ['}'])
          from rfl] at hd
      rw [show "[DONE]".data = '[' :: "DONE]".data from rfl] at hd
      injection hd with h1 _
      cases h1

theorem sseStage_eq (s : String) : sseStage s =
    (if strIncludes s "data:" && strIncludes s "\n" then
      let dataLines := (splitNl s).filterMap sseDataLine
      if dataLines.length > 0 then
        let combinedData := joinNl dataLines
        match jparse combinedData with
        | some v => .inl v
        | none => .inr combinedData
      else .inr s
    else .inr s) := rfl

theorem take_append_len {α : Type} (l1 l2 : List α) (i : Nat) :
    (l1 ++ l2).take (l1.length + i) = l1 ++ l2.take i := by
  induction l1 with
  | nil => simp
  | cons c t ih =>
    rw [List.cons_append, show (c :: t).length + i = (t.length + i) + 1 from by
      simp; omega]
    rw [List.take_succ_cons, ih, List.cons_append]

theorem stringify_ne_nil (v : JValue) : stringifyChars v ≠ [] := by
  obtain ⟨c, t, hct, -⟩ := stringify_head v
  rw [hct]
  simp

theorem sseDataLine_payload {v : JValue} (h : good v = true) :
    sseDataLine (String.mk ("data: ".data ++ stringifyChars v)) = some (stringify v) := by
  obtain ⟨c, t, hct, hc⟩ := stringify_head v
  obtain ⟨d, hd, hdl⟩ := stringify_last v
  have htrim : jsTrim (String.mk ("data: ".data ++ stringifyChars v))
      = String.mk ("data: ".data ++ stringifyChars v) := by
    apply jsTrim_eq_self
    · intro x hx
      rw [data_mk, show "data: ".data ++ stringifyChars v
          = 'd' :: ("ata: ".data ++ stringifyChars v) from rfl] at hx
      simp only [List.head?_cons, Option.some_inj] at hx
      subst hx
      decide
    · intro x hx
      rw [data_mk, List.getLast?_append_of_ne_nil _ (stringify_ne_nil v), hd] at hx
      simp only [Option.some_inj] at hx
      subst hx
      exact lastCh_not_ws hdl
  have hstarts : strStarts (String.mk ("data: ".data ++ stringifyChars v)) "data: " = true :=
    isPrefList_append_self _ _
  have hdrop : strDrop (String.mk ("data: ".data ++ stringifyChars v)) 6 = stringify v := by
    show String.mk (("data: ".data ++ stringifyChars v).drop 6) = _
    rw [show (6 : Nat) = ("data: ".data).length from rfl, List.drop_left]
    rfl
  unfold sseDataLine
  rw [htrim]
  rw [if_pos hstarts]
  rw [hdrop, jsTrim_stringify]
  rw [if_pos (stringify_ne_DONE v)]

theorem sseDataLine_stringify_none {v : JValue} (h : good v = true) :
    sseDataLine (stringify v) = none := by
  obtain ⟨c, t, hct, hc⟩ := stringify_head v
  have hstarts : strStarts (stringify v) "data: " = false :=
    strStarts_false_of_head (by rw [stringify_data, hct]; rfl)
      (fun he => headCh_ne hc (by decide) he.symm)
  unfold sseDataLine
  rw [jsTrim_stringify]
  rw [if_neg (by rw [hstarts]; exact fun hcon => Bool.false_ne_true hcon)]

theorem extractJson_sse {v : JValue} (h : good v = true) :
    extractJsonFromText ("event: message\ndata: " ++ stringify v ++ "\ndata: [DONE]") = v := by
  obtain ⟨c, t, hct, hc⟩ := stringify_head v
  have htd : ("event: message\ndata: " ++ stringify v ++ "\ndata: [DONE]").data
      = "event: message".data ++ ('\n' :: ("data: ".data ++ (stringifyChars v
          ++ ('\n' :: "data: [DONE]".data)))) := by
    show ("event: message\ndata: ".data ++ (stringify v).data) ++ "\ndata: [DONE]".data = _
    rw [show "event: message\ndata: ".data
        = "event: message".data ++ ('\n' :: "data: ".data) from rfl,
      show "\ndata: [DONE]".data = '\n' :: "data: [DONE]".data from rfl,
      stringify_data]
    simp
  have hjt : jsTrim ("event: message\ndata: " ++ stringify v ++ "\ndata: [DONE]")
      = ("event: message\ndata: " ++ stringify v ++ "\ndata: [DONE]") := by
    apply jsTrim_eq_self
    · intro x hx
      rw [htd, show "event: message".data ++ ('\n' :: ("data: ".data ++ (stringifyChars v
          ++ ('\n' :: "data: [DONE]".data))))
          = 'e' :: ("vent: message".data ++ ('\n' :: ("data: ".data ++ (stringifyChars v
              ++ ('\n' :: "data: [DONE]".data))))) from by rfl] at hx
      simp only [List.head?_cons, Option.some_inj] at hx
      subst hx
      decide
    · intro x hx
      rw [htd] at hx
      rw [List.getLast?_append_of_ne_nil _ (by simp)] at hx
      rw [show ('\n' :: ("data: ".data ++ (stringifyChars v ++ ('\n' :: "data: [DONE]".data))))
          = ('\n' :: ("data: ".data ++ (stringifyChars v ++ ['\n']))) ++ "data: [DONE]".data
          from by simp] at hx
      rw [List.getLast?_append_of_ne_nil _ (by decide)] at hx
      rw [show ("data: [DONE]".data).getLast? = some ']' from rfl] at hx
      simp only [Option.some_inj] at hx
      subst hx
      decide
  have hinc1 : strIncludes ("event: message\ndata: " ++ stringify v ++ "\ndata: [DONE]")
      "data:" = true := by
    show hasSub _ "data:".data = true
    rw [htd]
    rw [show "event: message".data ++ ('\n' :: ("data: ".data ++ (stringifyChars v
        ++ ('\n' :: "data: [DONE]".data))))
        = ("event: message".data ++ ('\n' :: "data: ".data)) ++ (stringifyChars v
            ++ ('\n' :: "data: [DONE]".data)) from by simp]
    exact hasSub_append_left _ _ _ (by decide)
  have hinc2 : strIncludes ("event: message\ndata: " ++ stringify v ++ "\ndata: [DONE]")
      "\n" = true := by
    show hasSub _ "\n".data = true
    rw [htd]
    rw [show "event: message".data ++ ('\n' :: ("data: ".data ++ (stringifyChars v
        ++ ('\n' :: "data: [DONE]".data))))
        = ("event: message".data ++ ('\n' :: "data: ".data)) ++ (stringifyChars v
            ++ ('\n' :: "data: [DONE]".data)) from by simp]
    exact hasSub_append_left _ _ _ (by decide)
  have hsplit2 : splitNlChars ('\n' :: "data: [DONE]".data)
      = [] :: ["data: [DONE]".data] := by
    rw [splitNlChars_nl]
    rfl
  have hmid : ∀ x ∈ ("data: ".data ++ stringifyChars v), x ≠ '\n' := by
    intro x hx
    rcases List.mem_append.mp hx with hx | hx
    · intro he; subst he; revert hx; decide
    · exact stringify_no_lf h x hx
  have hsplit3 : splitNlChars (("data: ".data ++ stringifyChars v)
      ++ ('\n' :: "data: [DONE]".data))
      = (("data: ".data ++ stringifyChars v) ++ []) :: ["data: [DONE]".data] :=
    splitNlChars_no_nl _ hmid _ _ _ hsplit2
  rw [List.append_nil] at hsplit3
  have hsplit4 : splitNlChars ('\n' :: (("data: ".data ++ stringifyChars v)
      ++ ('\n' :: "data: [DONE]".data)))
      = [] :: (("data: ".data ++ stringifyChars v) :: ["data: [DONE]".data]) := by
    rw [splitNlChars_nl, hsplit3]
  have hsplit5 : splitNlChars ("event: message".data ++ ('\n' :: (("data: ".data
      ++ stringifyChars v) ++ ('\n' :: "data: [DONE]".data))))
      = ("event: message".data ++ []) :: (("data: ".data ++ stringifyChars v)
          :: ["data: [DONE]".data]) :=
    splitNlChars_no_nl _ (by decide) _ _ _ hsplit4
  rw [List.append_nil] at hsplit5
  have hlines : splitNl ("event: message\ndata: " ++ stringify v ++ "\ndata: [DONE]")
      = ["event: message", String.mk ("data: ".data ++ stringifyChars v), "data: [DONE]"] := by
    unfold splitNl
    rw [htd]
    rw [show "data: ".data ++ (stringifyChars v ++ ('\n' :: "data: [DONE]".data))
        = ("data: ".data ++ stringifyChars v) ++ ('\n' :: "data: [DONE]".data) from by simp]
    rw [hsplit5]
    rfl
  have hDL : List.filterMap sseDataLine
      ["event: message", String.mk ("data: ".data ++ stringifyChars v), "data: [DONE]"]
      = [stringify v] := by
    rw [List.filterMap_cons_none (by decide),
      List.filterMap_cons_some (sseDataLine_payload h),
      List.filterMap_cons_none (by decide)]
    rfl
  have hsse : sseStage ("event: message\ndata: " ++ stringify v ++ "\ndata: [DONE]")
      = .inl v := by
    rw [sseStage_eq]
    rw [if_pos (by rw [hinc1, hinc2]; rfl)]
    show (if ((splitNl ("event: message\ndata: " ++ stringify v
        ++ "\ndata: [DONE]")).filterMap sseDataLine).length > 0 then _ else _) = _
    rw [hlines, hDL]
    rw [if_pos (by simp)]
    show (match jparse (joinNl [stringify v]) with
      | some w => Sum.inl w
      | none => Sum.inr (joinNl [stringify v])) = Sum.inl v
    rw [show joinNl [stringify v] = stringify v from rfl, jparse_stringify v h]
  unfold extractJsonFromText
  show (match sseStage (jsTrim ("event: message\ndata: " ++ stringify v
      ++ "\ndata: [DONE]")) with
    | .inl w => w
    | .inr cleaned1 =>
        match jparse (fenceStage cleaned1) with
        | some w => w
        | none =>
            match braceStage (fenceStage cleaned1) with
            | some w => w
            | none => .str ("event: message\ndata: " ++ stringify v ++ "\ndata: [DONE]")) = v
  rw [hjt, hsse]

theorem jsTrim_wrap_nl {v : JValue} (h : good v = true) :
    jsTrim (String.mk ('\n' :: (stringifyChars v ++ ['\n']))) = stringify v := by
  obtain ⟨c, t, hct, hc⟩ := stringify_head v
  obtain ⟨d, hd, hdl⟩ := stringify_last v
  unfold jsTrim jsTrimChars
  rw [data_mk]
  rw [show skipWs ('\n' :: (stringifyChars v ++ ['\n']))
      = skipWs (stringifyChars v ++ ['\n']) from by
    show (if isJWs '\n' then skipWs (stringifyChars v ++ ['\n'])
      else '\n' :: (stringifyChars v ++ ['\n'])) = _
    rw [if_pos (by decide)]]
  rw [show skipWs (stringifyChars v ++ ['\n']) = stringifyChars v ++ ['\n'] from by
    rw [hct, List.cons_append]
    exact skipWs_of_head_nonWs _ (headCh_not_ws hc)]
  rw [show (stringifyChars v ++ ['\n']).reverse = '\n' :: (stringifyChars v).reverse from by
    simp]
  rw [show skipWs ('\n' :: (stringifyChars v).reverse)
      = skipWs ((stringifyChars v).reverse) from by
    show (if isJWs '\n' then skipWs ((stringifyChars v).reverse)
      else '\n' :: (stringifyChars v).reverse) = _
    rw [if_pos (by decide)]]
  rw [show skipWs ((stringifyChars v).reverse) = (stringifyChars v).reverse from by
    have hrev : (stringifyChars v).reverse.head? = some d := by
      rw [List.head?_reverse]
      exact hd
    cases hre : (stringifyChars v).reverse with
    | nil => rfl
    | cons y ys =>
      rw [hre] at hrev
      simp only [List.head?_cons, Option.some_inj] at hrev
      subst hrev
      exact skipWs_of_head_nonWs _ (lastCh_not_ws hdl)]
  rw [List.reverse_reverse]
  rfl

theorem extractJson_fence {v : JValue} (h : good v = true) :
    extractJsonFromText ("```json\n" ++ stringify v ++ "\n```") = v := by
  obtain ⟨c, t, hct, hc⟩ := stringify_head v
  have htd : ("```json\n" ++ stringify v ++ "\n```").data
      = "```json".data ++ ('\n' :: (stringifyChars v ++ ('\n' :: "```".data))) := by
    show ("```json\n".data ++ (stringify v).data) ++ "\n```".data = _
    rw [show "```json\n".data = "```json".data ++ ['\n'] from rfl,
      show "\n```".data = '\n' :: "```".data from rfl,
      stringify_data]
    simp
  have hjt : jsTrim ("```json\n" ++ stringify v ++ "\n```")
      = ("```json\n" ++ stringify v ++ "\n```") := by
    apply jsTrim_eq_self
    · intro x hx
      rw [htd, show "```json".data ++ ('\n' :: (stringifyChars v ++ ('\n' :: "```".data)))
          = '`' :: ("``json".data ++ ('\n' :: (stringifyChars v ++ ('\n' :: "```".data))))
          from rfl] at hx
      simp only [List.head?_cons, Option.some_inj] at hx
      subst hx
      decide
    · intro x hx
      rw [htd] at hx
      rw [List.getLast?_append_of_ne_nil _ (by simp)] at hx
      rw [show ('\n' :: (stringifyChars v ++ ('\n' :: "```".data)))
          = ('\n' :: (stringifyChars v ++ ['\n'])) ++ "```".data from by simp] at hx
      rw [List.getLast?_append_of_ne_nil _ (by decide)] at hx
      rw [show ("```".data).getLast? = some '`' from rfl] at hx
      simp only [Option.some_inj] at hx
      subst hx
      decide
  have hsse : sseStage ("```json\n" ++ stringify v ++ "\n```")
      = .inr ("```json\n" ++ stringify v ++ "\n```") := by
    rw [sseStage_eq]
    by_cases hcond : (strIncludes ("```json\n" ++ stringify v ++ "\n```") "data:"
        && strIncludes ("```json\n" ++ stringify v ++ "\n```") "\n") = true
    · rw [if_pos hcond]
      have hsplit1 : splitNlChars ('\n' :: "```".data) = [] :: ["```".data] := by
        rw [splitNlChars_nl]
        rfl
      have hsplit2 : splitNlChars (stringifyChars v ++ ('\n' :: "```".data))
          = (stringifyChars v ++ []) :: ["```".data] :=
        splitNlChars_no_nl _ (stringify_no_lf h) _ _ _ hsplit1
      rw [List.append_nil] at hsplit2
      have hsplit3 : splitNlChars ('\n' :: (stringifyChars v ++ ('\n' :: "```".data)))
          = [] :: (stringifyChars v :: ["```".data]) := by
        rw [splitNlChars_nl, hsplit2]
      have hsplit4 : splitNlChars ("```json".data ++ ('\n' :: (stringifyChars v
          ++ ('\n' :: "```".data))))
          = ("```json".data ++ []) :: (stringifyChars v :: ["```".data]) :=
        splitNlChars_no_nl _ (by decide) _ _ _ hsplit3
      rw [List.append_nil] at hsplit4
      have hlines : splitNl ("```json\n" ++ stringify v ++ "\n```")
          = ["```json", stringify v, "```"] := by
        unfold splitNl
        rw [htd, hsplit4]
        rfl
      have hDL : List.filterMap sseDataLine ["```json", stringify v, "```"] = [] := by
        rw [List.filterMap_cons_none (by decide),
          List.filterMap_cons_none (sseDataLine_stringify_none h),
          List.filterMap_cons_none (by decide)]
        rfl
      show (if ((splitNl ("```json\n" ++ stringify v
          ++ "\n```")).filterMap sseDataLine).length > 0 then _ else _) = _
      rw [hlines, hDL]
      rw [if_neg (by simp)]
    · rw [if_neg hcond]
  have hlen : ("```json\n" ++ stringify v ++ "\n```").length
      = (stringifyChars v).length + 12 := by
    show (("```json\n" ++ stringify v ++ "\n```").data).length = _
    rw [htd]
    simp [List.length_append]
  have hfence : fenceStage ("```json\n" ++ stringify v ++ "\n```") = stringify v := by
    unfold fenceStage
    have hstarts : strStarts ("```json\n" ++ stringify v ++ "\n```") "```json" = true := by
      show isPrefList "```json".data _ = true
      rw [htd]
      exact isPrefList_append_self _ _
    have hends : strEnds ("```json\n" ++ stringify v ++ "\n```") "```" = true := by
      show isPrefList ("```".data).reverse (("```json\n" ++ stringify v
          ++ "\n```").data).reverse = true
      rw [htd]
      rw [show ("```json".data ++ ('\n' :: (stringifyChars v
          ++ ('\n' :: "```".data)))).reverse
          = ("```".data).reverse ++ ('\n' :: ((stringifyChars v).reverse
              ++ ('\n' :: ("```json".data).reverse))) from by simp]
      exact isPrefList_append_self _ _
    rw [if_pos ⟨hstarts, by omega, hends⟩]
    have hdrop : strDrop ("```json\n" ++ stringify v ++ "\n```") 7
        = String.mk ('\n' :: (stringifyChars v ++ ('\n' :: "```".data))) := by
      show String.mk ((("```json\n" ++ stringify v ++ "\n```").data).drop 7) = _
      rw [htd, show (7 : Nat) = ("```json".data).length from rfl, List.drop_left]
    rw [hdrop]
    have htake : strTake (String.mk ('\n' :: (stringifyChars v ++ ('\n' :: "```".data))))
        (("```json\n" ++ stringify v ++ "\n```").length - 10)
        = String.mk ('\n' :: (stringifyChars v ++ ['\n'])) := by
      show String.mk (('\n' :: (stringifyChars v ++ ('\n' :: "```".data))).take _) = _
      rw [hlen, show (stringifyChars v).length + 12 - 10
          = ((stringifyChars v).length + 1) + 1 from by omega]
      rw [List.take_succ_cons]
      rw [show ('\n' :: "```".data) = ['\n'] ++ "```".data from rfl]
      rw [← List.append_assoc]
      rw [show (stringifyChars v).length + 1 = (stringifyChars v ++ ['\n']).length + 0 from by
        simp]
      rw [take_append_len]
      simp
    rw [htake, jsTrim_wrap_nl h]
  unfold extractJsonFromText
  show (match sseStage (jsTrim ("```json\n" ++ stringify v ++ "\n```")) with
    | .inl w => w
    | .inr cleaned1 =>
        match jparse (fenceStage cleaned1) with
        | some w => w
        | none =>
            match braceStage (fenceStage cleaned1) with
            | some w => w
            | none => .str ("```json\n" ++ stringify v ++ "\n```")) = v
  rw [hjt, hsse]
  show (match jparse (fenceStage ("```json\n" ++ stringify v ++ "\n```")) with
    | some w => w
    | none =>
        match braceStage (fenceStage ("```json\n" ++ stringify v ++ "\n```")) with
        | some w => w
        | none => .str ("```json\n" ++ stringify v ++ "\n```")) = v
  rw [hfence, jparse_stringify v h]

theorem firstBraceSuffix_skip : ∀ (l : List Char), (∀ c ∈ l, c ≠ '{' ∧ c ≠ '[') →
    ∀ cs, firstBraceSuffix (l ++ cs) = firstBraceSuffix cs := by
  intro l hl
  induction l with
  | nil => intro cs; rfl
  | cons c t ih =>
    intro cs
    obtain ⟨h1, h2⟩ := hl c (by simp)
    show (if c = '{' then some (c :: (t ++ cs), '}')
      else if c = '[' then some (c :: (t ++ cs), ']')
      else firstBraceSuffix (t ++ cs)) = _
    rw [if_neg h1, if_neg h2, ih (fun y hy => hl y (by simp [hy])) cs]

theorem extractJson_brace_obj {fs : List (String × JValue)} (h : goodO fs = true) :
    extractJsonFromText ("Here is the result: " ++ stringify (.obj fs)) = .obj fs := by
  have hg : good (.obj fs) = true := by simpa [good] using h
  obtain ⟨d, hd, hdl⟩ := stringify_last (.obj fs)
  have htd : ("Here is the result: " ++ stringify (.obj fs)).data
      = "Here is the result: ".data ++ stringifyChars (.obj fs) := by
    show "Here is the result: ".data ++ (stringify (.obj fs)).data = _
    rw [stringify_data]
  have hjt : jsTrim ("Here is the result: " ++ stringify (.obj fs))
      = "Here is the result: " ++ stringify (.obj fs) := by
    apply jsTrim_eq_self
    · intro x hx
      rw [htd, show "Here is the result: ".data ++ stringifyChars (.obj fs)
          = 'H' :: ("ere is the result: ".data ++ stringifyChars (.obj fs)) from rfl] at hx
      simp only [List.head?_cons, Option.some_inj] at hx
      subst hx
      decide
    · intro x hx
      rw [htd, List.getLast?_append_of_ne_nil _ (stringify_ne_nil _), hd] at hx
      simp only [Option.some_inj] at hx
      subst hx
      exact lastCh_not_ws hdl
  have hnl : strIncludes ("Here is the result: " ++ stringify (.obj fs)) "\n" = false := by
    show hasSub _ ['\n'] = false
    rw [htd]
    apply hasSub_single_false
    intro x hx
    rcases List.mem_append.mp hx with hx | hx
    · intro he; subst he; revert hx; decide
    · exact stringify_no_lf hg x hx
  have hfence : fenceStage ("Here is the result: " ++ stringify (.obj fs))
      = "Here is the result: " ++ stringify (.obj fs) :=
    fenceStage_eq_self_of_head (by rw [htd]; rfl) (by decide)
  have hjp : jparse ("Here is the result: " ++ stringify (.obj fs)) = none := by
    unfold jparse
    have hpv : parseVal (2 * ("Here is the result: " ++ stringify (.obj fs)).length + 1 + 1)
        ("Here is the result: " ++ stringify (.obj fs)).data = none := by
      have hsw : skipWs ("Here is the result: " ++ stringify (.obj fs)).data
          = 'H' :: ("ere is the result: ".data ++ stringifyChars (.obj fs)) := by
        rw [htd, show "Here is the result: ".data ++ stringifyChars (.obj fs)
            = 'H' :: ("ere is the result: ".data ++ stringifyChars (.obj fs)) from rfl]
        exact skipWs_of_head_nonWs _ (by decide)
      rw [parseVal_succ_cons _ 'H' _ _ hsw]
      rw [if_neg (by decide), if_neg (by decide), if_neg (by decide), if_neg (by decide),
        if_neg (by decide), if_neg (by decide), if_neg (by decide)]
    rw [show 2 * ("Here is the result: " ++ stringify (.obj fs)).length + 2
        = 2 * ("Here is the result: " ++ stringify (.obj fs)).length + 1 + 1 from by omega,
      hpv]
  have hobj : ∃ t1, stringifyChars (.obj fs) = '{' :: t1 := by
    cases fs with
    | nil => exact ⟨['}'], rfl⟩
    | cons f fs =>
      obtain ⟨k, w⟩ := f
      exact ⟨_, rfl⟩
  obtain ⟨t1, ht1⟩ := hobj
  have hbrace : braceStage ("Here is the result: " ++ stringify (.obj fs))
      = some (.obj fs) := by
    unfold braceStage
    have hfb : firstBraceSuffix ("Here is the result: " ++ stringify (.obj fs)).data
        = some (stringifyChars (.obj fs), '}') := by
      rw [htd, firstBraceSuffix_skip "Here is the result: ".data (by decide) _, ht1]
      show (if '{' = '{' then some ('{' :: t1, '}')
        else if '{' = '[' then some ('{' :: t1, ']')
        else firstBraceSuffix t1) = _
      rw [if_pos rfl]
    rw [hfb]
    show (match scanB '}' (stringifyChars (.obj fs)) 0 false false [] with
      | some sub => jparse (String.mk sub)
      | none => none) = _
    have hscan := scanB_obj_full fs h []
    rw [List.append_nil] at hscan
    rw [hscan]
    show jparse (String.mk (stringifyChars (.obj fs))) = _
    exact jparse_stringify _ hg
  unfold extractJsonFromText
  show (match sseStage (jsTrim ("Here is the result: " ++ stringify (.obj fs))) with
    | .inl w => w
    | .inr cleaned1 =>
        match jparse (fenceStage cleaned1) with
        | some w => w
        | none =>
            match braceStage (fenceStage cleaned1) with
            | some w => w
            | none => .str ("Here is the result: " ++ stringify (.obj fs))) = JValue.obj fs
  rw [hjt, sseStage_no_nl hnl]
  show (match jparse (fenceStage ("Here is the result: " ++ stringify (.obj fs))) with
    | some w => w
    | none =>
        match braceStage (fenceStage ("Here is the result: " ++ stringify (.obj fs))) with
        | some w => w
        | none => .str ("Here is the result: " ++ stringify (.obj fs))) = JValue.obj fs
  rw [hfence, hjp]
  show (match braceStage ("Here is the result: " ++ stringify (.obj fs)) with
    | some w => w
    | none => .str ("Here is the result: " ++ stringify (.obj fs))) = JValue.obj fs
  rw [hbrace]

theorem extractJson_brace_arr {xs : List JValue} (h : goodL xs = true) :
    extractJsonFromText ("Here is the result: " ++ stringify (.arr xs)) = .arr xs := by
  have hg : good (.arr xs) = true := by simpa [good] using h
  obtain ⟨d, hd, hdl⟩ := stringify_last (.arr xs)
  have htd : ("Here is the result: " ++ stringify (.arr xs)).data
      = "Here is the result: ".data ++ stringifyChars (.arr xs) := by
    show "Here is the result: ".data ++ (stringify (.arr xs)).data = _
    rw [stringify_data]
  have hjt : jsTrim ("Here is the result: " ++ stringify (.arr xs))
      = "Here is the result: " ++ stringify (.arr xs) := by
    apply jsTrim_eq_self
    · intro x hx
      rw [htd, show "Here is the result: ".data ++ stringifyChars (.arr xs)
          = 'H' :: ("ere is the result: ".data ++ stringifyChars (.arr xs)) from rfl] at hx
      simp only [List.head?_cons, Option.some_inj] at hx
      subst hx
      decide
    · intro x hx
      rw [htd, List.getLast?_append_of_ne_nil _ (stringify_ne_nil _), hd] at hx
      simp only [Option.some_inj] at hx
      subst hx
      exact lastCh_not_ws hdl
  have hnl : strIncludes ("Here is the result: " ++ stringify (.arr xs)) "\n" = false := by
    show hasSub _ ['\n'] = false
    rw [htd]
    apply hasSub_single_false
    intro x hx
    rcases List.mem_append.mp hx with hx | hx
    · intro he; subst he; revert hx; decide
    · exact stringify_no_lf hg x hx
  have hfence : fenceStage ("Here is the result: " ++ stringify (.arr xs))
      = "Here is the result: " ++ stringify (.arr xs) :=
    fenceStage_eq_self_of_head (by rw [htd]; rfl) (by decide)
  have hjp : jparse ("Here is the result: " ++ stringify (.arr xs)) = none := by
    unfold jparse
    have hpv : parseVal (2 * ("Here is the result: " ++ stringify (.arr xs)).length + 1 + 1)
        ("Here is the result: " ++ stringify (.arr xs)).data = none := by
      have hsw : skipWs ("Here is the result: " ++ stringify (.arr xs)).data
          = 'H' :: ("ere is the result: ".data ++ stringifyChars (.arr xs)) := by
        rw [htd, show "Here is the result: ".data ++ stringifyChars (.arr xs)
            = 'H' :: ("ere is the result: ".data ++ stringifyChars (.arr xs)) from rfl]
        exact skipWs_of_head_nonWs _ (by decide)
      rw [parseVal_succ_cons _ 'H' _ _ hsw]
      rw [if_neg (by decide), if_neg (by decide), if_neg (by decide), if_neg (by decide),
        if_neg (by decide), if_neg (by decide), if_neg (by decide)]
    rw [show 2 * ("Here is the result: " ++ stringify (.arr xs)).length + 2
        = 2 * ("Here is the result: " ++ stringify (.arr xs)).length + 1 + 1 from by omega,
      hpv]
  have harr : ∃ t1, stringifyChars (.arr xs) = '[' :: t1 := by
    cases xs with
    | nil => exact ⟨[']'], rfl⟩
    | cons x xs => exact ⟨_, rfl⟩
  obtain ⟨t1, ht1⟩ := harr
  have hbrace : braceStage ("Here is the result: " ++ stringify (.arr xs))
      = some (.arr xs) := by
    unfold braceStage
    have hfb : firstBraceSuffix ("Here is the result: " ++ stringify (.arr xs)).data
        = some (stringifyChars (.arr xs), ']') := by
      rw [htd, firstBraceSuffix_skip "Here is the result: ".data (by decide) _, ht1]
      show (if '[' = '{' then some ('[' :: t1, '}')
        else if '[' = '[' then some ('[' :: t1, ']')
        else firstBraceSuffix t1) = _
      rw [if_neg (by decide), if_pos rfl]
    rw [hfb]
    show (match scanB ']' (stringifyChars (.arr xs)) 0 false false [] with
      | some sub => jparse (String.mk sub)
      | none => none) = _
    have hscan := scanB_arr_full xs h []
    rw [List.append_nil] at hscan
    rw [hscan]
    show jparse (String.mk (stringifyChars (.arr xs))) = _
    exact jparse_stringify _ hg
  unfold extractJsonFromText
  show (match sseStage (jsTrim ("Here is the result: " ++ stringify (.arr xs))) with
    | .inl w => w
    | .inr cleaned1 =>
        match jparse (fenceStage cleaned1) with
        | some w => w
        | none =>
            match braceStage (fenceStage cleaned1) with
            | some w => w
            | none => .str ("Here is the result: " ++ stringify (.arr xs))) = JValue.arr xs
  rw [hjt, sseStage_no_nl hnl]
  show (match jparse (fenceStage ("Here is the result: " ++ stringify (.arr xs))) with
    | some w => w
    | none =>
        match braceStage (fenceStage ("Here is the result: " ++ stringify (.arr xs))) with
        | some w => w
        | none => .str ("Here is the result: " ++ stringify (.arr xs))) = JValue.arr xs
  rw [hfence, hjp]
  show (match braceStage ("Here is the result: " ++ stringify (.arr xs)) with
    | some w => w
    | none => .str ("Here is the result: " ++ stringify (.arr xs))) = JValue.arr xs
  rw [hbrace]

theorem goodStr_stringify {v : JValue} (h : good v = true) :
    goodStr (stringify v) = true := by
  show ((stringify v).data).all goodChar = true
  rw [stringify_data]
  rw [List.all_eq_true]
  intro c hc
  have h32 := stringify_ge32 v h c hc
  simp [goodChar, h32]

theorem parseContentText_double {v : JValue} (h : good v = true) :
    parseContentText (stringify (.str (stringify v))) = v := by
  have hgs : good (.str (stringify v)) = true := by
    simpa [good] using goodStr_stringify h
  unfold parseContentText
  rw [extractJson_direct hgs]
  show extractJsonFromText (stringify v) = v
  exact extractJson_direct h

/-- C5: the response-normalisation pipeline of `_extractJsonFromText` (and the
content extraction of `_request` that reuses it regardless of the declared
Content-Type) behaves as specified on every `good` value: (1) SSE-shaped text is
detected by content inspection and its `data: ` lines are extracted (the
`[DONE]` marker is ignored) and parsed; (2) a markdown code fence is stripped
and the body parsed; (3) plain serialized JSON is parsed directly; (4)/(5) text
with a leading non-JSON prefix has its first balanced `\x7b...\x7d` or `[...]`
substring located (respecting string and escape state) and parsed; and (6) a
double-encoded response - whose first parse yields a string - is parsed a
second time, recovering the inner value. -/
theorem c5_extractJson_normalization (v : JValue) (fs : List (String × JValue))
    (xs : List JValue) (hv : good v = true) (hfs : goodO fs = true) (hxs : goodL xs = true) :
    extractJsonFromText ("event: message\ndata: " ++ stringify v ++ "\ndata: [DONE]") = v ∧
    extractJsonFromText ("```json\n" ++ stringify v ++ "\n```") = v ∧
    extractJsonFromText (stringify v) = v ∧
    extractJsonFromText ("Here is the result: " ++ stringify (.obj fs)) = .obj fs ∧
    extractJsonFromText ("Here is the result: " ++ stringify (.arr xs)) = .arr xs ∧
    parseContentText (stringify (.str (stringify v))) = v :=
  ⟨extractJson_sse hv, extractJson_fence hv, extractJson_direct hv,
    extractJson_brace_obj hfs, extractJson_brace_arr hxs, parseContentText_double hv⟩

/-- C5 witness: the normalisation pipeline at concrete inputs. -/
theorem c5_witness :
    good (JValue.obj [("a", JValue.num 1)]) = true ∧
    goodO [("ok", JValue.bool true)] = true ∧
    goodL [JValue.num 2, JValue.str "hi"] = true ∧
    extractJsonFromText ("event: message\ndata: "
      ++ stringify (JValue.obj [("a", JValue.num 1)]) ++ "\ndata: [DONE]")
      = JValue.obj [("a", JValue.num 1)] := by
  refine ⟨by decide, by decide, by decide, ?_⟩
  exact (c5_extractJson_normalization (JValue.obj [("a", JValue.num 1)])
    [("ok", JValue.bool true)] [JValue.num 2, JValue.str "hi"]
    (by decide) (by decide) (by decide)).1

end TabMCP
